import Mathlib

/-!
# Pico: pixel-intensity-comparison cascades

A shallow embedding of the training program `src/gen/picolrn.cpp` and of the
detection runtime `src/rnt/picornt.cpp`.

Conventions of the embedding.

* C `int` values are Lean integers.  In `bintest`, whose arguments the program does
  not bound, every `int` operation is reduced to the 32-bit range by `wrap32`, as the
  compiled program does; the other `int` values are counters and indices, and the
  embedding computes with them in `Int`.  The unsigned 32-bit arithmetic of the
  generator `mwcrand_r` is reduced modulo `2^32` explicitly.
* `float` and `double` values are elements of a linearly ordered field `K` with a
  floor function: `ℚ` for evaluation, `ℝ` for statements about `exp`.  The library
  function `exp` is a parameter `expf : K → K`.
* The rounding of the `float` operations is a parameter `rnd : K → K` of the functions
  whose results decide a comparison or a conversion to `int` of the program: a `float`
  operation yields `rnd` of the exact result.  This covers the extents `(int)(tsr*s)`,
  the running outputs of `classify_region` and `learn_new_stage`, the threshold scan,
  and `get_overlap` with the test of `ccdfs`.  `round32` is the rounding of binary32
  (to nearest, ties to even) on `ℚ`; `fun x => x` is exact arithmetic.  The weights of
  `learn_new_stage` (`double`), the leaf values, the scores of `get_split_error`, the
  sums of `cluster_detections` and the scan of `find_objects` are computed in exact
  arithmetic.
* C arrays are total functions from indices to values; a store is a pointwise
  update.  The global image pool (`ppixels`, `pdims`) is a function from image
  indices to images.
* Loops bounded by a counter recurse on the number of remaining rounds; the
  threshold scan of `learn_new_stage`, whose length depends on the data, takes a
  fuel argument and returns `none` when the fuel runs out.  The same holds for the
  scan loops of `find_objects`, the outer loop of `split_training_data` and the
  recursion of `ccdfs`; the theorems give a fuel that is enough.
* The detection runtime `src/rnt/picornt.cpp` (`find_objects`, `get_overlap`,
  `ccdfs`, `find_connected_components`, `cluster_detections`) is embedded with the
  same conventions.
* The divisions of `get_split_error` and the rates of the threshold scan can divide by
  zero, and their results are compared: there floating values are elements of `Flt K`,
  which adds the two infinities and NaN to `K`.
-/

namespace Pico

/-! ## Auxiliary macros and conversions -/

/-- The macro `MAX(a, b)` of the source: `((a)>(b)?(a):(b))`. -/
def MAX (a b : Int) : Int := if a > b then a else b

/-- The macro `MIN(a, b)` of the source: `((a)<(b)?(a):(b))`. -/
def MIN (a b : Int) : Int := if a < b then a else b

/-- Byte `k` of a 32-bit word, lowest byte first, read as `int8_t`:
`p[k]` for `int8_t* p = (int8_t*)&tcode`. -/
def sbyte (tcode : Int) (k : Nat) : Int :=
  let b := (tcode / 256 ^ k) % 256
  if b < 128 then b else b - 256

/-- The conversion `(int)x` of a floating value: truncation toward zero. -/
def ftoi {K : Type} [LinearOrderedField K] [FloorRing K] (x : K) : Int :=
  if 0 ≤ x then Int.floor x else Int.ceil x

/-- The value that a result `x` of 32-bit `int` arithmetic takes in the machine: `x`
itself when it fits, otherwise `x` reduced modulo `2^32` into `[-2^31, 2^31)` (the
compiled program wraps). -/
def wrap32 (x : Int) : Int := (x + 2147483648) % 4294967296 - 2147483648

/-- The value `x` fits the 32-bit `int`. -/
def Fits32 (x : Int) : Prop := -2147483648 ≤ x ∧ x < 2147483648

/-! ## Floating values -/

/-- A floating value where a division can meet a zero divisor: a finite value (an element
of `K`), an infinity, or NaN.  Zero carries no sign: the divisors concerned are counts and
sums started at `+0.0`, which are never `-0.0`. -/
inductive Flt (K : Type) where
  | fin : K → Flt K
  | pinf : Flt K
  | ninf : Flt K
  | nan : Flt K

/-- Negation of a floating value. -/
def Flt.neg {K : Type} [LinearOrderedField K] : Flt K → Flt K
  | Flt.fin x => Flt.fin (-x)
  | Flt.pinf => Flt.ninf
  | Flt.ninf => Flt.pinf
  | Flt.nan => Flt.nan

/-- Addition of floating values: NaN propagates and `inf + (-inf)` is NaN. -/
def Flt.add {K : Type} [LinearOrderedField K] : Flt K → Flt K → Flt K
  | Flt.fin x, Flt.fin y => Flt.fin (x + y)
  | Flt.fin _, Flt.pinf => Flt.pinf
  | Flt.fin _, Flt.ninf => Flt.ninf
  | Flt.fin _, Flt.nan => Flt.nan
  | Flt.pinf, Flt.fin _ => Flt.pinf
  | Flt.pinf, Flt.pinf => Flt.pinf
  | Flt.pinf, Flt.ninf => Flt.nan
  | Flt.pinf, Flt.nan => Flt.nan
  | Flt.ninf, Flt.fin _ => Flt.ninf
  | Flt.ninf, Flt.pinf => Flt.nan
  | Flt.ninf, Flt.ninf => Flt.ninf
  | Flt.ninf, Flt.nan => Flt.nan
  | Flt.nan, _ => Flt.nan

/-- Subtraction of floating values. -/
def Flt.sub {K : Type} [LinearOrderedField K] (a b : Flt K) : Flt K :=
  Flt.add a (Flt.neg b)

/-- Division of floating values: `0/0` and `inf/inf` are NaN, a non-zero finite value
over zero is the infinity of its sign, a finite value over an infinity is zero. -/
def Flt.div {K : Type} [LinearOrderedField K] : Flt K → Flt K → Flt K
  | Flt.fin x, Flt.fin y =>
    if y = 0 then (if x = 0 then Flt.nan else if 0 < x then Flt.pinf else Flt.ninf)
    else Flt.fin (x / y)
  | Flt.fin _, Flt.pinf => Flt.fin 0
  | Flt.fin _, Flt.ninf => Flt.fin 0
  | Flt.fin _, Flt.nan => Flt.nan
  | Flt.pinf, Flt.fin y => if 0 ≤ y then Flt.pinf else Flt.ninf
  | Flt.pinf, Flt.pinf => Flt.nan
  | Flt.pinf, Flt.ninf => Flt.nan
  | Flt.pinf, Flt.nan => Flt.nan
  | Flt.ninf, Flt.fin y => if 0 ≤ y then Flt.ninf else Flt.pinf
  | Flt.ninf, Flt.pinf => Flt.nan
  | Flt.ninf, Flt.ninf => Flt.nan
  | Flt.ninf, Flt.nan => Flt.nan
  | Flt.nan, _ => Flt.nan

/-- The comparison `a > b` of floating values: false as soon as one side is NaN. -/
def Flt.gt {K : Type} [LinearOrderedField K] : Flt K → Flt K → Bool
  | Flt.fin x, Flt.fin y => decide (x > y)
  | Flt.fin _, Flt.pinf => false
  | Flt.fin _, Flt.ninf => true
  | Flt.fin _, Flt.nan => false
  | Flt.pinf, Flt.fin _ => true
  | Flt.pinf, Flt.pinf => false
  | Flt.pinf, Flt.ninf => true
  | Flt.pinf, Flt.nan => false
  | Flt.ninf, _ => false
  | Flt.nan, _ => false

/-- The quotient `x / y` of two finite floating values as the machine forms it: NaN for
`0/0`, the infinity of the sign of `x` for a non-zero `x` over zero, otherwise the exact
quotient rounded by `rnd`. -/
def fdiv {K : Type} [LinearOrderedField K] (rnd : K → K) (x y : K) : Flt K :=
  if y = 0 then (if x = 0 then Flt.nan else if 0 < x then Flt.pinf else Flt.ninf)
  else Flt.fin (rnd (x / y))

/-- The integer nearest to `x`, a tie going to the even neighbour. -/
def round_half_even (x : ℚ) : Int :=
  let f := Int.floor x
  if x - f < 1 / 2 then f
  else if 1 / 2 < x - f then f + 1
  else if f % 2 = 0 then f else f + 1

/-- The binary32 value nearest to `x` (round to nearest, ties to even), for `x` below
the overflow threshold `2^128`: with `e` the binary exponent of `x`, at least `-126`,
the multiple of `2^(e-23)` nearest to `x`. -/
def round32 (x : ℚ) : ℚ :=
  if x = 0 then 0
  else
    let e := max (Int.log 2 |x|) (-126)
    (round_half_even (x / 2 ^ (e - 23)) : ℚ) * 2 ^ (e - 23)

/-! ## Images -/

/-- One entry of the image pool: `pdims[i]` and `ppixels[i]`. -/
structure Image where
  /-- Height, `pdims[i][0]`. -/
  nrows : Int
  /-- Width, `pdims[i][1]`. -/
  ncols : Int
  /-- Intensities in row-major order, `ppixels[i][k]`. -/
  pixels : Int → Nat

/-- The image pool, indexed by image index. -/
abbrev Pool := Int → Image

/-- An image given by its rows (for concrete examples). -/
def Image.ofRows (rows : List (List Nat)) : Image where
  nrows := rows.length
  ncols := (rows.headD []).length
  pixels := fun k => rows.flatten.getD k.toNat 0

/-! ## Binary tests -/

/-- Source `bintest` (picolrn.cpp 205-222).  The arguments are `int` values; every
product, sum and difference of the source is an `int` operation and wraps. -/
def bintest (pool : Pool) (tcode r c sr sc iind : Int) : Int :=
  let r1 := Int.tdiv (wrap32 (wrap32 (256 * r) + wrap32 (sbyte tcode 0 * sr))) 256
  let c1 := Int.tdiv (wrap32 (wrap32 (256 * c) + wrap32 (sbyte tcode 1 * sc))) 256
  let r2 := Int.tdiv (wrap32 (wrap32 (256 * r) + wrap32 (sbyte tcode 2 * sr))) 256
  let c2 := Int.tdiv (wrap32 (wrap32 (256 * c) + wrap32 (sbyte tcode 3 * sc))) 256
  let r1 := MIN (MAX 0 r1) (wrap32 ((pool iind).nrows - 1))
  let c1 := MIN (MAX 0 c1) (wrap32 ((pool iind).ncols - 1))
  let r2 := MIN (MAX 0 r2) (wrap32 ((pool iind).nrows - 1))
  let c2 := MIN (MAX 0 c2) (wrap32 ((pool iind).ncols - 1))
  if (pool iind).pixels (wrap32 (wrap32 (r1 * (pool iind).ncols) + c1))
      ≤ (pool iind).pixels (wrap32 (wrap32 (r2 * (pool iind).ncols) + c2)) then 1 else 0

/-- The arithmetic of `bintest` on the arguments `r`, `c`, `sr`, `sc` with the offsets of
`tcode` does not overflow the 32-bit `int` on an image with `H` rows and `W` columns:
the products `256*r`, `256*c`, `d*sr`, `d*sc` and their sums fit for each offset `d` of
the code, and so do `H*W` and the image sizes. -/
def NoOverflow (H W tcode r c sr sc : Int) : Prop :=
  Fits32 (256 * r) ∧ Fits32 (256 * c) ∧
  (∀ k, k = 0 ∨ k = 2 → Fits32 (sbyte tcode k * sr) ∧ Fits32 (256 * r + sbyte tcode k * sr)) ∧
  (∀ k, k = 1 ∨ k = 3 → Fits32 (sbyte tcode k * sc) ∧ Fits32 (256 * c + sbyte tcode k * sc)) ∧
  Fits32 H ∧ Fits32 W ∧ Fits32 (H * W)

/-- The location sampled for the offset pair `(dr, dc)` as the specification words
it: each coordinate is the quotient of `256*r + dr*sr` (resp. `256*c + dc*sc`) by
`256`, rounded toward zero, then clamped into `[0, H-1]` (resp. `[0, W-1]`). -/
def sample_location (H W r c sr sc dr dc : Int) : Int × Int :=
  (min (max 0 (Int.tdiv (256 * r + dr * sr) 256)) (H - 1),
   min (max 0 (Int.tdiv (256 * c + dc * sc) 256)) (W - 1))

/-! ## The cascade -/

/-- The global cascade: `tsr`, `tsc`, `tdepth`, `ntrees`, `tcodes`, `luts`,
`thresholds`. -/
structure Cascade (K : Type) where
  tsr : K
  tsc : K
  tdepth : Nat
  ntrees : Nat
  /-- Internal-node codes, `tcodes[i][k]`. -/
  tcodes : Nat → Int → Int
  /-- Leaf values, `luts[i][k]`. -/
  luts : Nat → Int → K
  /-- Exit thresholds, `thresholds[i]`; the index is an `int` expression. -/
  thresholds : Int → K

/-- The value of `idx` in `get_tree_output` after `j` rounds of
`idx = 2*idx + bit`, where `bit k` is the outcome of the test stored at
position `k` of the code row. -/
def walk_idx (bit : Int → Int) : Nat → Int
  | 0 => 1
  | j + 1 => 2 * walk_idx bit j + bit (walk_idx bit j - 1)

/-- Source `get_tree_output` (picolrn.cpp 457-465). -/
def get_tree_output {K : Type} (casc : Cascade K) (pool : Pool) (i : Nat)
    (r c sr sc iind : Int) : K :=
  casc.luts i
    (walk_idx (fun k => bintest pool (casc.tcodes i k) r c sr sc iind) casc.tdepth
      - 2 ^ casc.tdepth)

/-- The `for` loop of `classify_region`: `rem` trees remain, `i` is the loop
counter and `o` the running output `*o`.  Returns the return value and `*o`.  The sum
`*o += ...` is a `float` operation, rounded by `rnd`. -/
def classify_loop {K : Type} [LinearOrderedField K] (rnd : K → K) (casc : Cascade K)
    (pool : Pool) (r c sr sc iind : Int) : Nat → Nat → K → Int × K
  | 0, _, o => (1, o)
  | rem + 1, i, o =>
    let o1 := rnd (o + get_tree_output casc pool i r c sr sc iind)
    if o1 ≤ casc.thresholds i then (-1, o1)
    else classify_loop rnd casc pool r c sr sc iind rem (i + 1) o1

/-- Source `classify_region` (picolrn.cpp 467-485).  The argument `o` is the value
held by `*o` before the call; the result is the return value and `*o` after it.  In
`(int)(tsr*s)` the `int` `s` is converted to `float` and the product is a `float`
operation; both are rounded by `rnd` before the truncation. -/
def classify_region {K : Type} [LinearOrderedField K] [FloorRing K] (rnd : K → K)
    (casc : Cascade K) (pool : Pool) (o : K) (r c s iind : Int) : Int × K :=
  if casc.ntrees = 0 then (1, o)
  else
    let sr := ftoi (rnd (casc.tsr * rnd (s : K)))
    let sc := ftoi (rnd (casc.tsc * rnd (s : K)))
    classify_loop rnd casc pool r c sr sc iind casc.ntrees 0 0

/-- The running output as `classify_region` accumulates it: `*o` after tree `i`, each
sum rounded by `rnd`. -/
def accumulated_output {K : Type} [LinearOrderedField K] (rnd : K → K) (casc : Cascade K)
    (pool : Pool) (r c sr sc iind : Int) : Nat → K
  | 0 => rnd (0 + get_tree_output casc pool 0 r c sr sc iind)
  | i + 1 =>
    rnd (accumulated_output rnd casc pool r c sr sc iind i
      + get_tree_output casc pool (i + 1) r c sr sc iind)

/-- The value of `*o` when the loop of `classify_region` reaches tree `i`: `0.0f` before
the first tree, then the accumulated output of the trees before `i`. -/
def output_before {K : Type} [LinearOrderedField K] (rnd : K → K) (casc : Cascade K)
    (pool : Pool) (r c sr sc iind : Int) : Nat → K
  | 0 => 0
  | i + 1 => accumulated_output rnd casc pool r c sr sc iind i

/-- The running output `S_i = T_0 + ... + T_i` of the first `i + 1` trees on a
window with pixel extents `sr`, `sc` (the words of the specification: an exact sum). -/
def running_output {K : Type} [LinearOrderedField K] (casc : Cascade K) (pool : Pool)
    (r c sr sc iind : Int) (i : Nat) : K :=
  ((List.range (i + 1)).map (fun j => get_tree_output casc pool j r c sr sc iind)).sum

/-! ## The stage learner -/

/-- The sample arrays `tvals`, `rs`, `cs`, `ss`, `iinds`, `os` (picolrn.cpp 706-711). -/
structure Samples (K : Type) where
  tvals : Nat → K
  rs : Nat → Int
  cs : Nat → Int
  ss : Nat → Int
  iinds : Nat → Int
  os : Nat → K

/-- The interface of `grow_rtree` (picolrn.cpp 385-397) as `learn_new_stage` uses it:
from the image pool, the state of the global generator, the code row and the leaf row
it is handed, the depth, the samples, the pixel extents `srs` and `scs`, the weights
`ws` and the sample count, it yields the two rows as it leaves them and the new state
of the generator. -/
abbrev Grower (K : Type) :=
  Pool → Nat → (Int → Int) → (Int → K) → Nat → Samples K → (Nat → Int) → (Nat → Int) →
    (Nat → K) → Nat → (Int → Int) × (Int → K) × Nat

/-- The leaf branch of `grow_subtree` (picolrn.cpp 322-346, `d == maxd`): the value
stored in the leaf for the index set `inds`. -/
def leaf_value {K : Type} [LinearOrderedField K] (tvals ws : Nat → K) (inds : List Nat) : K :=
  let tvalaccum := (inds.map (fun i => ws i * tvals i)).sum
  let wsum := (inds.map ws).sum
  if wsum = 0 then 0 else tvalaccum / wsum

/-- Source `grow_rtree` for depth `0`: `grow_subtree` is entered with `nodeidx = 0` and
`d = maxd = 0`, takes the leaf branch with `lutidx = 0` and the identity index
array, and touches neither the code row nor the generator. -/
def grow_rtree_depth0 {K : Type} [LinearOrderedField K] : Grower K :=
  fun _ prng tcodes lut _ samples _ _ ws n =>
    (tcodes, Function.update lut 0 (leaf_value samples.tvals ws (List.range n)), prng)

/-- The weight `ws[i]` before normalisation (picolrn.cpp 515-518). -/
def raw_weight {K : Type} [LinearOrderedField K] (expf : K → K) (tvals os : Nat → K)
    (np nn : Nat) (i : Nat) : K :=
  if tvals i > 0 then expf (-1 * os i) / (np : K) else expf (1 * os i) / (nn : K)

/-- The weights handed to `grow_rtree` (picolrn.cpp 511-524): the raw weights of the
`np + nn` samples divided by their sum `wsum`.  The array has `np + nn` entries. -/
def compute_weights {K : Type} [LinearOrderedField K] (expf : K → K) (tvals os : Nat → K)
    (np nn : Nat) : Nat → K :=
  let wsum := ((List.range (np + nn)).map (raw_weight expf tvals os np nn)).sum
  fun i => if i < np + nn then raw_weight expf tvals os np nn i / wsum else 0

/-- The counter `numtps` after the inner `for` loop (picolrn.cpp 548-554). -/
def numtps {K : Type} [LinearOrderedField K] (tvals os : Nat → K) (n : Nat) (threshold : K) :
    Nat :=
  (List.range n).countP (fun i => decide (tvals i > 0 ∧ os i > threshold))

/-- The counter `numfps` after the inner `for` loop (picolrn.cpp 548-554). -/
def numfps {K : Type} [LinearOrderedField K] (tvals os : Nat → K) (n : Nat) (threshold : K) :
    Nat :=
  (List.range n).countP (fun i => decide (tvals i < 0 ∧ os i > threshold))

/-- The `do ... while (tpr < mintpr)` scan (picolrn.cpp 539-559), entered with the
local `threshold`; the result is `(threshold, tpr, fpr)` at the exit of the loop.  The
constant `0.005f` and the difference are rounded by `rnd`; the counters are converted to
`float` and divided by `(float)np` and `(float)nn`, which gives NaN for `0/0`; the test
`tpr < mintpr` is false for a NaN. -/
def calibrate {K : Type} [LinearOrderedField K] (rnd : K → K) (tvals os : Nat → K)
    (np nn : Nat) (mintpr : K) : Nat → K → Option (K × Flt K × Flt K)
  | 0, _ => none
  | fuel + 1, threshold =>
    let threshold := rnd (threshold - rnd (5 / 1000))
    let tpr := fdiv rnd (rnd (numtps tvals os (np + nn) threshold : K)) (rnd (np : K))
    let fpr := fdiv rnd (rnd (numfps tvals os (np + nn) threshold : K)) (rnd (nn : K))
    if Flt.gt (Flt.fin mintpr) tpr then calibrate rnd tvals os np nn mintpr fuel threshold
    else some (threshold, tpr, fpr)

/-- The variables that the `while` loop of `learn_new_stage` carries from one round to
the next: the cascade, the running outputs `os`, `fpr` and the global generator. -/
structure Stage (K : Type) where
  casc : Cascade K
  os : Nat → K
  fpr : Flt K
  prng : Nat

/-- The first half of a round of the `while` loop of `learn_new_stage`
(picolrn.cpp 511-536): compute the weights, grow a tree into row `ntrees`, give it the
threshold `-1337`, count it, and add its output to every `os[i]` (a `float` sum, rounded
by `rnd`).  The weights are `double` values, computed in exact arithmetic. -/
def stage_grow {K : Type} [LinearOrderedField K] (rnd : K → K) (grow_rtree : Grower K)
    (expf : K → K) (pool : Pool) (samples : Samples K) (srs scs : Nat → Int) (np nn : Nat)
    (st : Stage K) : Stage K :=
  -- compute weights
  let ws := compute_weights expf samples.tvals st.os np nn
  -- grow a tree
  let n := st.casc.ntrees
  let g := grow_rtree pool st.prng (st.casc.tcodes n) (st.casc.luts n) st.casc.tdepth
    { samples with os := st.os } srs scs ws (np + nn)
  let casc1 : Cascade K :=
    { st.casc with
      tcodes := Function.update st.casc.tcodes n g.1
      luts := Function.update st.casc.luts n g.2.1
      thresholds := Function.update st.casc.thresholds (n : Int) (-1337)
      ntrees := n + 1 }
  -- update outputs
  let os1 : Nat → K := fun i =>
    if i < np + nn then
      rnd (st.os i + get_tree_output casc1 pool (casc1.ntrees - 1) (samples.rs i)
        (samples.cs i) (srs i) (scs i) (samples.iinds i))
    else st.os i
  { casc := casc1, os := os1, fpr := st.fpr, prng := g.2.2 }

/-- One round of the `while` loop of `learn_new_stage` (picolrn.cpp 509-563): the
first half, then the threshold scan, which starts from a fresh local `threshold = 5.0f`
and leaves its result in `fpr`; the local `threshold` and `tpr` end with the round. -/
def stage_body {K : Type} [LinearOrderedField K] (rnd : K → K) (grow_rtree : Grower K)
    (expf : K → K) (pool : Pool) (samples : Samples K) (srs scs : Nat → Int) (np nn : Nat) (mintpr : K)
    (fuel : Nat) (st : Stage K) : Option (Stage K) :=
  let st1 := stage_grow rnd grow_rtree expf pool samples srs scs np nn st
  match calibrate rnd samples.tvals st1.os np nn mintpr fuel 5 with
  | none => none
  | some (_, _, fpr) => some { st1 with fpr := fpr }

/-- The `while (ntrees < maxntrees && fpr > maxfpr)` loop; `rem` is
`maxntrees - ntrees`, so that `ntrees < maxntrees` reads `rem > 0`.  The test
`fpr > maxfpr` is false when `fpr` is NaN. -/
def stage_loop {K : Type} [LinearOrderedField K] (rnd : K → K) (grow_rtree : Grower K)
    (expf : K → K) (pool : Pool) (samples : Samples K) (srs scs : Nat → Int) (np nn : Nat)
    (mintpr maxfpr : K) (fuel : Nat) : Nat → Stage K → Option (Stage K)
  | 0, st => some st
  | rem + 1, st =>
    if Flt.gt st.fpr (Flt.fin maxfpr) then
      match stage_body rnd grow_rtree expf pool samples srs scs np nn mintpr fuel st with
      | none => none
      | some st1 =>
        stage_loop rnd grow_rtree expf pool samples srs scs np nn mintpr maxfpr fuel rem st1
    else some st

/-- The array `srs` of `learn_new_stage` (picolrn.cpp 496-500): `(int)(tsr*ss[i])`, the
truncation of the `float` product. -/
def stage_srs {K : Type} [LinearOrderedField K] [FloorRing K] (rnd : K → K)
    (casc : Cascade K) (samples : Samples K) : Nat → Int :=
  fun i => ftoi (rnd (casc.tsr * rnd (samples.ss i : K)))

/-- The array `scs` of `learn_new_stage` (picolrn.cpp 496-500): `(int)(tsc*ss[i])`, the
truncation of the `float` product. -/
def stage_scs {K : Type} [LinearOrderedField K] [FloorRing K] (rnd : K → K)
    (casc : Cascade K) (samples : Samples K) : Nat → Int :=
  fun i => ftoi (rnd (casc.tsc * rnd (samples.ss i : K)))

/-- The loop variables when the `while` loop of `learn_new_stage` is entered:
`fpr = 1.0f` (picolrn.cpp 505). -/
def stage_init {K : Type} [LinearOrderedField K] (casc : Cascade K) (samples : Samples K)
    (prng : Nat) : Stage K :=
  { casc := casc, os := samples.os, fpr := Flt.fin 1, prng := prng }

/-- Source `learn_new_stage` (picolrn.cpp 487-575).  `casc` and `prng` are the global
cascade and generator at entry, `samples.os` the running outputs at entry, `fuel`
bounds each threshold scan.  The result holds the cascade, `os`, `fpr` and the
generator at exit. -/
def learn_new_stage {K : Type} [LinearOrderedField K] [FloorRing K] (rnd : K → K)
    (grow_rtree : Grower K) (expf : K → K) (pool : Pool) (casc : Cascade K) (prng : Nat) (mintpr maxfpr : K)
    (maxntrees : Int) (samples : Samples K) (np nn : Nat) (fuel : Nat) : Option (Stage K) :=
  -- maxntrees += ntrees;  fpr = 1.0f;  threshold = 5.0f
  let threshold : K := 5
  match stage_loop rnd grow_rtree expf pool samples (stage_srs rnd casc samples)
      (stage_scs rnd casc samples) np nn mintpr maxfpr fuel maxntrees.toNat
      (stage_init casc samples prng) with
  | none => none
  | some st =>
    -- thresholds[ntrees-1] = threshold
    some { st with
      casc := { st.casc with
        thresholds := Function.update st.casc.thresholds ((st.casc.ntrees : Int) - 1)
          threshold } }

/-- The state after `k` rounds of the loop body, whatever the loop guard says. -/
def stage_rounds {K : Type} [LinearOrderedField K] (rnd : K → K) (grow_rtree : Grower K)
    (expf : K → K) (pool : Pool) (samples : Samples K) (srs scs : Nat → Int) (np nn : Nat) (mintpr : K)
    (fuel : Nat) : Nat → Stage K → Option (Stage K)
  | 0, st => some st
  | k + 1, st =>
    match stage_body rnd grow_rtree expf pool samples srs scs np nn mintpr fuel st with
    | none => none
    | some st1 =>
      stage_rounds rnd grow_rtree expf pool samples srs scs np nn mintpr fuel k st1

/-- The `k`-th value of the threshold grid, `5.0 - 0.005 * k`. -/
def scan_grid {K : Type} [LinearOrderedField K] (k : Nat) : K := 5 - 5 / 1000 * (k : K)

/-- Stage TPR at threshold `T` as the specification words it: the number of positives
among the `np + nn` samples with running output above `T`, over `np` (for `np ≥ 1`). -/
def stage_tpr {K : Type} [LinearOrderedField K] (tvals os : Nat → K) (np nn : Nat) (T : K) : K :=
  (((Finset.range (np + nn)).filter (fun i => 0 < tvals i ∧ T < os i)).card : K) / (np : K)

/-- Stage FPR at threshold `T` as the specification words it: the number of negatives
among the `np + nn` samples with running output above `T`, over `nn`; the quotient is
not a number when there are no negatives. -/
def stage_fpr {K : Type} [LinearOrderedField K] (tvals os : Nat → K) (np nn : Nat) (T : K) :
    Flt K :=
  fdiv (fun x => x)
    (((Finset.range (np + nn)).filter (fun i => tvals i < 0 ∧ T < os i)).card : K) (nn : K)

/-! ## The sampler -/

/-- Source `mwcrand_r` (picolrn.cpp 82-102) on a 64-bit state whose low word is
`m[0]` and whose high word is `m[1]`; returns the output and the new state. -/
def mwcrand_r (state : Nat) : Nat × Nat :=
  let m0 := state % 4294967296
  let m1 := (state / 4294967296) % 4294967296
  let m0 := if m0 = 0 then 0xAAAA else m0
  let m1 := if m1 = 0 then 0xBBBB else m1
  let m0 := (36969 * (m0 % 65536) + m0 / 65536) % 4294967296
  let m1 := (18000 * (m1 % 65536) + m1 / 65536) % 4294967296
  ((m0 * 65536 + m1) % 4294967296, m0 + 4294967296 * m1)

/-- The annotations: `nbackground`, `background`, `nobjects`, `objects`
(picolrn.cpp 126-130); `objects i k` is `objects[i][k]`. -/
structure TrainingData where
  nbackground : Nat
  background : Nat → Int
  nobjects : Nat
  objects : Nat → Nat → Int

/-- One round of the loop over the objects in `sample_training_data`
(picolrn.cpp 593-606), for object `i`, on the sample arrays and the counter `n`. -/
def positive_step {K : Type} [LinearOrderedField K] [FloorRing K] (rnd : K → K)
    (casc : Cascade K)
    (pool : Pool) (data : TrainingData) (i : Nat) (sn : Samples K × Nat) : Samples K × Nat :=
  let s := sn.1
  let n := sn.2
  let res := classify_region rnd casc pool (s.os n) (data.objects i 0) (data.objects i 1)
    (data.objects i 2) (data.objects i 3)
  let s := { s with os := Function.update s.os n res.2 }
  if res.1 = 1 then
    ({ s with
        rs := Function.update s.rs n (data.objects i 0)
        cs := Function.update s.cs n (data.objects i 1)
        ss := Function.update s.ss n (data.objects i 2)
        iinds := Function.update s.iinds n (data.objects i 3)
        tvals := Function.update s.tvals n 1 }, n + 1)
  else (s, n)

/-- The loop over the objects: the sample arrays and `*np` after it. -/
def sample_positives {K : Type} [LinearOrderedField K] [FloorRing K] (rnd : K → K)
    (casc : Cascade K)
    (pool : Pool) (data : TrainingData) (samples : Samples K) : Samples K × Nat :=
  (List.range data.nobjects).foldl (fun sn i => positive_step rnd casc pool data i sn) (samples, 0)

/-- The variables of the negative-mining loop of one worker: the sample arrays, `n`,
`*nn`, `nw`, `stop` and the generator `prngs[thid]` of the worker. -/
structure MineState (K : Type) where
  samples : Samples K
  n : Nat
  nn : Nat
  nw : Nat
  stop : Bool
  prng : Nat

/-- A candidate window: image index, centre row, centre column and size. -/
structure Window where
  iind : Int
  r : Int
  c : Int
  s : Int

/-- The four draws at the head of a round of the negative-mining loop
(picolrn.cpp 635-641): a background image, a row and a column inside it, and the size
of a random object.  Returns the window and the new state of the generator. -/
def draw_window (pool : Pool) (data : TrainingData) (prng : Nat) : Window × Nat :=
  let d1 := mwcrand_r prng
  let iind := data.background (d1.1 % data.nbackground)
  let d2 := mwcrand_r d1.2
  let r : Int := (d2.1 : Int) % (pool iind).nrows
  let d3 := mwcrand_r d2.2
  let c : Int := (d3.1 : Int) % (pool iind).ncols
  let d4 := mwcrand_r d3.2
  let s : Int := data.objects (d4.1 % data.nobjects) 2
  ({ iind := iind, r := r, c := c, s := s }, d4.2)

/-- The rest of a round of the negative-mining loop (picolrn.cpp 643-682), for the
window `w` on which `classify_region` returned `ret` and left `o`: the critical
section, then the count of draws `nw`. -/
def mine_update {K : Type} [LinearOrderedField K] (np : Nat) (w : Window) (ret : Int)
    (o : K) (st : MineState K) : MineState K :=
  let st :=
    if ret = 1 then
      if st.nn < np then
        { st with
          samples :=
            { rs := Function.update st.samples.rs st.n w.r
              cs := Function.update st.samples.cs st.n w.c
              ss := Function.update st.samples.ss st.n w.s
              iinds := Function.update st.samples.iinds st.n w.iind
              os := Function.update st.samples.os st.n o
              tvals := Function.update st.samples.tvals st.n (-1) }
          n := st.n + 1
          nn := st.nn + 1 }
      else { st with stop := true }
    else st
  if st.stop then st else { st with nw := st.nw + 1 }

/-- One round of the `while (!stop)` loop of `sample_training_data`
(picolrn.cpp 633-683).  `np` is `*np`; `o0` is the content of the local `o`, which the
source leaves uninitialised, before `classify_region` is called. -/
def mine_step {K : Type} [LinearOrderedField K] [FloorRing K] (rnd : K → K)
    (casc : Cascade K)
    (pool : Pool) (data : TrainingData) (np : Nat) (o0 : K) (st : MineState K) :
    MineState K :=
  let d := draw_window pool data st.prng
  let res := classify_region rnd casc pool o0 d.1.r d.1.c d.1.s d.1.iind
  mine_update np d.1 res.1 res.2 { st with prng := d.2 }

/-- The loop `while (!stop)` run for at most as many rounds as the list is long; the
list gives, round by round, the content of the uninitialised local `o`. -/
def mine_run {K : Type} [LinearOrderedField K] [FloorRing K] (rnd : K → K)
    (casc : Cascade K)
    (pool : Pool) (data : TrainingData) (np : Nat) : List K → MineState K → MineState K
  | [], st => st
  | o0 :: rest, st =>
    if st.stop then st
    else mine_run rnd casc pool data np rest (mine_step rnd casc pool data np o0 st)

/-- The state in which the negative-mining loop is entered: `n = *np`, `*nn = 0`,
`nw = 0`, `stop = 0`. -/
def mine_init {K : Type} (samples : Samples K) (np prng : Nat) : MineState K :=
  { samples := samples, n := np, nn := 0, nw := 0, stop := false, prng := prng }

/-- The invariant of the negative-mining loop entered with the sample arrays `s0` and
`*np = np`: `nn ≤ np`, the next free slot is `np + nn`, the loop has stopped only with
`nn = np`, the slots `np .. np + nn - 1` hold windows that `classify_region` accepts,
stored with `tval = -1`, and the `np` positives are as they were. -/
def MineInv {K : Type} [LinearOrderedField K] [FloorRing K] (rnd : K → K)
    (casc : Cascade K) (pool : Pool)
    (s0 : Samples K) (np : Nat) (st : MineState K) : Prop :=
  st.nn ≤ np ∧ st.n = np + st.nn ∧ (st.stop = true → st.nn = np) ∧
  (∀ k, np ≤ k → k < np + st.nn →
    st.samples.tvals k = -1 ∧
    ∀ o, (classify_region rnd casc pool o (st.samples.rs k) (st.samples.cs k) (st.samples.ss k)
      (st.samples.iinds k)).1 = 1) ∧
  (∀ k, k < np →
    st.samples.tvals k = s0.tvals k ∧ st.samples.rs k = s0.rs k ∧ st.samples.cs k = s0.cs k ∧
    st.samples.ss k = s0.ss k ∧ st.samples.iinds k = s0.iinds k ∧ st.samples.os k = s0.os k)

/-! ## Concrete data for the scenarios of the specification -/

/-- Scenario "single-tree inference": depth `1`, one tree whose only test is the zero
code, leaves `[-1/2, 1/2]`, threshold `-1337`. -/
def single_tree_cascade {K : Type} [LinearOrderedField K] : Cascade K where
  tsr := 1
  tsc := 1
  tdepth := 1
  ntrees := 1
  tcodes := fun _ _ => 0
  luts := fun _ k => if k = 0 then -1 / 2 else 1 / 2
  thresholds := fun _ => -1337

/-- A cascade of two trees of depth `0` with the leaves `1` and `2^-25` and the
thresholds `0` and `1`: all four are binary32 values. -/
def rounding_cascade : Cascade ℚ where
  tsr := 1
  tsc := 1
  tdepth := 0
  ntrees := 2
  tcodes := fun _ _ => 0
  luts := fun i _ => if i = 0 then 1 else 1 / 33554432
  thresholds := fun i => if i = 1 then 1 else 0

/-- The cascade written by `--init-only`: no trees, `tsr = tsc = 1`, depth `D`. -/
def empty_cascade {K : Type} [LinearOrderedField K] (D : Nat) : Cascade K where
  tsr := 1
  tsc := 1
  tdepth := D
  ntrees := 0
  tcodes := fun _ _ => 0
  luts := fun _ _ => 0
  thresholds := fun _ => 0

/-- The image `[[10, 20], [30, 40]]` of scenario "binary test bit-exact", at every
index of the pool. -/
def example_pool : Pool := fun _ => Image.ofRows [[10, 20], [30, 40]]

/-- Target values of a sample set with one positive followed by negatives. -/
def one_positive_tvals {K : Type} [LinearOrderedField K] : Nat → K :=
  fun i => if i = 0 then 1 else -1

/-- A sample set of one positive with running output `5` and one negative with running
output `-5`, both at the window `(0, 0, 1)` of image `0`. -/
def two_samples {K : Type} [LinearOrderedField K] : Samples K where
  tvals := one_positive_tvals
  rs := fun _ => 0
  cs := fun _ => 0
  ss := fun _ => 1
  iinds := fun _ => 0
  os := fun i => if i = 0 then 5 else -5

/-- A sample set of one positive with running output `5` at the window `(0, 0, 1)` of
image `0`, and no negative. -/
def one_sample {K : Type} [LinearOrderedField K] : Samples K where
  tvals := fun _ => 1
  rs := fun _ => 0
  cs := fun _ => 0
  ss := fun _ => 1
  iinds := fun _ => 0
  os := fun _ => 5

/-- Target values of scenario "stage calibration": ten positives, then negatives. -/
def ten_positive_tvals : Nat → ℚ := fun i => if i < 10 then 1 else -1

/-- Running outputs of scenario "stage calibration": `1` for the ten positives, `1/2`
for the negatives. -/
def ten_positive_os : Nat → ℚ := fun i => if i < 10 then 1 else 1 / 2

/-- Annotations with one background image (index `0`) and one object, the window
`(1, 1, 1)` of image `0`. -/
def example_data : TrainingData where
  nbackground := 1
  background := fun _ => 0
  nobjects := 1
  objects := fun _ k => if k = 3 then 0 else 1

/-! ## The detection runtime (`src/rnt/picornt.cpp`) -/

/-- The macro `MAX(a, b)` of picornt.cpp on floating values. -/
def FMAX {K : Type} [LinearOrderedField K] (a b : K) : K := if a > b then a else b

/-- The macro `MIN(a, b)` of picornt.cpp on floating values. -/
def FMIN {K : Type} [LinearOrderedField K] (a b : K) : K := if a < b then a else b

/-- Source `get_overlap` (picornt.cpp 68-74).  Every quotient, sum, difference and
product is a `float` operation, rounded by `rnd`. -/
def get_overlap {K : Type} [LinearOrderedField K] (rnd : K → K) (r1 c1 s1 r2 c2 s2 : K) : K :=
  let overr := FMAX 0 (rnd (FMIN (rnd (r1 + rnd (s1 / 2))) (rnd (r2 + rnd (s2 / 2)))
    - FMAX (rnd (r1 - rnd (s1 / 2))) (rnd (r2 - rnd (s2 / 2)))))
  let overc := FMAX 0 (rnd (FMIN (rnd (c1 + rnd (s1 / 2))) (rnd (c2 + rnd (s2 / 2)))
    - FMAX (rnd (c1 - rnd (s1 / 2))) (rnd (c2 - rnd (s2 / 2)))))
  rnd (rnd (overr * overc)
    / rnd (rnd (rnd (s1 * s1) + rnd (s2 * s2)) - rnd (overr * overc)))

/-- Length of the intersection of the intervals `[x1 - s1/2, x1 + s1/2]` and
`[x2 - s2/2, x2 + s2/2]`, `0` when they do not meet (the words of the specification). -/
def interval_overlap {K : Type} [LinearOrderedField K] (x1 s1 x2 s2 : K) : K :=
  max 0 (min (x1 + s1 / 2) (x2 + s2 / 2) - max (x1 - s1 / 2) (x2 - s2 / 2))

/-! ## The command line of the training driver -/

/-- The value of a run of decimal digits read after the accumulator `acc`; reading
stops at the first character that is no digit. -/
def atoi_digits : List Char → Int → Int
  | [], acc => acc
  | ch :: rest, acc =>
    if ch.isDigit then atoi_digits rest (10 * acc + ((ch.toNat - 48 : Nat) : Int)) else acc

/-- The library function `atoi`: white space is skipped, an optional sign is read, then
decimal digits up to the first other character; `0` when there is no digit. -/
def atoi (s : String) : Int :=
  match s.data.dropWhile Char.isWhitespace with
  | '-' :: rest => -(atoi_digits rest 0)
  | '+' :: rest => atoi_digits rest 0
  | l => atoi_digits l 0

/-- The variables that the argument loop of `main` sets (picolrn.cpp 770-780). -/
structure Settings (K : Type) where
  data_file_name : String
  cascade_file_name : String
  init_only : Bool
  one_stage : Bool
  tsr : K
  tsc : K
  tdepth : Int
  tpr : K
  fpr : K
  ntrees : Int

/-- The values of the variables before the argument loop (picolrn.cpp 770-780). -/
def default_settings {K : Type} [LinearOrderedField K] : Settings K where
  data_file_name := ""
  cascade_file_name := ""
  init_only := false
  one_stage := false
  tsr := 1
  tsc := 1
  tdepth := 5
  tpr := 0
  fpr := 0
  ntrees := 0

/-- How the argument loop ends: with `-h` (usage is printed and `main` returns) or by
running past the last argument. -/
inductive ParseEnd (K : Type) where
  | help : ParseEnd K
  | done : Settings K → ParseEnd K

/-- The `while (opt_count < argc)` loop of `main` (picolrn.cpp 781-849).  `argv` holds
all arguments, program name first; `rem` counts the rounds left, at most one per
argument; `k` is `opt_count`.  The entry `argv[argc]` is the null pointer: handing it to
`atoi` or `atof` has no defined result, and the model answers `none`. -/
def parse_loop {K : Type} (atof : String → K) (argv : List String) :
    Nat → Nat → Settings K → Option (ParseEnd K)
  | 0, _, st => some (ParseEnd.done st)
  | rem + 1, k, st =>
    match argv.get? k with
    | none => some (ParseEnd.done st)
    | some arg =>
      if arg = "-h" then some ParseEnd.help
      else if arg = "--sr" then
        if k + 1 < argv.length then
          match argv.get? (k + 1 + 1) with
          | none => none
          | some v => parse_loop atof argv rem (k + 1 + 1) { st with tsr := atof v }
        else parse_loop atof argv rem (k + 1 + 1) st
      else if arg = "--sc" then
        if k + 1 < argv.length then
          match argv.get? (k + 1 + 1) with
          | none => none
          | some v => parse_loop atof argv rem (k + 1 + 1) { st with tsc := atof v }
        else parse_loop atof argv rem (k + 1 + 1) st
      else if arg = "--depth" then
        if k + 1 < argv.length then
          match argv.get? (k + 1 + 1) with
          | none => none
          | some v => parse_loop atof argv rem (k + 1 + 1) { st with tdepth := atoi v }
        else parse_loop atof argv rem (k + 1 + 1) st
      else if arg = "--tpr" then
        if k + 1 < argv.length then
          match argv.get? (k + 1 + 1) with
          | none => none
          | some v => parse_loop atof argv rem (k + 1 + 1) { st with tpr := atof v }
        else parse_loop atof argv rem (k + 1 + 1) st
      else if arg = "--fpr" then
        if k + 1 < argv.length then
          match argv.get? (k + 1 + 1) with
          | none => none
          | some v => parse_loop atof argv rem (k + 1 + 1) { st with fpr := atof v }
        else parse_loop atof argv rem (k + 1 + 1) st
      else if arg = "--ntrees" then
        if k + 1 < argv.length then
          match argv.get? (k + 1 + 1) with
          | none => none
          | some v => parse_loop atof argv rem (k + 1 + 1) { st with ntrees := atoi v }
        else parse_loop atof argv rem (k + 1 + 1) st
      else if arg = "--init-only" then
        parse_loop atof argv rem (k + 1) { st with init_only := true }
      else if arg = "--one-stage" then
        parse_loop atof argv rem (k + 1) { st with one_stage := true }
      else if arg.data.head? = some '-' then
        parse_loop atof argv rem (k + 1) st
      else if st.data_file_name = "" then
        parse_loop atof argv rem (k + 1) { st with data_file_name := arg }
      else if st.cascade_file_name = "" then
        parse_loop atof argv rem (k + 1) { st with cascade_file_name := arg }
      else parse_loop atof argv rem (k + 1) st

/-- The argument loop of `main` on the argument vector `argv` (program name first). -/
def parse_arguments {K : Type} [LinearOrderedField K] (atof : String → K)
    (argv : List String) : Option (ParseEnd K) :=
  parse_loop atof argv argv.length 1 default_settings

/-- The tree depth that a run of the argument loop leaves, if it runs to the end. -/
def parsed_depth {K : Type} : Option (ParseEnd K) → Option Int
  | some (ParseEnd.done st) => some st.tdepth
  | _ => none

/-- The two file names that a run of the argument loop leaves, if it runs to the end. -/
def parsed_files {K : Type} : Option (ParseEnd K) → Option (String × String)
  | some (ParseEnd.done st) => some (st.data_file_name, st.cascade_file_name)
  | _ => none

/-- The arguments `--depth 3 data.bin out.bin` after the program name. -/
def depth_first_argv : List String := ["picolrn", "--depth", "3", "data.bin", "out.bin"]

/-- The arguments `data.bin out.bin --depth 3` after the program name. -/
def depth_last_argv : List String := ["picolrn", "data.bin", "out.bin", "--depth", "3"]

/-! ## Serialization of the cascade -/

/-- The four bytes of a 32-bit word in memory, lowest byte first. -/
def le_bytes (w : Nat) : List Nat :=
  [w % 256, w / 256 % 256, w / 65536 % 256, w / 16777216 % 256]

/-- The 32-bit word held by four bytes, lowest byte first. -/
def le_word (b0 b1 b2 b3 : Nat) : Nat := b0 + 256 * b1 + 65536 * b2 + 16777216 * b3

/-- The object representation of an `int32_t`: its value modulo `2^32`. -/
def int_to_word (x : Int) : Nat := (x % 4294967296).toNat

/-- The `int32_t` held by a 32-bit word (two's complement). -/
def word_to_int (w : Nat) : Int := if w < 2147483648 then (w : Int) else (w : Int) - 4294967296

/-- `fwrite(p, 4, n, file)` for the `n` words `ws`: the bytes appended to the file. -/
def fwrite_words (ws : List Nat) : List Nat := ws.flatMap le_bytes

/-- `fread(p, 4, n, file)` on the unread bytes `s` of the file: the words read, at most
`n` and only whole ones, and the bytes left unread.  A short file ends the read. -/
def fread_words : Nat → List Nat → List Nat × List Nat
  | 0, s => ([], s)
  | n + 1, b0 :: b1 :: b2 :: b3 :: rest =>
    (le_word b0 b1 b2 b3 :: (fread_words n rest).1, (fread_words n rest).2)
  | _ + 1, _ => ([], [])

/-- The array `arr` after `fread` has stored the items `xs` in it from index `0` on;
entries that were not read keep their value. -/
def store_items {A : Type} (arr : Int → A) (xs : List A) : Int → A :=
  fun k => if 0 ≤ k ∧ k < (xs.length : Int) then xs.getD k.toNat (arr k) else arr k

/-- The variable `x` after `fread(&x, 4, 1, file)` has read the words `ws`. -/
def store_one {A : Type} (x : A) (ws : List Nat) (conv : Nat → A) : A :=
  match ws with
  | [] => x
  | w :: _ => conv w

/-- The words written for tree `i` by the loop of `save_cascade_to_file`
(picolrn.cpp 444-449): `2^D - 1` codes, `2^D` leaf values, one threshold.  `f2w` gives
the object representation of a `float`. -/
def tree_words {K : Type} (f2w : K → Nat) (casc : Cascade K) (i : Nat) : List Nat :=
  (List.range (2 ^ casc.tdepth - 1)).map (fun (k : Nat) => int_to_word (casc.tcodes i (k : Int)))
    ++ (List.range (2 ^ casc.tdepth)).map (fun (k : Nat) => f2w (casc.luts i (k : Int)))
    ++ [f2w (casc.thresholds (i : Int))]

/-- Source `save_cascade_to_file` (picolrn.cpp 431-455): the bytes written to the file. -/
def save_cascade_to_file {K : Type} (f2w : K → Nat) (casc : Cascade K) : List Nat :=
  fwrite_words [f2w casc.tsr]
    ++ fwrite_words [f2w casc.tsc]
    ++ fwrite_words [int_to_word (casc.tdepth : Int)]
    ++ fwrite_words [int_to_word (casc.ntrees : Int)]
    ++ (List.range casc.ntrees).flatMap (fun i => fwrite_words (tree_words f2w casc i))

/-- The loop of `load_cascade_from_file` (picolrn.cpp 420-425): `rem` trees remain, `i`
is the loop counter, `s` the unread bytes. -/
def load_trees {K : Type} (w2f : Nat → K) (D : Nat) :
    Nat → Nat → Cascade K → List Nat → Cascade K
  | 0, _, casc, _ => casc
  | rem + 1, i, casc, s =>
    let r1 := fread_words (2 ^ D - 1) s
    let r2 := fread_words (2 ^ D) r1.2
    let r3 := fread_words 1 r2.2
    load_trees w2f D rem (i + 1)
      { casc with
        tcodes := Function.update casc.tcodes i (store_items (casc.tcodes i) (r1.1.map word_to_int))
        luts := Function.update casc.luts i (store_items (casc.luts i) (r2.1.map w2f))
        thresholds := Function.update casc.thresholds (i : Int)
          (store_one (casc.thresholds (i : Int)) r3.1 w2f) }
      r3.2

/-- Source `load_cascade_from_file` (picolrn.cpp 408-429) on the bytes `file`; `casc` is
the global cascade before the call, `w2f` turns an object representation into the
`float` it stands for.  The header counts are not negative in the model. -/
def load_cascade_from_file {K : Type} (w2f : Nat → K) (casc : Cascade K) (file : List Nat) :
    Cascade K :=
  let r1 := fread_words 1 file
  let r2 := fread_words 1 r1.2
  let r3 := fread_words 1 r2.2
  let r4 := fread_words 1 r3.2
  let tdepth := store_one casc.tdepth r3.1 (fun w => (word_to_int w).toNat)
  let ntrees := store_one casc.ntrees r4.1 (fun w => (word_to_int w).toNat)
  load_trees w2f tdepth ntrees 0
    { casc with
      tsr := store_one casc.tsr r1.1 w2f
      tsc := store_one casc.tsc r2.1 w2f
      tdepth := tdepth
      ntrees := ntrees }
    r4.2

/-- The object representation of the `float` values `1`, `1/2`, `-1/2` and `-1337`
(`0x3f800000`, `0x3f000000`, `0xbf000000`, `0xc4a72000`); `0` stands for all others. -/
def unit_f2w : ℚ → Nat := fun x =>
  if x = 1 then 1065353216
  else if x = 1 / 2 then 1056964608
  else if x = -1 / 2 then 3204448256
  else if x = -1337 then 3299287040
  else 0

/-- The inverse of `unit_f2w` on the words it yields. -/
def unit_w2f : Nat → ℚ := fun w =>
  if w = 1065353216 then 1
  else if w = 1056964608 then 1 / 2
  else if w = 3204448256 then -1 / 2
  else if w = 3299287040 then -1337
  else 0

/-- The value `x` survives a trip through its object representation unchanged. -/
def Representable {K : Type} (f2w : K → Nat) (w2f : Nat → K) (x : K) : Prop :=
  f2w x < 4294967296 ∧ w2f (f2w x) = x

/-- Two cascades have the same header and the same codes, leaf values and thresholds in
the slots that a tree of their depth uses. -/
def SameCascade {K : Type} (c1 c2 : Cascade K) : Prop :=
  c1.tsr = c2.tsr ∧ c1.tsc = c2.tsc ∧ c1.tdepth = c2.tdepth ∧ c1.ntrees = c2.ntrees ∧
  ∀ i, i < c2.ntrees →
    (∀ k : Nat, k < 2 ^ c2.tdepth - 1 → c1.tcodes i (k : Int) = c2.tcodes i (k : Int)) ∧
    (∀ k : Nat, k < 2 ^ c2.tdepth → c1.luts i (k : Int) = c2.luts i (k : Int)) ∧
    c1.thresholds (i : Int) = c2.thresholds (i : Int)

/-- Every value of the cascade that `save_cascade_to_file` writes fits its file format:
the codes are `int32_t` values and the `float` values survive the trip through their
object representation. -/
def Storable {K : Type} (f2w : K → Nat) (w2f : Nat → K) (casc : Cascade K) : Prop :=
  Representable f2w w2f casc.tsr ∧ Representable f2w w2f casc.tsc ∧
  ∀ i, i < casc.ntrees →
    (∀ k : Nat, k < 2 ^ casc.tdepth - 1 →
      -2147483648 ≤ casc.tcodes i (k : Int) ∧ casc.tcodes i (k : Int) < 2147483648) ∧
    (∀ k : Nat, k < 2 ^ casc.tdepth → Representable f2w w2f (casc.luts i (k : Int))) ∧
    Representable f2w w2f (casc.thresholds (i : Int))


/-! ## The detection runtime: `find_objects` -/

/-- The output arrays `rs`, `cs`, `ss`, `qs` of `find_objects` and
`cluster_detections`. -/
structure Detections (K : Type) where
  rs : Nat → K
  cs : Nat → K
  ss : Nat → K
  qs : Nat → K

/-- The output arrays and the counter `ndetections` during `find_objects`. -/
structure ScanState (K : Type) where
  dets : Detections K
  ndetections : Nat

/-- The body of the innermost loop of `find_objects` (picornt.cpp 48-58).  The
callback takes `int` coordinates, so `r`, `c`, `s` are converted; its result is the
return value and what it leaves in `q`. -/
def record_window {K : Type} [LinearOrderedField K] [FloorRing K]
    (detection_func : Int → Int → Int → Int × K) (maxndetections : Int) (r c s : K)
    (st : ScanState K) : ScanState K :=
  let res := detection_func (ftoi r) (ftoi c) (ftoi s)
  if res.1 ≠ 1 ∨ (st.ndetections : Int) ≥ maxndetections then st
  else
    { dets :=
        { qs := Function.update st.dets.qs st.ndetections res.2
          rs := Function.update st.dets.rs st.ndetections r
          cs := Function.update st.dets.cs st.ndetections c
          ss := Function.update st.dets.ss st.ndetections s }
      ndetections := st.ndetections + 1 }

/-- The loop over `c` of `find_objects` (picornt.cpp 46-59), entered with the value
`c`; the first argument bounds the number of tests of the loop condition. -/
def col_loop {K : Type} [LinearOrderedField K] [FloorRing K]
    (detection_func : Int → Int → Int → Int × K) (maxndetections : Int) (ncols : Int)
    (s dc r : K) : Nat → K → ScanState K → Option (ScanState K)
  | 0, _, _ => none
  | fuel + 1, c, st =>
    if c ≤ (ncols : K) - s / 2 - 1 then
      col_loop detection_func maxndetections ncols s dc r fuel (c + dc)
        (record_window detection_func maxndetections r c s st)
    else some st

/-- The loop over `r` of `find_objects` (picornt.cpp 44-60), entered with the value
`r`; `fuel` bounds every run of the inner loop, the next argument the tests of this
loop. -/
def row_loop {K : Type} [LinearOrderedField K] [FloorRing K]
    (detection_func : Int → Int → Int → Int × K) (maxndetections : Int) (nrows ncols : Int)
    (s dr dc : K) (fuel : Nat) : Nat → K → ScanState K → Option (ScanState K)
  | 0, _, _ => none
  | k + 1, r, st =>
    if r ≤ (nrows : K) - s / 2 - 1 then
      match col_loop detection_func maxndetections ncols s dc r fuel (s / 2 + 1) st with
      | none => none
      | some st1 =>
        row_loop detection_func maxndetections nrows ncols s dr dc fuel k (r + dr) st1
    else some st

/-- The loop `while (s <= maxsize)` of `find_objects` (picornt.cpp 39-63), entered with
the value `s`. -/
def scale_loop {K : Type} [LinearOrderedField K] [FloorRing K]
    (detection_func : Int → Int → Int → Int × K) (maxndetections : Int) (nrows ncols : Int)
    (scalefactor stridefactor maxsize : K) (fuel : Nat) :
    Nat → K → ScanState K → Option (ScanState K)
  | 0, _, _ => none
  | k + 1, s, st =>
    if s ≤ maxsize then
      match row_loop detection_func maxndetections nrows ncols s (FMAX (stridefactor * s) 1)
          (FMAX (stridefactor * s) 1) fuel fuel (s / 2 + 1) st with
      | none => none
      | some st1 =>
        scale_loop detection_func maxndetections nrows ncols scalefactor stridefactor maxsize
          fuel k (scalefactor * s) st1
    else some st

/-- Source `find_objects` (picornt.cpp 27-66).  `dets` holds the output arrays before
the call; the callback is applied to the fixed image, so `pixels`, `nrows`, `ncols` and
`ldim` do not appear among its arguments.  Every loop may test its condition `fuel`
times; the result is `none` when that is not enough. -/
def find_objects {K : Type} [LinearOrderedField K] [FloorRing K] (dets : Detections K)
    (maxndetections : Int) (detection_func : Int → Int → Int → Int × K) (nrows ncols : Int)
    (scalefactor stridefactor minsize maxsize : K) (fuel : Nat) : Option (ScanState K) :=
  scale_loop detection_func maxndetections nrows ncols scalefactor stridefactor maxsize fuel
    fuel minsize { dets := dets, ndetections := 0 }

/-- What C15 says of the first `ndetections` recorded windows: each has a size
`minsize * scalefactor^k ≤ maxsize`, lies inside the image with a half-size margin, and
the callback, called with its coordinates, returned `1` and left `q`. -/
def ScanInv {K : Type} [LinearOrderedField K] [FloorRing K]
    (detection_func : Int → Int → Int → Int × K) (nrows ncols : Int)
    (scalefactor minsize maxsize : K) (st : ScanState K) : Prop :=
  ∀ i, i < st.ndetections →
    (∃ k : Nat, st.dets.ss i = minsize * scalefactor ^ k) ∧ st.dets.ss i ≤ maxsize ∧
    st.dets.ss i / 2 + 1 ≤ st.dets.rs i ∧ st.dets.rs i ≤ (nrows : K) - st.dets.ss i / 2 - 1 ∧
    st.dets.ss i / 2 + 1 ≤ st.dets.cs i ∧ st.dets.cs i ≤ (ncols : K) - st.dets.ss i / 2 - 1 ∧
    detection_func (ftoi (st.dets.rs i)) (ftoi (st.dets.cs i)) (ftoi (st.dets.ss i)) =
      (1, st.dets.qs i)

/-- No detections yet: output arrays filled with `0`. -/
def no_detections {K : Type} [LinearOrderedField K] : Detections K where
  rs := fun _ => 0
  cs := fun _ => 0
  ss := fun _ => 0
  qs := fun _ => 0


/-! ## The tree trainer: `split_training_data` -/

/-- The outcome of the binary test `tcode` on training sample `v`: the call
`bintest(tcode, rs[v], cs[v], srs[v], scs[v], iinds[v])`. -/
def sample_bit (pool : Pool) (tcode : Int) (rs cs srs scs iinds : Nat → Int) (v : Nat) : Int :=
  bintest pool tcode (rs v) (cs v) (srs v) (scs v) (iinds v)

/-- The first inner loop of `split_training_data` (picolrn.cpp 277-283): `i` moves up
while the test of `inds[i]` is `0` and `i != j`.  The first argument is `j - i`. -/
def scan_up (bit : Nat → Int) (inds : Nat → Nat) : Nat → Nat → Nat
  | 0, i => i
  | d + 1, i => if bit (inds i) = 0 then scan_up bit inds d (i + 1) else i

/-- The second inner loop of `split_training_data` (picolrn.cpp 285-291): `j` moves down
while the test of `inds[j]` is not `0` and `i != j`.  The first argument is `j - i`. -/
def scan_down (bit : Nat → Int) (inds : Nat → Nat) : Nat → Nat → Nat
  | 0, j => j
  | d + 1, j => if bit (inds j) ≠ 0 then scan_down bit inds d (j - 1) else j

/-- The three assignments of the swap (picolrn.cpp 298-300), `^` being bitwise
exclusive or; sample indices are not negative. -/
def xor_swap (inds : Nat → Nat) (i j : Nat) : Nat → Nat :=
  let inds1 := Function.update inds i (inds i ^^^ inds j)
  let inds2 := Function.update inds1 j (inds1 i ^^^ inds1 j)
  Function.update inds2 i (inds2 i ^^^ inds2 j)

/-- The loop `while(!stop)` of `split_training_data` (picolrn.cpp 274-302); the first
argument bounds the number of rounds.  Returns `inds` and the index at which `i` and
`j` met. -/
def split_loop (bit : Nat → Int) : Nat → (Nat → Nat) → Nat → Nat → Option ((Nat → Nat) × Nat)
  | 0, _, _, _ => none
  | fuel + 1, inds, i, j =>
    let i1 := scan_up bit inds (j - i) i
    let j1 := scan_down bit inds (j - i1) j
    if i1 = j1 then some (inds, i1)
    else split_loop bit fuel (xor_swap inds i1 j1) i1 j1

/-- Source `split_training_data` (picolrn.cpp 262-311) for the test outcomes `bit` of
the samples: the array `inds` after the call and the return value `n0`; `fuel` bounds
the rounds of the outer loop.  With `ninds = 0` the source reads `inds[0]` and
`inds[-1]`, outside the array: `none`. -/
def split_training_data (bit : Nat → Int) (inds : Nat → Nat) (ninds : Nat) (fuel : Nat) :
    Option ((Nat → Nat) × Nat) :=
  if ninds = 0 then none
  else
    match split_loop bit fuel inds 0 (ninds - 1) with
    | none => none
    | some res =>
      some (res.1, (List.range ninds).countP (fun k => decide (bit (res.1 k) = 0)))

/-- Example for `split_training_data`: the columns of five samples in row `0` of the
image of `example_pool`.  The test code `32512` (second byte `127`, the others `0`)
with scale `3` compares the pixel one column to the right (clamped) with the pixel of
the sample itself, so the samples in column `1` (numbers `0` and `2`) give `1` and the
samples in column `0` give `0`. -/
def split_example_cs (v : Nat) : Int :=
  if v = 0 ∨ v = 2 then 1 else 0

/-- The test outcomes of the five example samples under the code `32512`. -/
def split_example_bit : Nat → Int :=
  sample_bit example_pool 32512 (fun _ => 0) split_example_cs (fun _ => 3) (fun _ => 3)
    (fun _ => 0)

/-! ## The detection runtime: connected components and clustering -/

/-- The loop of `ccdfs` (picornt.cpp 78-86) for node `i`: `rem` rounds remain, `j` is
the loop variable, `rec` is the recursive call `ccdfs(a, j, ...)`. -/
def ccdfs_for {K : Type} [LinearOrderedField K] (rnd : K → K)
    (rs cs ss : Nat → K)
    (rec : (Nat → Int) → Nat → Option (Nat → Int)) (i : Nat) :
    Nat → Nat → (Nat → Int) → Option (Nat → Int)
  | 0, _, a => some a
  | rem + 1, j, a =>
    if a j = 0 ∧ get_overlap rnd (rs i) (cs i) (ss i) (rs j) (cs j) (ss j) > rnd (3 / 10) then
      match rec (Function.update a j (a i)) j with
      | none => none
      | some a1 => ccdfs_for rnd rs cs ss rec i rem (j + 1) a1
    else ccdfs_for rnd rs cs ss rec i rem (j + 1) a

/-- Source `ccdfs` (picornt.cpp 76-87): the label array after the call.  The first
argument bounds the depth of the recursion; `none` when it is exceeded. -/
def ccdfs {K : Type} [LinearOrderedField K] (rnd : K → K)
    (rs cs ss : Nat → K) (n : Nat) :
    Nat → (Nat → Int) → Nat → Option (Nat → Int)
  | 0, _, _ => none
  | fuel + 1, a, i => ccdfs_for rnd rs cs ss (ccdfs rnd rs cs ss n fuel) i n 0 a

/-- The variables of the loop of `find_connected_components`: the labels `a`, `ncc`
and `cc`. -/
structure Labelling where
  a : Nat → Int
  ncc : Int
  cc : Int

/-- The loop of `find_connected_components` (picornt.cpp 98-106): `rem` rounds remain,
`i` is the loop variable. -/
def components_for {K : Type} [LinearOrderedField K] (rnd : K → K)
    (rs cs ss : Nat → K) (n fuel : Nat) :
    Nat → Nat → Labelling → Option Labelling
  | 0, _, st => some st
  | rem + 1, i, st =>
    if st.a i ≠ 0 then components_for rnd rs cs ss n fuel rem (i + 1) st
    else
      match ccdfs rnd rs cs ss n fuel (Function.update st.a i st.cc) i with
      | none => none
      | some a1 =>
        components_for rnd rs cs ss n fuel rem (i + 1) { a := a1, ncc := st.ncc + 1, cc := st.cc + 1 }

/-- Source `find_connected_components` (picornt.cpp 89-109): the label array `a` after
the call and the return value.  `a` on entry is the content of the caller's array;
`fuel` bounds the recursion depth of `ccdfs`. -/
def find_connected_components {K : Type} [LinearOrderedField K] (rnd : K → K)
    (a : Nat → Int)
    (rs cs ss : Nat → K) (n fuel : Nat) : Option ((Nat → Int) × Int) :=
  if n = 0 then some (a, 0)
  else
    -- memset(a, 0, n * sizeof(float))
    let a0 : Nat → Int := fun k => if k < n then 0 else a k
    match components_for rnd rs cs ss n fuel n 0 { a := a0, ncc := 0, cc := 1 } with
    | none => none
    | some st => some (st.a, st.ncc)

/-- Two of the `n` detections are adjacent: the test of `ccdfs` (picornt.cpp 80),
`get_overlap(...) > 0.3f`, holds for them; `0.3f` is the rounding of `3/10`. -/
def Adjacent {K : Type} [LinearOrderedField K] (rnd : K → K)
    (rs cs ss : Nat → K) (n : Nat) (i j : Nat) :
    Prop :=
  i < n ∧ j < n ∧ get_overlap rnd (rs i) (cs i) (ss i) (rs j) (cs j) (ss j) > rnd (3 / 10)

/-- Two detections are joined by a chain of detections in which each consecutive pair is
adjacent. -/
def Chained {K : Type} [LinearOrderedField K] (rnd : K → K)
    (rs cs ss : Nat → K) (n : Nat) :
    Nat → Nat → Prop :=
  Relation.ReflTransGen (Adjacent rnd rs cs ss n)

/-- The number of unlabelled detections among the first `n`. -/
def unlabelled (n : Nat) (a : Nat → Int) : Nat :=
  ((Finset.range n).filter (fun k => a k = 0)).card

/-- What a call `ccdfs(a, i, ...)` with `a[i] = c` establishes, `a` being the labels
before and `b` the labels after the call: labels are only given to unlabelled detections
chained to `i`, the label given is `c`, and every neighbour of `i` and of a newly
labelled detection is labelled. -/
def DfsPost {K : Type} [LinearOrderedField K] (rnd : K → K)
    (rs cs ss : Nat → K) (n : Nat) (c : Int)
    (i : Nat) (a b : Nat → Int) : Prop :=
  (∀ k, a k ≠ 0 → b k = a k) ∧
  (∀ k, a k = 0 → b k = 0 ∨ (b k = c ∧ k < n ∧ Chained rnd rs cs ss n i k)) ∧
  (∀ k, k < n → a k = 0 → b k ≠ 0 → ∀ l, l < n →
    get_overlap rnd (rs k) (cs k) (ss k) (rs l) (cs l) (ss l) > rnd (3 / 10) → b l ≠ 0) ∧
  (∀ l, l < n → get_overlap rnd (rs i) (cs i) (ss i) (rs l) (cs l) (ss l) > rnd (3 / 10) → b l ≠ 0)

/-- The state of the loop of `find_connected_components` before round `i`; `a0` is the
label array on entry. -/
def CompInv {K : Type} [LinearOrderedField K] (rnd : K → K)
    (rs cs ss : Nat → K) (n : Nat)
    (a0 : Nat → Int) (i : Nat) (st : Labelling) : Prop :=
  (st.cc = st.ncc + 1 ∧ 0 ≤ st.ncc ∧ st.ncc ≤ i) ∧
  (∀ k, k < n → st.a k = 0 ∨ (1 ≤ st.a k ∧ st.a k ≤ st.ncc)) ∧
  (∀ k, k < i → st.a k ≠ 0) ∧
  (∀ c, 1 ≤ c → c ≤ st.ncc → ∃ k, k < n ∧ st.a k = c) ∧
  (∀ k, k < n → st.a k ≠ 0 → ∀ l, l < n →
    get_overlap rnd (rs k) (cs k) (ss k) (rs l) (cs l) (ss l) > rnd (3 / 10) → st.a l = st.a k) ∧
  (∀ k l, k < n → l < n → st.a k ≠ 0 → st.a k = st.a l → Chained rnd rs cs ss n k l) ∧
  (∀ k, k < n → st.a k ≤ k + 1) ∧
  (∀ k, n ≤ k → st.a k = a0 k)

/-- Example detections: `(100, 100, 50)` with confidence `1`, `(102, 101, 50)` with
confidence `2`, and `(300, 300, 50)` with confidence `4` from index `2` on. -/
def example_detections {K : Type} [LinearOrderedField K] : Detections K where
  rs := fun i => if i = 0 then 100 else if i = 1 then 102 else 300
  cs := fun i => if i = 0 then 100 else if i = 1 then 101 else 300
  ss := fun _ => 50
  qs := fun i => if i = 0 then 1 else if i = 1 then 2 else 4

/-- Two detections of size `2706` centred at `(0, 0)` and `(1000, 725)`. -/
def close_detections : Detections ℚ where
  rs := fun i => if i = 0 then 0 else 1000
  cs := fun i => if i = 0 then 0 else 725
  ss := fun _ => 2706
  qs := fun _ => 1

/-- The accumulators of one round of `cluster_detections`: `sumqs`, `sumrs`, `sumcs`,
`sumss` and the member count `k`. -/
structure ClusterSums (K : Type) where
  sumqs : K
  sumrs : K
  sumcs : K
  sumss : K
  k : Int

/-- The inner loop of `cluster_detections` (picornt.cpp 124-134) for component `cc`:
`rem` rounds remain, `i` is the loop variable. -/
def cluster_sums {K : Type} [LinearOrderedField K] (a : Nat → Int) (d : Detections K)
    (cc : Int) : Nat → Nat → ClusterSums K → ClusterSums K
  | 0, _, s => s
  | rem + 1, i, s =>
    if a i ≠ cc then cluster_sums a d cc rem (i + 1) s
    else
      cluster_sums a d cc rem (i + 1)
        { sumqs := s.sumqs + d.qs i, sumrs := s.sumrs + d.rs i, sumcs := s.sumcs + d.cs i,
          sumss := s.sumss + d.ss i, k := s.k + 1 }

/-- The outer loop of `cluster_detections` (picornt.cpp 119-143): `rem` rounds remain,
`cc` and `idx` are the loop variables, `d` the four arrays. -/
def cluster_for {K : Type} [LinearOrderedField K] (a : Nat → Int) (n : Nat) :
    Nat → Int → Nat → Detections K → Detections K × Nat
  | 0, _, idx, d => (d, idx)
  | rem + 1, cc, idx, d =>
    let s := cluster_sums a d cc n 0 { sumqs := 0, sumrs := 0, sumcs := 0, sumss := 0, k := 0 }
    let d1 : Detections K :=
      { qs := Function.update d.qs idx s.sumqs
        rs := Function.update d.rs idx (s.sumrs / (s.k : K))
        cs := Function.update d.cs idx (s.sumcs / (s.k : K))
        ss := Function.update d.ss idx (s.sumss / (s.k : K)) }
    cluster_for a n rem (cc + 1) (idx + 1) d1

/-- Source `cluster_detections` (picornt.cpp 111-146): the four arrays after the call
and the return value.  `a0` is the content of the local array `a` on entry, `fuel` bounds
the recursion depth of `ccdfs`. -/
def cluster_detections {K : Type} [LinearOrderedField K] (rnd : K → K)
    (a0 : Nat → Int)
    (d : Detections K) (n fuel : Nat) : Option (Detections K × Int) :=
  match find_connected_components rnd a0 d.rs d.cs d.ss n fuel with
  | none => none
  | some (a, ncc) =>
    if ncc = 0 then some (d, 0)
    else
      let res := cluster_for a n ncc.toNat 1 0 d
      some (res.1, (res.2 : Int))

/-- The members of component `c` under the labels `a`, in increasing order. -/
def members (a : Nat → Int) (n : Nat) (c : Int) : List Nat :=
  (List.range n).filter (fun i => decide (a i = c))

/-- The sum of `x` over the members of component `c`. -/
def member_sum {K : Type} [LinearOrderedField K] (a : Nat → Int) (n : Nat) (c : Int)
    (x : Nat → K) : K :=
  ((members a n c).map x).sum

/-- The arithmetic mean of `x` over the members of component `c`. -/
def member_mean {K : Type} [LinearOrderedField K] (a : Nat → Int) (n : Nat) (c : Int)
    (x : Nat → K) : K :=
  member_sum a n c x / ((members a n c).length : K)


/-! ## The tree trainer: `grow_subtree` and `grow_rtree` -/

/-- The candidate selection of `grow_subtree` (picolrn.cpp 357-375): from the generator
state, the index array (the pointer `inds`) and `ninds` to the code left in
`tcodes[nodeidx]` after the draws of `mwcrand` and the search for the smallest
`get_split_error`, and the generator state after the draws.  The block stores to
`tcodes[nodeidx]` at line 368 and again at line 374 for every better candidate
(`search_stores` lists these stores); all of them go to that one slot, and the code
returned here is the last of them. -/
abbrev Selector := Nat → (Nat → Nat) → Nat → Int × Nat

/-- What `grow_subtree` reads and writes: the code array `tcodes` and the leaf array
`lut` of the tree, the index array `inds` and the generator state.  The two logs are not
program variables: `code_log` lists, in order, the slot of `tcodes` assigned by each call
that makes an internal node together with the code the call leaves there (one entry per
call, also when the call stores to its slot several times), `leaf_log` the slot of `lut`
assigned by each call that makes a leaf together with the training subset of that
leaf. -/
structure TreeState (K : Type) where
  tcodes : Int → Int
  lut : Int → K
  inds : Nat → Nat
  prng : Nat
  code_log : List (Int × Int)
  leaf_log : List (Int × List Nat)

/-- The training subset of a call of `grow_subtree`: `inds[0 .. ninds-1]` for the pointer
`inds` of the call, which is the position `off` of the array of `grow_rtree`. -/
def subset_of (inds : Nat → Nat) (off ninds : Nat) : List Nat :=
  (List.range ninds).map (fun k => inds (off + k))

/-- Source `grow_subtree` (picolrn.cpp 313-383).  The first recursion argument is
`maxd - d`, the number of levels below the node; `off` is the position of the pointer
`inds` of the call in the array of `grow_rtree`; `fuel` bounds the rounds of the outer
loop of each `split_training_data`. -/
def grow_subtree {K : Type} [LinearOrderedField K] (pool : Pool) (select : Selector)
    (tvals ws : Nat → K) (rs cs srs scs iinds : Nat → Int) (maxd fuel : Nat) :
    Nat → Int → Nat → Nat → TreeState K → Option (TreeState K)
  | 0, nodeidx, off, ninds, st =>
    -- d == maxd
    let lutidx := nodeidx - (2 ^ maxd - 1)
    some { st with
      lut := Function.update st.lut lutidx (leaf_value tvals ws (subset_of st.inds off ninds))
      leaf_log := st.leaf_log ++ [(lutidx, subset_of st.inds off ninds)] }
  | h + 1, nodeidx, off, ninds, st =>
    if ninds ≤ 1 then
      let st0 : TreeState K := { st with
        tcodes := Function.update st.tcodes nodeidx 0
        code_log := st.code_log ++ [(nodeidx, 0)] }
      match grow_subtree pool select tvals ws rs cs srs scs iinds maxd fuel h
          (2 * nodeidx + 1) off ninds st0 with
      | none => none
      | some st1 =>
        grow_subtree pool select tvals ws rs cs srs scs iinds maxd fuel h
          (2 * nodeidx + 2) off ninds st1
    else
      let sel := select st.prng (fun k => st.inds (off + k)) ninds
      let st0 : TreeState K := { st with
        tcodes := Function.update st.tcodes nodeidx sel.1
        prng := sel.2
        code_log := st.code_log ++ [(nodeidx, sel.1)] }
      match split_training_data (sample_bit pool sel.1 rs cs srs scs iinds)
          (fun k => st0.inds (off + k)) ninds fuel with
      | none => none
      | some res =>
        let st1 : TreeState K := { st0 with
          inds := fun p => if off ≤ p then res.1 (p - off) else st0.inds p }
        match grow_subtree pool select tvals ws rs cs srs scs iinds maxd fuel h
            (2 * nodeidx + 1) off res.2 st1 with
        | none => none
        | some st2 =>
          grow_subtree pool select tvals ws rs cs srs scs iinds maxd fuel h
            (2 * nodeidx + 2) (off + res.2) (ninds - res.2) st2

/-- Source `grow_rtree` (picolrn.cpp 385-397): the index array is filled with
`0 .. n-1` and `grow_subtree` is entered at node `0` and depth `0`.  The logs start
empty. -/
def grow_rtree {K : Type} [LinearOrderedField K] (pool : Pool) (select : Selector)
    (prng : Nat) (tcodes : Int → Int) (lut : Int → K) (d : Nat) (tvals : Nat → K)
    (rs cs srs scs iinds : Nat → Int) (ws : Nat → K) (n fuel : Nat) :
    Option (TreeState K) :=
  grow_subtree pool select tvals ws rs cs srs scs iinds d fuel d 0 0 n
    { tcodes := tcodes, lut := lut, inds := fun i => i, prng := prng,
      code_log := [], leaf_log := [] }

/-- The walk of `get_tree_output` (picolrn.cpp 461-462) continued from the 1-based
index `idx` for `h` more levels. -/
def walk_from (bit : Int → Int) : Nat → Int → Int
  | 0, idx => idx
  | h + 1, idx => walk_from bit h (2 * idx + bit (idx - 1))

/-- The internal-node slots below and including node `x` when `h` levels remain, in the
order in which `grow_subtree` visits them. -/
def subtree_slots : Nat → Nat → List Nat
  | 0, _ => []
  | h + 1, x => x :: (subtree_slots h (2 * x + 1) ++ subtree_slots h (2 * x + 2))

/-- The array `f` after the stores `l`, first store first. -/
def apply_writes {V : Type} (l : List (Int × V)) (f : Int → V) : Int → V :=
  l.foldl (fun g e => Function.update g e.1 e.2) f

/-- The nodes at the leaf level below node `x` when `h` levels remain, from left to
right: the 0-based indices `(x + 1) * 2^h - 1 .. (x + 2) * 2^h - 2`. -/
def leaf_nodes (h x : Nat) : List Nat :=
  List.range' ((x + 1) * 2 ^ h - 1) (2 ^ h)

/-- What a call of `grow_subtree` at node `x` with `h` levels below it and the training
subset `inds[off .. off+ninds-1]` establishes, `st` being the state before and `st1` the
state after the call: the stores `newc` to `tcodes` go, in order, to the slots of
`subtree_slots`, the stores `newl` to `lut` to the leaves below `x` from left to right;
the index array is permuted inside the subset and untouched outside; and for every
sample `v` of the subset, under any code array `tc` that holds the stored codes, the walk
of `get_tree_output` from `x` on the window of `v` ends at a leaf whose training subset
contains `v`. -/
def GrowPost {K : Type} [LinearOrderedField K] (pool : Pool) (tvals ws : Nat → K)
    (rs cs srs scs iinds : Nat → Int) (maxd : Nat) (h x off ninds : Nat)
    (st st1 : TreeState K) : Prop :=
  ∃ (newc : List (Int × Int)) (newl : List (Int × List Nat)),
    (st1.code_log = st.code_log ++ newc ∧
      newc.map Prod.fst = (subtree_slots h x).map (fun (y : Nat) => (y : Int)) ∧
      st1.tcodes = apply_writes newc st.tcodes) ∧
    (st1.leaf_log = st.leaf_log ++ newl ∧
      newl.map Prod.fst = (leaf_nodes h x).map (fun (y : Nat) => (y : Int) - (2 ^ maxd - 1)) ∧
      st1.lut = apply_writes (newl.map (fun e => (e.1, leaf_value tvals ws e.2))) st.lut) ∧
    ((∀ p, p < off ∨ off + ninds ≤ p → st1.inds p = st.inds p) ∧
      (subset_of st1.inds off ninds).Perm (subset_of st.inds off ninds)) ∧
    (∀ v, v ∈ subset_of st.inds off ninds → ∀ tc : Int → Int,
      (∀ e, e ∈ newc → tc e.1 = e.2) →
      ∃ J, (walk_from (fun k => bintest pool (tc k) (rs v) (cs v) (srs v) (scs v) (iinds v))
          h ((x : Int) + 1) - 2 ^ maxd, J) ∈ newl ∧ v ∈ J)

/-- Example for `grow_rtree`: a selector that always leaves the code `32512`. -/
def example_select : Selector := fun prng _ _ => (32512, prng)

/-- Example for `grow_rtree`: the tree of depth `2` grown on the first three samples of
`split_example_cs` (test outcomes `1, 0, 1` under the code `32512`) with targets
`1, -1, -1` and equal weights. -/
def example_tree {K : Type} [LinearOrderedField K] : Option (TreeState K) :=
  grow_rtree example_pool example_select 0 (fun _ => 0) (fun _ => 0) 2 one_positive_tvals
    (fun _ => 0) split_example_cs (fun _ => 3) (fun _ => 3) (fun _ => 0) (fun _ => 1 / 2) 3 4

/-- A cascade of depth `D` whose rows all hold the tree of the state `st`. -/
def tree_cascade {K : Type} [LinearOrderedField K] (st : TreeState K) (D : Nat) :
    Cascade K where
  tsr := 1
  tsc := 1
  tdepth := D
  ntrees := 1
  tcodes := fun _ => st.tcodes
  luts := fun _ => st.lut
  thresholds := fun _ => 0


/-! ## The tree trainer: `get_split_error` and the candidate search -/

/-- The macro `SQR(x)` of the source: `((x)*(x))`. -/
def SQR {K : Type} [LinearOrderedField K] (x : K) : K := x * x

/-- The accumulators of `get_split_error`.  Sums and products of finite values are
finite in exact arithmetic, so they are elements of `K`. -/
structure SplitSums (K : Type) where
  wsum : K
  wsum0 : K
  wsum1 : K
  wtvalsum0 : K
  wtvalsumsqr0 : K
  wtvalsum1 : K
  wtvalsumsqr1 : K

/-- The loop of `get_split_error` (picolrn.cpp 236-252): `rem` rounds remain, `i` is
the loop variable, `bit v` is the outcome of the binary test on sample `v`. -/
def split_sums {K : Type} [LinearOrderedField K] (bit : Nat → Int) (tvals ws : Nat → K)
    (inds : Nat → Nat) : Nat → Nat → SplitSums K → SplitSums K
  | 0, _, s => s
  | rem + 1, i, s =>
    if bit (inds i) ≠ 0 then
      split_sums bit tvals ws inds rem (i + 1)
        { s with
          wsum1 := s.wsum1 + ws (inds i)
          wtvalsum1 := s.wtvalsum1 + ws (inds i) * tvals (inds i)
          wtvalsumsqr1 := s.wtvalsumsqr1 + ws (inds i) * SQR (tvals (inds i))
          wsum := s.wsum + ws (inds i) }
    else
      split_sums bit tvals ws inds rem (i + 1)
        { s with
          wsum0 := s.wsum0 + ws (inds i)
          wtvalsum0 := s.wtvalsum0 + ws (inds i) * tvals (inds i)
          wtvalsumsqr0 := s.wtvalsumsqr0 + ws (inds i) * SQR (tvals (inds i))
          wsum := s.wsum + ws (inds i) }

/-- The accumulators of `get_split_error` on entry to the loop (picolrn.cpp 234). -/
def zero_sums {K : Type} [LinearOrderedField K] : SplitSums K where
  wsum := 0
  wsum0 := 0
  wsum1 := 0
  wtvalsum0 := 0
  wtvalsumsqr0 := 0
  wtvalsum1 := 0
  wtvalsumsqr1 := 0

/-- The last lines of `get_split_error` (picolrn.cpp 254-259): the score computed from
the accumulators; the divisions are floating divisions. -/
def split_score {K : Type} [LinearOrderedField K] (s : SplitSums K) : Flt K :=
  let wmse0 := Flt.sub (Flt.fin s.wtvalsumsqr0)
    (Flt.div (Flt.fin (SQR s.wtvalsum0)) (Flt.fin s.wsum0))
  let wmse1 := Flt.sub (Flt.fin s.wtvalsumsqr1)
    (Flt.div (Flt.fin (SQR s.wtvalsum1)) (Flt.fin s.wsum1))
  Flt.div (Flt.add wmse0 wmse1) (Flt.fin s.wsum)

/-- Source `get_split_error` (picolrn.cpp 224-260). -/
def get_split_error {K : Type} [LinearOrderedField K] (pool : Pool) (tcode : Int)
    (tvals : Nat → K) (rs cs srs scs iinds : Nat → Int) (ws : Nat → K) (inds : Nat → Nat)
    (indsnum : Nat) : Flt K :=
  split_score
    (split_sums (sample_bit pool tcode rs cs srs scs iinds) tvals ws inds indsnum 0 zero_sums)

/-- The constant `NRANDS` of the source. -/
def NRANDS : Nat := 1024

/-- The first loop of the candidate search (picolrn.cpp 360-361): `rem` rounds remain,
`i` is the loop variable; the state is the array `tmptcodes` and the generator state.
The output of `mwcrand` is stored as `int32_t`. -/
def draw_codes : Nat → Nat → (Nat → Int) × Nat → (Nat → Int) × Nat
  | 0, _, st => st
  | rem + 1, i, st =>
    let d := mwcrand_r st.2
    draw_codes rem (i + 1) (Function.update st.1 i (word_to_int d.1), d.2)

/-- The third loop of the candidate search (picolrn.cpp 370-375): `rem` rounds remain,
`i` is the loop variable; the state is `e` and the code in `tcodes[nodeidx]`. -/
def best_loop {K : Type} [LinearOrderedField K] (tmptcodes : Nat → Int) (es : Nat → Flt K) :
    Nat → Nat → Flt K × Int → Flt K × Int
  | 0, _, st => st
  | rem + 1, i, st =>
    if Flt.gt st.1 (es i) = true then best_loop tmptcodes es rem (i + 1) (es i, tmptcodes i)
    else best_loop tmptcodes es rem (i + 1) st

/-- The stores to `tcodes[nodeidx]` made by the third loop of the candidate search
(picolrn.cpp 370-375), in order: the statement `tcodes[nodeidx] = tmptcodes[i]` runs for
every candidate `i` whose score is below the best score `e` so far.  `rem` rounds remain,
`i` is the loop variable. -/
def best_stores {K : Type} [LinearOrderedField K] (tmptcodes : Nat → Int) (es : Nat → Flt K) :
    Nat → Nat → Flt K → List Int
  | 0, _, _ => []
  | rem + 1, i, e =>
    if Flt.gt e (es i) = true then tmptcodes i :: best_stores tmptcodes es rem (i + 1) (es i)
    else best_stores tmptcodes es rem (i + 1) e

/-- The candidate search of `grow_subtree` (picolrn.cpp 357-375) as a `Selector`: draw
`nrands = NRANDS` codes, score each with `get_split_error`, keep the first code and
replace it whenever a later score is smaller than the best so far.  The local array
`tmptcodes` starts as `0`; its first `nrands` entries are overwritten before they are
read. -/
def select_code {K : Type} [LinearOrderedField K] (pool : Pool) (tvals ws : Nat → K)
    (rs cs srs scs iinds : Nat → Int) : Selector :=
  fun prng inds ninds =>
    let nrands := NRANDS
    let draws := draw_codes nrands 0 (fun _ => 0, prng)
    let es : Nat → Flt K := fun i =>
      get_split_error pool (draws.1 i) tvals rs cs srs scs iinds ws inds ninds
    ((best_loop draws.1 es (nrands - 1) 1 (es 0, draws.1 0)).2, draws.2)

/-- The array `tmptcodes` after the first loop of the candidate search entered with the
generator state `prng`. -/
def candidate_codes (prng : Nat) : Nat → Int :=
  (draw_codes NRANDS 0 (fun _ => 0, prng)).1

/-- The array `es` after the second loop of the candidate search (picolrn.cpp 363-365)
for the index array `inds` with `ninds` entries. -/
def candidate_scores {K : Type} [LinearOrderedField K] (pool : Pool) (tvals ws : Nat → K)
    (rs cs srs scs iinds : Nat → Int) (prng : Nat) (inds : Nat → Nat) (ninds : Nat) :
    Nat → Flt K :=
  fun i => get_split_error pool (candidate_codes prng i) tvals rs cs srs scs iinds ws inds ninds

/-- All stores to `tcodes[nodeidx]` made by the candidate search of one call of
`grow_subtree` (picolrn.cpp 367-375), in order: the store `tcodes[nodeidx] = tmptcodes[0]`
of line 368, then the stores of line 374. -/
def search_stores {K : Type} [LinearOrderedField K] (pool : Pool) (tvals ws : Nat → K)
    (rs cs srs scs iinds : Nat → Int) (prng : Nat) (inds : Nat → Nat) (ninds : Nat) :
    List Int :=
  candidate_codes prng 0 ::
    best_stores (candidate_codes prng)
      (candidate_scores pool tvals ws rs cs srs scs iinds prng inds ninds) (NRANDS - 1) 1
      (candidate_scores pool tvals ws rs cs srs scs iinds prng inds ninds 0)

/-- Target values that alternate: `1` for the samples of even index, `-1` for the
others. -/
def alternating_tvals : Nat → ℚ := fun i => if i % 2 = 0 then 1 else -1

/-- Example for the candidate search: four images of `256 x 256` pixels whose
intensities are the row, `255` minus the row, the column, and `255` minus the column. -/
def gradient_pool : Pool := fun i =>
  { nrows := 256
    ncols := 256
    pixels := fun k =>
      if i = 0 then (k / 256).toNat
      else if i = 1 then (255 - k / 256).toNat
      else if i = 2 then (k % 256).toNat
      else (255 - k % 256).toNat }

/-- Example for the candidate search: the test outcome of the code `t` on sample `v` of
four samples, sample `v` being the window `(128, 128)` with extents `256` of image `v`
of `gradient_pool`. -/
def gradient_bit (t : Int) : Nat → Int :=
  sample_bit gradient_pool t (fun _ => 128) (fun _ => 128) (fun _ => 256) (fun _ => 256)
    (fun v => (v : Int))

theorem round_half_even_eq (x : ℚ) (m : Int) (h1 : (m : ℚ) - 1 / 2 < x)
    (h2 : x < (m : ℚ) + 1 / 2) : round_half_even x = m := by
  unfold round_half_even
  simp only
  by_cases hx : (m : ℚ) ≤ x
  · have hf : Int.floor x = m := by
      rw [Int.floor_eq_iff]
      constructor
      · exact hx
      · linarith
    rw [hf, if_pos (by linarith)]
  · have hx2 : x < m := not_le.mp hx
    have hf : Int.floor x = m - 1 := by
      rw [Int.floor_eq_iff]
      push_cast
      constructor
      · linarith
      · linarith
    rw [hf]
    push_cast
    rw [if_neg (by linarith), if_pos (by linarith)]
    ring

theorem round_half_even_int (m : Int) : round_half_even (m : ℚ) = m :=
  round_half_even_eq _ m (by linarith) (by linarith)

/-- The value of `round32 x` from the binary exponent `e ≥ -126` of `x` and the nearest
multiple `m * 2^(e-23)`. -/
theorem round32_eval (x : ℚ) (e m : Int) (he : -126 ≤ e) (h1 : (2 : ℚ) ^ e ≤ |x|)
    (h2 : |x| < (2 : ℚ) ^ (e + 1)) (hm1 : (m : ℚ) - 1 / 2 < x / 2 ^ (e - 23))
    (hm2 : x / 2 ^ (e - 23) < (m : ℚ) + 1 / 2) : round32 x = (m : ℚ) * 2 ^ (e - 23) := by
  have hpos : (0 : ℚ) < |x| := lt_of_lt_of_le (zpow_pos (by norm_num) e) h1
  have hx : x ≠ 0 := abs_pos.mp hpos
  have hlog : Int.log 2 |x| = e := by
    have a1 : e ≤ Int.log 2 |x| := by
      have := (Int.zpow_le_iff_le_log (by norm_num : 1 < 2) hpos (x := e)).mp
        (by exact_mod_cast h1)
      exact this
    have a2 : Int.log 2 |x| < e + 1 := by
      have := (Int.lt_zpow_iff_log_lt (by norm_num : 1 < 2) hpos (x := e + 1)).mp
        (by exact_mod_cast h2)
      exact this
    omega
  unfold round32
  rw [if_neg hx]
  simp only [hlog, max_eq_left he]
  rw [round_half_even_eq _ m hm1 hm2]

theorem round32_zero : round32 0 = 0 := by
  unfold round32
  rw [if_pos rfl]

/-- Integers below `2^24` in absolute value are binary32 values. -/
theorem round32_int (n : Int) (h : |n| < 16777216) : round32 (n : ℚ) = n := by
  by_cases h0 : n = 0
  · subst h0
    simpa using round32_zero
  have hq : (n : ℚ) ≠ 0 := by exact_mod_cast h0
  have hpos : (0 : ℚ) < |(n : ℚ)| := abs_pos.mpr hq
  have h1 : (1 : ℚ) ≤ |(n : ℚ)| := by
    have : 1 ≤ |n| := Int.one_le_abs h0
    exact_mod_cast this
  have h2 : |(n : ℚ)| < 16777216 := by exact_mod_cast h
  have e0 : 0 ≤ Int.log 2 |(n : ℚ)| :=
    (Int.zpow_le_iff_le_log (by norm_num : 1 < 2) hpos (x := 0)).mp (by simpa using h1)
  have e1 : Int.log 2 |(n : ℚ)| < 24 :=
    (Int.lt_zpow_iff_log_lt (by norm_num : 1 < 2) hpos (x := 24)).mp (by norm_num; exact h2)
  unfold round32
  rw [if_neg hq]
  simp only
  rw [max_eq_left (by omega)]
  generalize Int.log 2 |(n : ℚ)| = e at e0 e1
  obtain ⟨k, hk⟩ : ∃ k : Nat, 23 - e = (k : Int) := ⟨(23 - e).toNat, by omega⟩
  have he : e - 23 = -(k : Int) := by omega
  rw [he, zpow_neg, zpow_natCast, div_inv_eq_mul]
  have hc : (n : ℚ) * 2 ^ k = ((n * 2 ^ k : Int) : ℚ) := by push_cast; ring
  rw [hc, round_half_even_int]
  push_cast
  field_simp

theorem round32_ofNat (n : ℕ) [n.AtLeastTwo] (h : n < 16777216) :
    round32 (no_index (OfNat.ofNat n) : ℚ) = OfNat.ofNat n := by
  have h1 := round32_int (n : Int) (by
    rw [abs_of_nonneg (Int.natCast_nonneg n)]
    exact_mod_cast h)
  rw [← Nat.cast_eq_ofNat]
  simpa using h1

theorem round32_neg_ofNat (n : ℕ) [n.AtLeastTwo] (h : n < 16777216) :
    round32 (-(no_index (OfNat.ofNat n) : ℚ)) = -(OfNat.ofNat n : ℚ) := by
  have h1 := round32_int (-(n : Int)) (by
    rw [abs_neg, abs_of_nonneg (Int.natCast_nonneg n)]
    exact_mod_cast h)
  rw [← Nat.cast_eq_ofNat]
  simpa using h1

theorem round32_one : round32 1 = 1 := by
  have h := round32_int 1 (by decide)
  simpa using h

theorem round32_three_tenths : round32 (3 / 10) = 5033165 / 16777216 := by
  have h := round32_eval (3 / 10) (-2) 10066330 (by norm_num)
    (by norm_num [abs_of_pos]) (by norm_num [abs_of_pos]) (by norm_num) (by norm_num)
  rw [h]
  norm_num

/-! ## Binary tests: the contract of `bintest` -/

theorem MIN_eq_min (a b : Int) : MIN a b = min a b := by
  unfold MIN; split_ifs <;> omega

theorem MAX_eq_max (a b : Int) : MAX a b = max a b := by
  unfold MAX; split_ifs <;> omega

theorem sbyte_range (tcode : Int) (k : Nat) :
    -128 ≤ sbyte tcode k ∧ sbyte tcode k ≤ 127 := by
  unfold sbyte
  have h1 := Int.emod_nonneg (tcode / 256 ^ k) (show (256 : Int) ≠ 0 by decide)
  have h2 := Int.emod_lt_of_pos (tcode / 256 ^ k) (show (0 : Int) < 256 by decide)
  simp only
  split_ifs <;> omega

theorem clamp_range (x n : Int) (hn : 1 ≤ n) :
    0 ≤ min (max 0 x) (n - 1) ∧ min (max 0 x) (n - 1) ≤ n - 1 := by
  constructor
  · exact le_min (le_max_left 0 x) (by omega)
  · exact min_le_right _ _

theorem flat_index_range (H W a b : Int) (ha : 0 ≤ a) (ha2 : a ≤ H - 1) (hb : 0 ≤ b)
    (hb2 : b ≤ W - 1) : 0 ≤ a * W + b ∧ a * W + b < H * W := by
  have hW : 0 ≤ W := by omega
  constructor
  · have := mul_nonneg ha hW
    omega
  · have : a * W ≤ (H - 1) * W := mul_le_mul_of_nonneg_right ha2 hW
    have e : (H - 1) * W = H * W - W := by ring
    omega

theorem tdiv_256_eq_ftoi (a : Int) : Int.tdiv a 256 = ftoi ((a : ℚ) / 256) := by
  have hfl : ∀ b : Int, Int.floor ((b : ℚ) / 256) = b / 256 := by
    intro b
    have := Rat.floor_intCast_div_natCast b 256
    simpa using this
  unfold ftoi
  split_ifs with h
  · have ha : 0 ≤ a := by
      by_contra hn
      have hn2 : (a : ℚ) < 0 := by exact_mod_cast (not_le.mp hn)
      have : (a : ℚ) / 256 < 0 := div_neg_of_neg_of_pos hn2 (by norm_num)
      linarith
    rw [hfl, Int.tdiv_eq_ediv ha (by decide)]
  · have ha : a < 0 := by
      by_contra hn
      have hn2 : (0 : ℚ) ≤ a := by exact_mod_cast (not_lt.mp hn)
      exact h (div_nonneg hn2 (by norm_num))
    have e1 : Int.tdiv a 256 = -Int.tdiv (-a) 256 := by rw [Int.neg_tdiv]; simp
    have e2 : Int.ceil ((a : ℚ) / 256) = -Int.floor (((-a : Int) : ℚ) / 256) := by
      rw [← Int.ceil_neg]; congr 1; push_cast; ring
    rw [e1, e2, hfl, Int.tdiv_eq_ediv (by omega) (by decide)]

theorem coord_eq_ftoi (r d : Int) :
    Int.tdiv (256 * r + d) 256 = ftoi ((r : ℚ) + (d : ℚ) / 256) := by
  rw [tdiv_256_eq_ftoi]; congr 1; push_cast; ring

theorem wrap32_of_fits (x : Int) (h : Fits32 x) : wrap32 x = x := by
  unfold wrap32
  unfold Fits32 at h
  omega

theorem wrap32_fits (x : Int) : Fits32 (wrap32 x) := by
  unfold wrap32 Fits32
  omega

theorem flat_index_wrap (H W a b : Int) (hHW : Fits32 (H * W)) (ha : 0 ≤ a) (ha2 : a ≤ H - 1)
    (hb : 0 ≤ b) (hb2 : b ≤ W - 1) : wrap32 (wrap32 (a * W) + b) = a * W + b := by
  have h := flat_index_range H W a b ha ha2 hb hb2
  have hW : 0 ≤ W := by omega
  have hm := mul_nonneg ha hW
  have e1 : wrap32 (a * W) = a * W := by
    apply wrap32_of_fits
    unfold Fits32 at *
    omega
  rw [e1]
  apply wrap32_of_fits
  unfold Fits32 at *
  omega

theorem bintest_eq_sample (pool : Pool) (tcode r c sr sc iind : Int)
    (hH : 1 ≤ (pool iind).nrows) (hW : 1 ≤ (pool iind).ncols)
    (hno : NoOverflow (pool iind).nrows (pool iind).ncols tcode r c sr sc) :
    bintest pool tcode r c sr sc iind =
      if (pool iind).pixels
          ((sample_location (pool iind).nrows (pool iind).ncols r c sr sc
              (sbyte tcode 0) (sbyte tcode 1)).1 * (pool iind).ncols
            + (sample_location (pool iind).nrows (pool iind).ncols r c sr sc
              (sbyte tcode 0) (sbyte tcode 1)).2)
        ≤ (pool iind).pixels
          ((sample_location (pool iind).nrows (pool iind).ncols r c sr sc
              (sbyte tcode 2) (sbyte tcode 3)).1 * (pool iind).ncols
            + (sample_location (pool iind).nrows (pool iind).ncols r c sr sc
              (sbyte tcode 2) (sbyte tcode 3)).2)
      then 1 else 0 := by
  obtain ⟨hr, hc, hR, hC, hfH, hfW, hHW⟩ := hno
  have a0 := hR 0 (Or.inl rfl)
  have a2 := hR 2 (Or.inr rfl)
  have a1 := hC 1 (Or.inl rfl)
  have a3 := hC 3 (Or.inr rfl)
  have eH : wrap32 ((pool iind).nrows - 1) = (pool iind).nrows - 1 := by
    apply wrap32_of_fits
    unfold Fits32 at *
    omega
  have eW : wrap32 ((pool iind).ncols - 1) = (pool iind).ncols - 1 := by
    apply wrap32_of_fits
    unfold Fits32 at *
    omega
  have g1 := clamp_range (Int.tdiv (256 * r + sbyte tcode 0 * sr) 256) _ hH
  have g2 := clamp_range (Int.tdiv (256 * c + sbyte tcode 1 * sc) 256) _ hW
  have g3 := clamp_range (Int.tdiv (256 * r + sbyte tcode 2 * sr) 256) _ hH
  have g4 := clamp_range (Int.tdiv (256 * c + sbyte tcode 3 * sc) 256) _ hW
  have f1 := flat_index_wrap _ _ _ _ hHW g1.1 g1.2 g2.1 g2.2
  have f2 := flat_index_wrap _ _ _ _ hHW g3.1 g3.2 g4.1 g4.2
  unfold bintest
  simp only [wrap32_of_fits _ hr, wrap32_of_fits _ hc, wrap32_of_fits _ a0.1,
    wrap32_of_fits _ a0.2, wrap32_of_fits _ a1.1, wrap32_of_fits _ a1.2,
    wrap32_of_fits _ a2.1, wrap32_of_fits _ a2.2, wrap32_of_fits _ a3.1,
    wrap32_of_fits _ a3.2, eH, eW, MIN_eq_min, MAX_eq_max, f1, f2, sample_location]

theorem bintest_zero_or_one (pool : Pool) (tcode r c sr sc iind : Int) :
    bintest pool tcode r c sr sc iind = 0 ∨ bintest pool tcode r c sr sc iind = 1 := by
  unfold bintest
  simp only
  split_ifs
  · exact Or.inr rfl
  · exact Or.inl rfl

/-- C1 (amended). On an image with `H ≥ 1` rows and `W ≥ 1` columns, for every test
code, read as four signed bytes `(dr1, dc1, dr2, dc2)` lowest byte first, and all
integers `r`, `c`, `sr`, `sc` for which the `int` arithmetic of `bintest` does not
overflow (`NoOverflow`): `bintest` returns `1` iff the intensity at the first sampled
location is at most the intensity at the second and `0` otherwise, where location `k`
has row `(256*r + drk*sr)/256` and column `(256*c + dck*sc)/256` (integer division
rounding toward zero, that is `r + drk*sr/256` truncated), each clamped independently
into `[0, H-1]` and `[0, W-1]`; both flat indices `row*W + col` lie in `[0, H*W)`. -/
theorem bintest_contract (pool : Pool) (iind : Int) (hH : 1 ≤ (pool iind).nrows)
    (hW : 1 ≤ (pool iind).ncols) (tcode r c sr sc : Int)
    (hno : NoOverflow (pool iind).nrows (pool iind).ncols tcode r c sr sc) :
    (∀ k, -128 ≤ sbyte tcode k ∧ sbyte tcode k ≤ 127) ∧
    (∀ dr dc : Int,
      sample_location (pool iind).nrows (pool iind).ncols r c sr sc dr dc =
        (min (max 0 (ftoi ((r : ℚ) + ((dr * sr : Int) : ℚ) / 256))) ((pool iind).nrows - 1),
         min (max 0 (ftoi ((c : ℚ) + ((dc * sc : Int) : ℚ) / 256)))
          ((pool iind).ncols - 1))) ∧
    (∀ dr dc : Int, ∀ p : Int × Int,
      p = sample_location (pool iind).nrows (pool iind).ncols r c sr sc dr dc →
        (0 ≤ p.1 ∧ p.1 ≤ (pool iind).nrows - 1) ∧ (0 ≤ p.2 ∧ p.2 ≤ (pool iind).ncols - 1) ∧
        0 ≤ p.1 * (pool iind).ncols + p.2 ∧
        p.1 * (pool iind).ncols + p.2 < (pool iind).nrows * (pool iind).ncols) ∧
    (∀ p1 p2 : Int × Int,
      p1 = sample_location (pool iind).nrows (pool iind).ncols r c sr sc
        (sbyte tcode 0) (sbyte tcode 1) →
      p2 = sample_location (pool iind).nrows (pool iind).ncols r c sr sc
        (sbyte tcode 2) (sbyte tcode 3) →
      (bintest pool tcode r c sr sc iind = 1 ↔
        (pool iind).pixels (p1.1 * (pool iind).ncols + p1.2)
          ≤ (pool iind).pixels (p2.1 * (pool iind).ncols + p2.2)) ∧
      (bintest pool tcode r c sr sc iind = 0 ↔
        ¬ (pool iind).pixels (p1.1 * (pool iind).ncols + p1.2)
          ≤ (pool iind).pixels (p2.1 * (pool iind).ncols + p2.2))) := by
  refine ⟨sbyte_range tcode, ?_, ?_, ?_⟩
  · intro dr dc
    simp only [sample_location, coord_eq_ftoi]
  · intro dr dc p hp
    have h1 := clamp_range (Int.tdiv (256 * r + dr * sr) 256) _ hH
    have h2 := clamp_range (Int.tdiv (256 * c + dc * sc) 256) _ hW
    have e1 : p.1 = min (max 0 (Int.tdiv (256 * r + dr * sr) 256)) ((pool iind).nrows - 1) := by
      rw [hp]; rfl
    have e2 : p.2 = min (max 0 (Int.tdiv (256 * c + dc * sc) 256)) ((pool iind).ncols - 1) := by
      rw [hp]; rfl
    rw [e1, e2]
    exact ⟨h1, h2, flat_index_range _ _ _ _ h1.1 h1.2 h2.1 h2.2⟩
  · intro p1 p2 hp1 hp2
    rw [bintest_eq_sample pool tcode r c sr sc iind hH hW hno, ← hp1, ← hp2]
    constructor
    · split_ifs with h <;> simp [h]
    · split_ifs with h <;> simp [h]

theorem example_no_overflow : NoOverflow 2 2 16777216 0 0 256 256 := by
  unfold NoOverflow Fits32
  refine ⟨by decide, by decide, ?_, ?_, by decide, by decide, by decide⟩
  · intro k hk
    rcases hk with rfl | rfl <;> decide
  · intro k hk
    rcases hk with rfl | rfl <;> decide

/-- Witness for C1: on the image `[[10, 20], [30, 40]]` the code with offsets
`(0, 0, 0, 1)` at `r = 0`, `c = 0`, `sr = sc = 256` compares pixel `(0,0) = 10` with
pixel `(0,1) = 20` and yields `1`. -/
theorem bintest_contract_witness :
    sample_location 2 2 0 0 256 256 (sbyte 16777216 0) (sbyte 16777216 1) = (0, 0) ∧
    sample_location 2 2 0 0 256 256 (sbyte 16777216 2) (sbyte 16777216 3) = (0, 1) ∧
    bintest (fun _ => Image.ofRows [[10, 20], [30, 40]]) 16777216 0 0 256 256 0 = 1 :=
  ⟨by decide, by decide,
    ((bintest_contract (fun _ => Image.ofRows [[10, 20], [30, 40]]) 0 (by decide) (by decide)
      16777216 0 0 256 256 example_no_overflow).2.2.2 (0, 0) (0, 1) (by decide)
        (by decide)).1.2 (by decide)⟩

/-- Counterexample to C1 as stated (all integers `r`, `c`, `sr`, `sc`): on the image
with rows `[3]` and `[5]` (`H = 2`, `W = 1`), for the code `0x00800000` (offsets
`(0, 0, -128, 0)`), `r = 2^23`, `c = 0`, `sr = 2^24`, `sc = 0`, the stated locations
are row `1` (the clamped `2^23`) and row `0`, whose intensities `5` and `3` give bit
`0`; in the program `256*r = 2^31` wraps to `-2^31`, both sampled rows are `0`, and
`bintest` returns `1`. -/
theorem bintest_overflow_counterexample :
    sample_location 2 1 8388608 0 16777216 0 (sbyte 8388608 0) (sbyte 8388608 1) = (1, 0) ∧
    sample_location 2 1 8388608 0 16777216 0 (sbyte 8388608 2) (sbyte 8388608 3) = (0, 0) ∧
    ¬ (bintest (fun _ => Image.ofRows [[3], [5]]) 8388608 8388608 0 16777216 0 0 = 1 ↔
        (Image.ofRows [[3], [5]]).pixels (1 * 1 + 0)
          ≤ (Image.ofRows [[3], [5]]).pixels (0 * 1 + 0)) := by
  refine ⟨by decide, by decide, ?_⟩
  decide

/-! ## The cascade: `classify_region` -/

theorem sum_range_shift {K : Type} [LinearOrderedField K] (f : Nat → K) (m : Nat) :
    ((List.range (m + 1)).map f).sum = f 0 + ((List.range m).map (fun j => f (j + 1))).sum := by
  rw [List.range_succ_eq_map, List.map_cons, List.sum_cons, List.map_map]
  rfl

theorem accumulated_output_step {K : Type} [LinearOrderedField K] (rnd : K → K)
    (casc : Cascade K) (pool : Pool) (r c sr sc iind : Int) (i : Nat) :
    accumulated_output rnd casc pool r c sr sc iind i =
      rnd (output_before rnd casc pool r c sr sc iind i
        + get_tree_output casc pool i r c sr sc iind) := by
  cases i with
  | zero => rfl
  | succ k => rfl

/-- The loop of `classify_region`, entered at tree `i` with the running output that the
trees before `i` leave and `rem` trees to go, described through the accumulated
outputs. -/
theorem classify_loop_spec {K : Type} [LinearOrderedField K] (rnd : K → K) (casc : Cascade K)
    (pool : Pool) (r c sr sc iind : Int) (rem : Nat) :
    ∀ (i : Nat),
      ((classify_loop rnd casc pool r c sr sc iind rem i
          (output_before rnd casc pool r c sr sc iind i)).1 = 1 ∨
        (classify_loop rnd casc pool r c sr sc iind rem i
          (output_before rnd casc pool r c sr sc iind i)).1 = -1) ∧
      ((classify_loop rnd casc pool r c sr sc iind rem i
          (output_before rnd casc pool r c sr sc iind i)).1 = 1 ↔
        ∀ m, m < rem → casc.thresholds ((i + m : Nat) : Int) <
          accumulated_output rnd casc pool r c sr sc iind (i + m)) ∧
      ((classify_loop rnd casc pool r c sr sc iind rem i
          (output_before rnd casc pool r c sr sc iind i)).1 = 1 →
        (classify_loop rnd casc pool r c sr sc iind rem i
          (output_before rnd casc pool r c sr sc iind i)).2 =
          output_before rnd casc pool r c sr sc iind (i + rem)) ∧
      (∀ m, m < rem →
        (∀ m1, m1 < m → casc.thresholds ((i + m1 : Nat) : Int) <
          accumulated_output rnd casc pool r c sr sc iind (i + m1)) →
        accumulated_output rnd casc pool r c sr sc iind (i + m)
          ≤ casc.thresholds ((i + m : Nat) : Int) →
        classify_loop rnd casc pool r c sr sc iind rem i
            (output_before rnd casc pool r c sr sc iind i) =
          (-1, accumulated_output rnd casc pool r c sr sc iind (i + m))) := by
  induction rem with
  | zero =>
    intro i
    simp [classify_loop]
  | succ rem ih =>
    intro i
    have idx : ∀ m, i + 1 + m = i + (m + 1) := by
      intro m; omega
    obtain ⟨ih1, ih2, ih3, ih4⟩ := ih (i + 1)
    have hnext : output_before rnd casc pool r c sr sc iind (i + 1) =
        accumulated_output rnd casc pool r c sr sc iind i := rfl
    rw [hnext] at ih1 ih2 ih3 ih4
    simp only [classify_loop]
    simp only [← accumulated_output_step]
    by_cases h : accumulated_output rnd casc pool r c sr sc iind i ≤ casc.thresholds (i : Int)
    · rw [if_pos h]
      refine ⟨Or.inr rfl, ?_, ?_, ?_⟩
      · constructor
        · intro hc; exact absurd hc (show ¬ ((-1 : Int) = 1) by decide)
        · intro hall
          have := hall 0 (Nat.succ_pos _)
          simp only [Nat.add_zero] at this
          exact absurd h (not_le.mpr this)
      · intro hc; exact absurd hc (show ¬ ((-1 : Int) = 1) by decide)
      · intro m hm hbefore hfail
        rcases Nat.eq_zero_or_pos m with hm0 | hmpos
        · subst hm0
          rfl
        · have := hbefore 0 hmpos
          simp only [Nat.add_zero] at this
          exact absurd h (not_le.mpr this)
    · rw [if_neg h]
      have hpass : casc.thresholds (i : Int) <
          accumulated_output rnd casc pool r c sr sc iind i := not_le.mp h
      refine ⟨ih1, ?_, ?_, ?_⟩
      · rw [ih2]
        constructor
        · intro hall m hm
          rcases Nat.eq_zero_or_pos m with hm0 | hmpos
          · subst hm0
            simpa using hpass
          · obtain ⟨m1, rfl⟩ : ∃ m1, m = m1 + 1 := ⟨m - 1, by omega⟩
            rw [← idx m1]
            exact hall m1 (by omega)
        · intro hall m hm
          have := hall (m + 1) (by omega)
          rw [← idx m] at this
          exact this
      · intro hc
        rw [ih3 hc]
        rw [show i + 1 + rem = i + (rem + 1) by omega]
      · intro m hm hbefore hfail
        rcases Nat.eq_zero_or_pos m with hm0 | hmpos
        · subst hm0
          simp only [Nat.add_zero] at hfail
          exact absurd hfail h
        · obtain ⟨m1, rfl⟩ : ∃ m1, m = m1 + 1 := ⟨m - 1, by omega⟩
          rw [← idx m1]
          apply ih4 m1 (by omega)
          · intro m2 hm2
            have := hbefore (m2 + 1) (by omega)
            rw [← idx m2] at this
            exact this
          · rw [← idx m1] at hfail
            exact hfail

/-- With exact arithmetic the accumulated output is the running sum of the tree
outputs. -/
theorem accumulated_output_exact {K : Type} [LinearOrderedField K] (casc : Cascade K)
    (pool : Pool) (r c sr sc iind : Int) (i : Nat) :
    accumulated_output (fun x => x) casc pool r c sr sc iind i =
      running_output casc pool r c sr sc iind i := by
  induction i with
  | zero => simp [accumulated_output, running_output, List.range_succ]
  | succ k ih =>
    simp only [accumulated_output, ih, running_output]
    rw [List.range_succ (k + 1), List.map_append, List.sum_append]
    simp

/-- C2 (amended). For every cascade and every window, `classify_region` returns `+1`
iff for every tree `i < ntrees` the running output `S_i` exceeds `thresholds[i]`, and
`-1` otherwise, where `S_i` is the sum `T_0 + ... + T_i` as the program accumulates it
in `float`: `S_0 = rnd (0 + T_0)` and `S_(i+1) = rnd (S_i + T_(i+1))` for the rounding
`rnd` of the machine; it rejects at the first tree with `S_i ≤ thresholds[i]`, leaving
`S_i` in `*o` (later trees are not evaluated); an empty cascade accepts every
window. -/
theorem classify_region_contract {K : Type} [LinearOrderedField K] [FloorRing K]
    (rnd : K → K) (casc : Cascade K) (pool : Pool) (o : K) (r c s iind : Int) :
    ((classify_region rnd casc pool o r c s iind).1 = 1 ↔
      ∀ i, i < casc.ntrees → casc.thresholds (i : Int) <
        accumulated_output rnd casc pool r c (ftoi (rnd (casc.tsr * rnd (s : K))))
          (ftoi (rnd (casc.tsc * rnd (s : K)))) iind i) ∧
    ((classify_region rnd casc pool o r c s iind).1 = -1 ↔
      ¬ ∀ i, i < casc.ntrees → casc.thresholds (i : Int) <
        accumulated_output rnd casc pool r c (ftoi (rnd (casc.tsr * rnd (s : K))))
          (ftoi (rnd (casc.tsc * rnd (s : K)))) iind i) ∧
    (∀ i, i < casc.ntrees →
      (∀ j, j < i → casc.thresholds (j : Int) <
        accumulated_output rnd casc pool r c (ftoi (rnd (casc.tsr * rnd (s : K))))
          (ftoi (rnd (casc.tsc * rnd (s : K)))) iind j) →
      accumulated_output rnd casc pool r c (ftoi (rnd (casc.tsr * rnd (s : K))))
          (ftoi (rnd (casc.tsc * rnd (s : K)))) iind i ≤ casc.thresholds (i : Int) →
      classify_region rnd casc pool o r c s iind =
        (-1, accumulated_output rnd casc pool r c (ftoi (rnd (casc.tsr * rnd (s : K))))
          (ftoi (rnd (casc.tsc * rnd (s : K)))) iind i)) ∧
    (casc.ntrees = 0 → (classify_region rnd casc pool o r c s iind).1 = 1) := by
  have hspec := classify_loop_spec rnd casc pool r c (ftoi (rnd (casc.tsr * rnd (s : K))))
    (ftoi (rnd (casc.tsc * rnd (s : K)))) iind casc.ntrees 0
  simp only [Nat.zero_add, output_before] at hspec
  obtain ⟨h1, h2, _, h4⟩ := hspec
  by_cases hn : casc.ntrees = 0
  · have hres : classify_region rnd casc pool o r c s iind = (1, o) := by
      simp [classify_region, hn]
    rw [hres]
    refine ⟨?_, ?_, ?_, fun _ => rfl⟩
    · simp [hn]
    · simp [hn]
    · intro i hi; omega
  · have hres : classify_region rnd casc pool o r c s iind =
        classify_loop rnd casc pool r c (ftoi (rnd (casc.tsr * rnd (s : K))))
          (ftoi (rnd (casc.tsc * rnd (s : K)))) iind casc.ntrees 0 0 := by
      simp [classify_region, hn]
    rw [hres]
    refine ⟨h2, ?_, h4, fun h0 => absurd h0 hn⟩
    rw [← h2]
    rcases h1 with h | h <;> rw [h] <;> decide

theorem bintest_zero_code (pool : Pool) (r c sr sc iind : Int) :
    bintest pool 0 r c sr sc iind = 1 := by
  simp [bintest, sbyte]

theorem round32_half : round32 (1 / 2) = 1 / 2 := by
  have h := round32_eval (1 / 2) (-1) 8388608 (by norm_num) (by norm_num [abs_of_pos])
    (by norm_num [abs_of_pos]) (by norm_num) (by norm_num)
  rw [h]
  norm_num

/-- Witness for C2: depth `1`, one tree whose test always answers `1`, leaves
`[-1/2, 1/2]`, threshold `-1337`: in binary32 arithmetic the window gets output `1/2`
and survives. -/
theorem classify_region_contract_witness :
    (∀ i, i < (single_tree_cascade : Cascade ℚ).ntrees →
      (single_tree_cascade : Cascade ℚ).thresholds (i : Int) <
      accumulated_output round32 (single_tree_cascade : Cascade ℚ) example_pool 1 1
        (ftoi (round32 ((single_tree_cascade : Cascade ℚ).tsr * round32 ((2 : Int) : ℚ))))
        (ftoi (round32 ((single_tree_cascade : Cascade ℚ).tsc * round32 ((2 : Int) : ℚ)))) 0 i) ∧
    classify_region round32 (single_tree_cascade : Cascade ℚ) example_pool 7 1 1 2 0
      = (1, 1 / 2) := by
  have hacc :
      classify_region round32 (single_tree_cascade : Cascade ℚ) example_pool 7 1 1 2 0
        = (1, 1 / 2) := by
    simp only [classify_region, classify_loop, get_tree_output, walk_idx, bintest_zero_code,
      single_tree_cascade]
    norm_num [round32_half]
  exact ⟨(classify_region_contract round32 (single_tree_cascade : Cascade ℚ) example_pool 7 1 1
    2 0).1.1 (by rw [hacc]), hacc⟩

theorem round32_one_plus : round32 (33554433 / 33554432) = 1 := by
  have h := round32_eval (33554433 / 33554432) 0 8388608 (by norm_num)
    (by norm_num [abs_of_pos]) (by norm_num [abs_of_pos]) (by norm_num) (by norm_num)
  rw [h]
  norm_num

/-- Counterexample to C2 as stated (exact running sums): on the cascade of two trees of
depth `0` with leaves `1` and `2^-25` and thresholds `0` and `1`, both running sums
exceed their thresholds (`S_0 = 1 > 0` and `S_1 = 1 + 2^-25 > 1`), yet in binary32
arithmetic `1 + 2^-25` rounds to `1`, which is not above `thresholds[1]`, and
`classify_region` returns `-1`. -/
theorem classify_region_rounding_counterexample :
    rounding_cascade.thresholds 0 < running_output rounding_cascade example_pool 0 0 1 1 0 0 ∧
    rounding_cascade.thresholds 1 < running_output rounding_cascade example_pool 0 0 1 1 0 1 ∧
    ftoi (round32 (rounding_cascade.tsr * round32 ((1 : Int) : ℚ))) = 1 ∧
    ftoi (round32 (rounding_cascade.tsc * round32 ((1 : Int) : ℚ))) = 1 ∧
    classify_region round32 rounding_cascade example_pool 0 0 0 1 0 = (-1, 1) := by
  refine ⟨?_, ?_, ?_, ?_, ?_⟩
  · norm_num [running_output, get_tree_output, walk_idx, rounding_cascade, List.range_succ]
  · norm_num [running_output, get_tree_output, walk_idx, rounding_cascade, List.range_succ]
  · norm_num [rounding_cascade, round32_one, ftoi]
  · norm_num [rounding_cascade, round32_one, ftoi]
  · simp only [classify_region, classify_loop, get_tree_output, walk_idx, rounding_cascade]
    norm_num [round32_one, round32_one_plus]

/-! ## Tree evaluation -/

theorem walk_idx_range (bit : Int → Int) (hbit : ∀ k, bit k = 0 ∨ bit k = 1) (j : Nat) :
    (2 : Int) ^ j ≤ walk_idx bit j ∧ walk_idx bit j < 2 ^ (j + 1) := by
  induction j with
  | zero => simp [walk_idx]
  | succ j ih =>
    have hb := hbit (walk_idx bit j - 1)
    have e1 : (2 : Int) ^ (j + 1) = 2 * 2 ^ j := by ring
    have e2 : (2 : Int) ^ (j + 1 + 1) = 2 * (2 * 2 ^ j) := by ring
    rw [e1] at ih
    simp only [walk_idx]
    rw [e1, e2]
    rcases hb with hb | hb <;> rw [hb] <;> omega

theorem two_pow_mono_int {j D : Nat} (h : j ≤ D) : (2 : Int) ^ j ≤ 2 ^ D :=
  pow_le_pow_right₀ (by norm_num) h

/-- C3. For every depth `D ≥ 0` and every outcome `bit` of the binary tests (each `0`
or `1`), the index of `get_tree_output` starts at `1`, becomes `2*idx + bit` once per
level, and after `D` levels the leaf `idx - 2^D` is returned; at every level `j < D`
the code position read, `idx - 1`, lies in `[0, 2^D - 1)`, and the final leaf ordinal
`idx - 2^D` lies in `[0, 2^D)`.  The last part states the same for the walk that
`get_tree_output` makes on a cascade of depth `D`, whose bits are results of `bintest`. -/
theorem get_tree_output_walk (bit : Int → Int) (hbit : ∀ k, bit k = 0 ∨ bit k = 1)
    (D : Nat) :
    walk_idx bit 0 = 1 ∧
    (∀ j, walk_idx bit (j + 1) = 2 * walk_idx bit j + bit (walk_idx bit j - 1)) ∧
    (∀ j, j < D → 0 ≤ walk_idx bit j - 1 ∧ walk_idx bit j - 1 < 2 ^ D - 1) ∧
    (0 ≤ walk_idx bit D - 2 ^ D ∧ walk_idx bit D - 2 ^ D < 2 ^ D) ∧
    (∀ (K : Type) (casc : Cascade K) (pool : Pool) (i : Nat) (r c sr sc iind : Int),
      casc.tdepth = D →
      get_tree_output casc pool i r c sr sc iind =
        casc.luts i
          (walk_idx (fun k => bintest pool (casc.tcodes i k) r c sr sc iind) D - 2 ^ D) ∧
      (∀ j, j < D →
        0 ≤ walk_idx (fun k => bintest pool (casc.tcodes i k) r c sr sc iind) j - 1 ∧
        walk_idx (fun k => bintest pool (casc.tcodes i k) r c sr sc iind) j - 1 < 2 ^ D - 1) ∧
      0 ≤ walk_idx (fun k => bintest pool (casc.tcodes i k) r c sr sc iind) D - 2 ^ D ∧
      walk_idx (fun k => bintest pool (casc.tcodes i k) r c sr sc iind) D - 2 ^ D < 2 ^ D) := by
  have key : ∀ b : Int → Int, (∀ k, b k = 0 ∨ b k = 1) →
      (∀ j, j < D → 0 ≤ walk_idx b j - 1 ∧ walk_idx b j - 1 < 2 ^ D - 1) ∧
      (0 ≤ walk_idx b D - 2 ^ D ∧ walk_idx b D - 2 ^ D < 2 ^ D) := by
    intro b hb
    constructor
    · intro j hj
      have h := walk_idx_range b hb j
      have h1 : (1 : Int) ≤ 2 ^ j := one_le_pow₀ (by norm_num)
      have h2 : (2 : Int) ^ (j + 1) ≤ 2 ^ D := two_pow_mono_int hj
      omega
    · have h := walk_idx_range b hb D
      have e : (2 : Int) ^ (D + 1) = 2 * 2 ^ D := by ring
      omega
  refine ⟨rfl, fun _ => rfl, (key bit hbit).1, (key bit hbit).2, ?_⟩
  intro K casc pool i r c sr sc iind hD
  have hk := key (fun k => bintest pool (casc.tcodes i k) r c sr sc iind)
    (fun k => bintest_zero_or_one pool (casc.tcodes i k) r c sr sc iind)
  refine ⟨?_, hk.1, hk.2.1, hk.2.2⟩
  subst hD
  rfl

/-- Witness for C3: depth `2` with every test answering `1` walks `1, 3, 7` and returns
leaf `7 - 4 = 3`. -/
theorem get_tree_output_walk_witness :
    walk_idx (fun _ => 1) 2 = 7 ∧
    (0 ≤ walk_idx (fun _ => 1) 2 - 2 ^ 2 ∧ walk_idx (fun _ => 1) 2 - 2 ^ 2 < 2 ^ 2) :=
  ⟨by decide, (get_tree_output_walk (fun _ => 1) (fun _ => Or.inr rfl) 2).2.2.2.1⟩

/-! ## The threshold scan of `learn_new_stage` -/

theorem countP_range_eq_card (p : Nat → Prop) [DecidablePred p] (n : Nat) :
    (List.range n).countP (fun i => decide (p i)) = ((Finset.range n).filter p).card := by
  induction n with
  | zero => simp
  | succ n ih =>
    rw [List.range_succ, List.countP_append, ih, Finset.range_succ, Finset.filter_insert]
    by_cases h : p n
    · rw [if_pos h, Finset.card_insert_of_not_mem (by simp)]
      simp [h]
    · rw [if_neg h]
      simp [h]

theorem numtps_eq_card {K : Type} [LinearOrderedField K] (tvals os : Nat → K) (n : Nat)
    (T : K) :
    numtps tvals os n T = ((Finset.range n).filter (fun i => 0 < tvals i ∧ T < os i)).card := by
  unfold numtps
  exact countP_range_eq_card (fun i => 0 < tvals i ∧ T < os i) n

theorem numfps_eq_card {K : Type} [LinearOrderedField K] (tvals os : Nat → K) (n : Nat)
    (T : K) :
    numfps tvals os n T = ((Finset.range n).filter (fun i => tvals i < 0 ∧ T < os i)).card := by
  unfold numfps
  exact countP_range_eq_card (fun i => tvals i < 0 ∧ T < os i) n

theorem scan_grid_succ {K : Type} [LinearOrderedField K] (j : Nat) :
    (scan_grid j : K) - 5 / 1000 = scan_grid (j + 1) := by
  unfold scan_grid; push_cast; ring

theorem scan_grid_zero {K : Type} [LinearOrderedField K] : (scan_grid 0 : K) = 5 := by
  unfold scan_grid; simp

theorem scan_grid_anti {K : Type} [LinearOrderedField K] {j k : Nat} (h : j ≤ k) :
    (scan_grid k : K) ≤ scan_grid j := by
  unfold scan_grid
  have : (j : K) ≤ (k : K) := by exact_mod_cast h
  have h5 : (0 : K) < 5 / 1000 := by norm_num
  nlinarith

theorem fdiv_of_ne {K : Type} [LinearOrderedField K] (rnd : K → K) (x y : K) (hy : y ≠ 0) :
    fdiv rnd x y = Flt.fin (rnd (x / y)) := by
  simp [fdiv, hy]

theorem flt_gt_fin {K : Type} [LinearOrderedField K] (a b : K) :
    Flt.gt (Flt.fin a) (Flt.fin b) = decide (a > b) := rfl

/-- One unfolding of the scan in exact arithmetic, in terms of the grid and the
rates. -/
theorem calibrate_step {K : Type} [LinearOrderedField K] (tvals os : Nat → K) (np nn : Nat)
    (mintpr : K) (fuel j : Nat) (hnp : 1 ≤ np) :
    calibrate (fun x => x) tvals os np nn mintpr (fuel + 1) (scan_grid j) =
      if stage_tpr tvals os np nn (scan_grid (j + 1)) < mintpr then
        calibrate (fun x => x) tvals os np nn mintpr fuel (scan_grid (j + 1))
      else some (scan_grid (j + 1), Flt.fin (stage_tpr tvals os np nn (scan_grid (j + 1))),
        stage_fpr tvals os np nn (scan_grid (j + 1))) := by
  have hnpK : (np : K) ≠ 0 := by
    have : (0 : K) < (np : K) := by exact_mod_cast hnp
    exact ne_of_gt this
  simp only [calibrate, scan_grid_succ, stage_tpr, stage_fpr, numtps_eq_card, numfps_eq_card,
    fdiv_of_ne _ _ _ hnpK, flt_gt_fin, decide_eq_true_eq, gt_iff_lt]

/-- The scan entered at grid value `j` stops at the first later grid value `k` at which
the stage TPR is not below `mintpr`, provided the fuel reaches that far. -/
theorem calibrate_scan {K : Type} [LinearOrderedField K] (tvals os : Nat → K) (np nn : Nat)
    (mintpr : K) (k : Nat) (hnp : 1 ≤ np) :
    ∀ (fuel j : Nat), j < k → k ≤ j + fuel →
      (∀ m, j < m → m < k → stage_tpr tvals os np nn (scan_grid m) < mintpr) →
      ¬ stage_tpr tvals os np nn (scan_grid k) < mintpr →
      calibrate (fun x => x) tvals os np nn mintpr fuel (scan_grid j) =
        some (scan_grid k, Flt.fin (stage_tpr tvals os np nn (scan_grid k)),
          stage_fpr tvals os np nn (scan_grid k)) := by
  intro fuel
  induction fuel with
  | zero => intro j hj hk; omega
  | succ fuel ih =>
    intro j hj hk hbelow hk2
    rw [calibrate_step _ _ _ _ _ _ _ hnp]
    by_cases hjk : j + 1 = k
    · subst hjk
      rw [if_neg hk2]
    · rw [if_pos (hbelow (j + 1) (by omega) (by omega))]
      exact ih (j + 1) (by omega) (by omega) (fun m h1 h2 => hbelow m (by omega) h2) hk2

/-- Every result of the scan is a grid value with index `k ≥ 1` within the fuel, with
the rates measured there, reached after the TPR test failed at all earlier indices. -/
theorem calibrate_result {K : Type} [LinearOrderedField K] (tvals os : Nat → K) (np nn : Nat)
    (mintpr : K) (hnp : 1 ≤ np) :
    ∀ (fuel j : Nat) (res : K × Flt K × Flt K),
      calibrate (fun x => x) tvals os np nn mintpr fuel (scan_grid j) = some res →
      ∃ k, j < k ∧ k ≤ j + fuel ∧
        res = (scan_grid k, Flt.fin (stage_tpr tvals os np nn (scan_grid k)),
          stage_fpr tvals os np nn (scan_grid k)) ∧
        ¬ stage_tpr tvals os np nn (scan_grid k) < mintpr ∧
        ∀ m, j < m → m < k → stage_tpr tvals os np nn (scan_grid m) < mintpr := by
  intro fuel
  induction fuel with
  | zero => intro j res h; simp [calibrate] at h
  | succ fuel ih =>
    intro j res h
    rw [calibrate_step _ _ _ _ _ _ _ hnp] at h
    by_cases ht : stage_tpr tvals os np nn (scan_grid (j + 1)) < mintpr
    · rw [if_pos ht] at h
      obtain ⟨k, hk1, hk2, hk3, hk4, hk5⟩ := ih (j + 1) res h
      refine ⟨k, by omega, by omega, hk3, hk4, ?_⟩
      intro m hm1 hm2
      by_cases hmj : m = j + 1
      · rw [hmj]; exact ht
      · exact hk5 m (by omega) hm2
    · rw [if_neg ht] at h
      refine ⟨j + 1, by omega, by omega, (Option.some.inj h).symm, ht, ?_⟩
      intro m hm1 hm2; omega

theorem exists_lower_bound {K : Type} [LinearOrderedField K] (os : Nat → K) (n : Nat) :
    ∃ b : K, ∀ i, i < n → b < os i := by
  induction n with
  | zero => exact ⟨0, fun i hi => absurd hi (Nat.not_lt_zero i)⟩
  | succ n ih =>
    obtain ⟨b, hb⟩ := ih
    refine ⟨min b (os n - 1), fun i hi => ?_⟩
    by_cases h : i = n
    · subst h
      exact lt_of_le_of_lt (min_le_right _ _) (by linarith)
    · exact lt_of_le_of_lt (min_le_left _ _) (hb i (by omega))

theorem exists_grid_below {K : Type} [LinearOrderedField K] [FloorRing K] (b : K) :
    ∃ k : Nat, 1 ≤ k ∧ (scan_grid k : K) < b := by
  haveI : Archimedean K := FloorRing.archimedean K
  obtain ⟨k, hk⟩ := exists_nat_gt ((5 - b) / (5 / 1000))
  refine ⟨k + 1, by omega, ?_⟩
  unfold scan_grid
  have h5 : (0 : K) < 5 / 1000 := by norm_num
  rw [div_lt_iff₀ h5] at hk
  push_cast
  linarith

theorem stage_tpr_ge_one {K : Type} [LinearOrderedField K] (tvals os : Nat → K) (np nn : Nat)
    (T : K) (hnp : 1 ≤ np)
    (hpos : np ≤ (List.range (np + nn)).countP (fun i => decide (0 < tvals i)))
    (hT : ∀ i, i < np + nn → T < os i) : 1 ≤ stage_tpr tvals os np nn T := by
  unfold stage_tpr
  have hnpK : (0 : K) < (np : K) := by exact_mod_cast hnp
  rw [le_div_iff₀ hnpK, one_mul]
  have e : (Finset.range (np + nn)).filter (fun i => 0 < tvals i ∧ T < os i) =
      (Finset.range (np + nn)).filter (fun i => 0 < tvals i) := by
    apply Finset.filter_congr
    intro i hi
    have := hT i (Finset.mem_range.mp hi)
    simp [this]
  rw [e, ← countP_range_eq_card]
  exact_mod_cast hpos

/-- Some grid index `k ≥ 1` has stage TPR not below `mintpr`, and there is a first one. -/
theorem exists_first_grid_hit {K : Type} [LinearOrderedField K] [FloorRing K]
    (tvals os : Nat → K) (np nn : Nat) (mintpr : K) (hnp : 1 ≤ np)
    (hpos : np ≤ (List.range (np + nn)).countP (fun i => decide (0 < tvals i)))
    (hm : mintpr ≤ 1) :
    ∃ k : Nat, 1 ≤ k ∧ mintpr ≤ stage_tpr tvals os np nn (scan_grid k) ∧
      ∀ m, 0 < m → m < k → stage_tpr tvals os np nn (scan_grid m) < mintpr := by
  classical
  obtain ⟨b, hb⟩ := exists_lower_bound os (np + nn)
  obtain ⟨k0, hk0, hk0b⟩ := exists_grid_below b
  have hex : ∃ k, 1 ≤ k ∧ mintpr ≤ stage_tpr tvals os np nn (scan_grid k) :=
    ⟨k0, hk0, le_trans hm (stage_tpr_ge_one tvals os np nn _ hnp hpos
      (fun i hi => lt_trans hk0b (hb i hi)))⟩
  refine ⟨Nat.find hex, (Nat.find_spec hex).1, (Nat.find_spec hex).2, ?_⟩
  intro m hm0 hm1
  have := Nat.find_min hex hm1
  by_contra hcon
  exact this ⟨hm0, not_lt.mp hcon⟩

/-- Under the same conditions the scan returns, with one result for all large fuel. -/
theorem calibrate_total {K : Type} [LinearOrderedField K] [FloorRing K]
    (tvals os : Nat → K) (np nn : Nat) (mintpr : K) (hnp : 1 ≤ np)
    (hpos : np ≤ (List.range (np + nn)).countP (fun i => decide (0 < tvals i)))
    (hm : mintpr ≤ 1) :
    ∃ k : Nat, ∀ fuel, k ≤ fuel →
      calibrate (fun x => x) tvals os np nn mintpr fuel 5 =
        some (scan_grid k, Flt.fin (stage_tpr tvals os np nn (scan_grid k)),
          stage_fpr tvals os np nn (scan_grid k)) := by
  obtain ⟨k, hk1, hk2, hk3⟩ := exists_first_grid_hit tvals os np nn mintpr hnp hpos hm
  refine ⟨k, fun fuel hfuel => ?_⟩
  have h := calibrate_scan tvals os np nn mintpr k hnp fuel 0 hk1 (by omega) hk3
    (not_lt.mpr hk2)
  rw [scan_grid_zero] at h
  exact h

/-- C5 (amended). In exact arithmetic, with `np ≥ 1`, at least `np` positives among the
`np + nn` samples and `mintpr ≤ 1`, the threshold scan of `learn_new_stage` terminates
(all fuel from some `k` on gives the same result), and it stops at `T = 5.0 - 0.005 * k`
for the least `k ≥ 1` with stage TPR at `T` not below `mintpr`: the largest value of the
grid `{5.0 - 0.005 * k : k = 1, 2, ...}` with TPR `≥ mintpr`; the `tpr` and `fpr` it
leaves are the rates measured at that `T`. -/
theorem calibrate_largest_on_grid {K : Type} [LinearOrderedField K] [FloorRing K]
    (tvals os : Nat → K) (np nn : Nat) (mintpr : K) (hnp : 1 ≤ np)
    (hpos : np ≤ (List.range (np + nn)).countP (fun i => decide (0 < tvals i)))
    (hm : mintpr ≤ 1) :
    ∃ k : Nat, 1 ≤ k ∧
      (∀ fuel, k ≤ fuel →
        calibrate (fun x => x) tvals os np nn mintpr fuel 5 =
          some (scan_grid k, Flt.fin (stage_tpr tvals os np nn (scan_grid k)),
            stage_fpr tvals os np nn (scan_grid k))) ∧
      mintpr ≤ stage_tpr tvals os np nn (scan_grid k) ∧
      (∀ j : Nat, 1 ≤ j → mintpr ≤ stage_tpr tvals os np nn (scan_grid j) →
        (scan_grid j : K) ≤ scan_grid k) := by
  obtain ⟨k, hk1, hk2, hk3⟩ := exists_first_grid_hit tvals os np nn mintpr hnp hpos hm
  refine ⟨k, hk1, ?_, hk2, ?_⟩
  · intro fuel hfuel
    have h := calibrate_scan tvals os np nn mintpr k hnp fuel 0 hk1 (by omega) hk3
      (not_lt.mpr hk2)
    rw [scan_grid_zero] at h
    exact h
  · intro j hj hjt
    apply scan_grid_anti
    by_contra hcon
    exact absurd (hk3 j hj (not_le.mp hcon)) (not_lt.mpr hjt)

theorem stage_tpr_eq_zero {K : Type} [LinearOrderedField K] (tvals os : Nat → K) (np nn : Nat)
    (T : K) (hT : ∀ i, i < np + nn → 0 < tvals i → os i ≤ T) :
    stage_tpr tvals os np nn T = 0 := by
  unfold stage_tpr
  have e : (Finset.range (np + nn)).filter (fun i => 0 < tvals i ∧ T < os i) = ∅ := by
    apply Finset.filter_eq_empty_iff.mpr
    intro i hi hc
    exact absurd (hT i (Finset.mem_range.mp hi) hc.1) (not_le.mpr hc.2)
  rw [e]
  simp

/-- Witness for C5 (amended): ten positives with output `1`, ten negatives with output
`1/2`, `mintpr = 0.9`: the scan stops at a threshold `T` in `(0.5, 1.0]` with stage TPR
`1` and stage FPR `0`. -/
theorem calibrate_largest_on_grid_witness :
    (∃ k : Nat, 1 ≤ k ∧
      (∀ fuel, k ≤ fuel →
        calibrate (fun x => x) ten_positive_tvals ten_positive_os 10 10 (9 / 10) fuel 5 =
          some (scan_grid k,
            Flt.fin (stage_tpr ten_positive_tvals ten_positive_os 10 10 (scan_grid k)),
            stage_fpr ten_positive_tvals ten_positive_os 10 10 (scan_grid k))) ∧
      (9 / 10 : ℚ) ≤ stage_tpr ten_positive_tvals ten_positive_os 10 10 (scan_grid k) ∧
      (∀ j : Nat, 1 ≤ j →
        (9 / 10 : ℚ) ≤ stage_tpr ten_positive_tvals ten_positive_os 10 10 (scan_grid j) →
        (scan_grid j : ℚ) ≤ scan_grid k)) ∧
    (∃ T : ℚ, calibrate (fun x => x) ten_positive_tvals ten_positive_os 10 10 (9 / 10) 801 5 =
        some (T, Flt.fin 1, Flt.fin 0) ∧ 1 / 2 < T ∧ T ≤ 1) := by
  refine ⟨calibrate_largest_on_grid ten_positive_tvals ten_positive_os 10 10 (9 / 10)
    (by decide) (by simp [ten_positive_tvals, List.range_succ]) (by norm_num),
    199 / 200, ?_, by norm_num, by norm_num⟩
  have hlow : ∀ m, 0 < m → m < 801 →
      stage_tpr ten_positive_tvals ten_positive_os 10 10 (scan_grid m) < 9 / 10 := by
    intro m _ hm
    rw [stage_tpr_eq_zero]
    · norm_num
    · intro i _ hi
      have h10 : i < 10 := by
        by_contra hc
        simp [ten_positive_tvals, hc] at hi
        norm_num at hi
      have hmq : (m : ℚ) ≤ 800 := by exact_mod_cast (by omega : m ≤ 800)
      simp only [ten_positive_os, h10, if_true, scan_grid]
      linarith
  have hT : (scan_grid 801 : ℚ) = 199 / 200 := by
    unfold scan_grid; norm_num
  have htpr : stage_tpr ten_positive_tvals ten_positive_os 10 10 (199 / 200) = 1 := by
    unfold stage_tpr
    rw [← countP_range_eq_card]
    simp [ten_positive_tvals, ten_positive_os, List.range_succ]
    norm_num
  have hfpr : stage_fpr ten_positive_tvals ten_positive_os 10 10 (199 / 200) = Flt.fin 0 := by
    unfold stage_fpr
    rw [← countP_range_eq_card, fdiv_of_ne _ _ _ (by norm_num)]
    simp [ten_positive_tvals, ten_positive_os, List.range_succ]
    norm_num
  have h := calibrate_scan ten_positive_tvals ten_positive_os 10 10 (9 / 10) 801 (by decide)
    801 0 (by decide) (by decide) hlow (by rw [hT, htpr]; norm_num)
  rw [scan_grid_zero, hT, htpr, hfpr] at h
  exact h

/-- Counterexample to C5 as stated: one positive with output `10`, one negative with
output `0`, `mintpr = 0.9`.  The scan stops at `4.995`, although the grid value
`5.0 - 0.005 * 0 = 5.0` is larger and has stage TPR `1 ≥ mintpr`: the scan lowers the
threshold before its first test, so `5.0` is never tried. -/
theorem calibrate_skips_grid_origin :
    calibrate (fun x => x) (one_positive_tvals : Nat → ℚ) (fun i => if i = 0 then 10 else 0) 1 1
        (9 / 10) 1 5 =
      some (999 / 200, Flt.fin 1, Flt.fin 0) ∧
    ¬ (∀ j : Nat,
        (9 / 10 : ℚ) ≤ stage_tpr (one_positive_tvals : Nat → ℚ) (fun i => if i = 0 then 10 else 0) 1 1
          (scan_grid j) →
        (scan_grid j : ℚ) ≤ 999 / 200) := by
  constructor
  · simp [calibrate, numtps, numfps, one_positive_tvals, List.range_succ, fdiv, Flt.gt]
    norm_num
  · intro h
    have h0 := h 0 (by
      unfold stage_tpr
      rw [← countP_range_eq_card]
      simp [one_positive_tvals, scan_grid, List.range_succ]
      norm_num)
    rw [scan_grid_zero] at h0
    norm_num at h0

/-! ## The weights of `learn_new_stage` -/

theorem sum_map_div_const {K : Type} [LinearOrderedField K] (f : Nat → K) (z : K)
    (l : List Nat) : (l.map (fun i => f i / z)).sum = (l.map f).sum / z := by
  induction l with
  | nil => simp
  | cons a l ih => simp only [List.map_cons, List.sum_cons, ih, add_div]

theorem sum_map_pos {K : Type} [LinearOrderedField K] (f : Nat → K) (n : Nat) (hn : 1 ≤ n)
    (hf : ∀ i, i < n → 0 < f i) : 0 < ((List.range n).map f).sum := by
  apply List.sum_pos
  · intro x hx
    obtain ⟨i, hi, rfl⟩ := List.mem_map.mp hx
    exact hf i (List.mem_range.mp hi)
  · intro h
    have := congrArg List.length h
    simp at this
    omega

theorem compute_weights_in_range {K : Type} [LinearOrderedField K] (expf : K → K)
    (tvals os : Nat → K) (np nn i : Nat) (hi : i < np + nn) :
    compute_weights expf tvals os np nn i =
      raw_weight expf tvals os np nn i /
        ((List.range (np + nn)).map (raw_weight expf tvals os np nn)).sum := by
  simp [compute_weights, hi]

/-- The counts of a sample set with `np` positives among `np + nn` samples, each target
being `+1` or `-1`: a positive sample forces `np ≥ 1`, a negative one `nn ≥ 1`. -/
theorem counts_pos {K : Type} [LinearOrderedField K] (tvals : Nat → K) (np nn : Nat)
    (hnp : (List.range (np + nn)).countP (fun i => decide (tvals i = 1)) = np)
    (i : Nat) (hi : i < np + nn) :
    (tvals i = 1 → 1 ≤ np) ∧ (tvals i ≠ 1 → 1 ≤ nn) := by
  have hmem : i ∈ List.range (np + nn) := List.mem_range.mpr hi
  constructor
  · intro h
    rw [← hnp]
    exact List.countP_pos_iff.mpr ⟨i, hmem, by simp [h]⟩
  · intro h
    have hlen := List.length_eq_countP_add_countP (fun i => decide (tvals i = 1))
      (List.range (np + nn))
    rw [List.length_range, hnp] at hlen
    have hneg : 0 < (List.range (np + nn)).countP (fun a => ¬ (decide (tvals a = 1)) = true) :=
      List.countP_pos_iff.mpr ⟨i, hmem, by simp [h]⟩
    omega

/-- C7. For a sample set with at least one sample, `np` positives (`tval = +1`) and
`nn` negatives (`tval = -1`), the weights that `learn_new_stage` hands to `grow_rtree`
are, over the reals, all strictly positive and sum to `1`; the weight of each positive
is `exp(-o)/np` and that of each negative `exp(+o)/nn`, divided by one common constant. -/
theorem weights_normalised (tvals os : Nat → ℝ) (np nn : Nat) (hne : 1 ≤ np + nn)
    (htv : ∀ i, i < np + nn → tvals i = 1 ∨ tvals i = -1)
    (hnp : (List.range (np + nn)).countP (fun i => decide (tvals i = 1)) = np) :
    (∀ i, i < np + nn → 0 < compute_weights Real.exp tvals os np nn i) ∧
    ((List.range (np + nn)).map (compute_weights Real.exp tvals os np nn)).sum = 1 ∧
    ∃ Z : ℝ, 0 < Z ∧ ∀ i, i < np + nn →
      (tvals i = 1 →
        compute_weights Real.exp tvals os np nn i = Real.exp (-os i) / (np : ℝ) / Z) ∧
      (tvals i = -1 →
        compute_weights Real.exp tvals os np nn i = Real.exp (os i) / (nn : ℝ) / Z) := by
  have hraw : ∀ i, i < np + nn → 0 < raw_weight Real.exp tvals os np nn i := by
    intro i hi
    have hc := counts_pos tvals np nn hnp i hi
    unfold raw_weight
    rcases htv i hi with h | h
    · have h1 : (0 : ℝ) < (np : ℝ) := by exact_mod_cast hc.1 h
      rw [if_pos (by rw [h]; norm_num)]
      exact div_pos (Real.exp_pos _) h1
    · have hne1 : tvals i ≠ 1 := by rw [h]; norm_num
      have h1 : (0 : ℝ) < (nn : ℝ) := by exact_mod_cast hc.2 hne1
      rw [if_neg (by rw [h]; norm_num)]
      exact div_pos (Real.exp_pos _) h1
  have hsum : 0 < ((List.range (np + nn)).map (raw_weight Real.exp tvals os np nn)).sum :=
    sum_map_pos _ _ hne hraw
  refine ⟨?_, ?_, ⟨_, hsum, ?_⟩⟩
  · intro i hi
    rw [compute_weights_in_range Real.exp tvals os np nn i hi]
    exact div_pos (hraw i hi) hsum
  · have e : (List.range (np + nn)).map (compute_weights Real.exp tvals os np nn) =
        (List.range (np + nn)).map (fun i => raw_weight Real.exp tvals os np nn i /
          ((List.range (np + nn)).map (raw_weight Real.exp tvals os np nn)).sum) := by
      apply List.map_congr_left
      intro i hi
      exact compute_weights_in_range Real.exp tvals os np nn i (List.mem_range.mp hi)
    rw [e, sum_map_div_const, div_self (ne_of_gt hsum)]
  · intro i hi
    rw [compute_weights_in_range Real.exp tvals os np nn i hi]
    constructor
    · intro h
      unfold raw_weight
      rw [if_pos (by rw [h]; norm_num), neg_one_mul]
    · intro h
      unfold raw_weight
      rw [if_neg (by rw [h]; norm_num), one_mul]

/-- Witness for C7: one positive and one negative, both with running output `0`. -/
theorem weights_normalised_witness :
    (∀ i, i < 1 + 1 →
      0 < compute_weights Real.exp one_positive_tvals (fun _ => (0 : ℝ)) 1 1 i) ∧
    ((List.range (1 + 1)).map
      (compute_weights Real.exp one_positive_tvals (fun _ => (0 : ℝ)) 1 1)).sum = 1 :=
  have h := weights_normalised one_positive_tvals (fun _ => (0 : ℝ)) 1 1 (by decide)
    (fun i _ => by
      unfold one_positive_tvals
      by_cases h0 : i = 0
      · exact Or.inl (by simp [h0])
      · exact Or.inr (by simp [h0]))
    (by
      simp [one_positive_tvals, List.range_succ]
      norm_num)
  ⟨h.1, h.2.1⟩

/-! ## The loop of `learn_new_stage` -/

/-- What one round of the loop does to the cascade and what it leaves in `fpr`. -/
theorem stage_body_effect {K : Type} [LinearOrderedField K] (rnd : K → K)
    (grow_rtree : Grower K) (expf : K → K) (pool : Pool) (samples : Samples K)
    (srs scs : Nat → Int) (np nn : Nat)
    (mintpr : K) (fuel : Nat) (st st1 : Stage K)
    (h : stage_body rnd grow_rtree expf pool samples srs scs np nn mintpr fuel st = some st1) :
    st1.casc.ntrees = st.casc.ntrees + 1 ∧
    st1.casc.tsr = st.casc.tsr ∧ st1.casc.tsc = st.casc.tsc ∧
    st1.casc.tdepth = st.casc.tdepth ∧
    (∀ i, i ≠ st.casc.ntrees →
      st1.casc.tcodes i = st.casc.tcodes i ∧ st1.casc.luts i = st.casc.luts i) ∧
    (∀ j : Int, j ≠ (st.casc.ntrees : Int) → st1.casc.thresholds j = st.casc.thresholds j) ∧
    st1.casc.thresholds (st.casc.ntrees : Int) = -1337 ∧
    ∃ T tpr, calibrate rnd samples.tvals st1.os np nn mintpr fuel 5 = some (T, tpr, st1.fpr) := by
  unfold stage_body at h
  simp only at h
  split at h
  · exact absurd h (by simp)
  · rename_i T tpr fpr hcal
    have e := Option.some.inj h
    subst e
    refine ⟨rfl, rfl, rfl, rfl, ?_, ?_, ?_, ⟨T, tpr, hcal⟩⟩
    · intro i hi
      exact ⟨Function.update_noteq hi _ _, Function.update_noteq hi _ _⟩
    · intro j hj
      exact Function.update_noteq hj _ _
    · exact Function.update_same _ _ _

/-- The cascade after `k` rounds: `k` more trees, the earlier trees untouched, every
new tree with the sentinel threshold, and `fpr` the rate left by the last scan. -/
theorem stage_rounds_effect {K : Type} [LinearOrderedField K] (rnd : K → K)
    (grow_rtree : Grower K) (expf : K → K) (pool : Pool) (samples : Samples K)
    (srs scs : Nat → Int) (np nn : Nat)
    (mintpr : K) (fuel : Nat) (k : Nat) :
    ∀ (st res : Stage K),
      stage_rounds rnd grow_rtree expf pool samples srs scs np nn mintpr fuel k st = some res →
      res.casc.ntrees = st.casc.ntrees + k ∧
      res.casc.tsr = st.casc.tsr ∧ res.casc.tsc = st.casc.tsc ∧
      res.casc.tdepth = st.casc.tdepth ∧
      (∀ i, i < st.casc.ntrees →
        res.casc.tcodes i = st.casc.tcodes i ∧ res.casc.luts i = st.casc.luts i) ∧
      (∀ j : Int, j < (st.casc.ntrees : Int) → res.casc.thresholds j = st.casc.thresholds j) ∧
      (∀ i : Nat, st.casc.ntrees ≤ i → i < st.casc.ntrees + k →
        res.casc.thresholds (i : Int) = -1337) ∧
      (k = 0 → res = st) ∧
      (1 ≤ k →
        ∃ T tpr, calibrate rnd samples.tvals res.os np nn mintpr fuel 5 = some (T, tpr, res.fpr)) := by
  induction k with
  | zero =>
    intro st res h
    simp only [stage_rounds] at h
    have e := Option.some.inj h
    subst e
    refine ⟨rfl, rfl, rfl, rfl, fun _ _ => ⟨rfl, rfl⟩, fun _ _ => rfl, ?_, fun _ => rfl, ?_⟩
    · intro i h1 h2; omega
    · intro h1; omega
  | succ k ih =>
    intro st res h
    simp only [stage_rounds] at h
    split at h
    · exact absurd h (by simp)
    · rename_i st1 hbody
      obtain ⟨b1, b2, b3, b4, b5, b6, b7, b8⟩ :=
        stage_body_effect rnd grow_rtree expf pool samples srs scs np nn mintpr fuel st st1 hbody
      obtain ⟨r1, r2, r3, r4, r5, r6, r7, r8, r9⟩ := ih st1 res h
      refine ⟨by omega, by rw [r2, b2], by rw [r3, b3], by rw [r4, b4], ?_, ?_, ?_, ?_, ?_⟩
      · intro i hi
        have h1 := r5 i (by omega)
        have h2 := b5 i (by omega)
        exact ⟨h1.1.trans h2.1, h1.2.trans h2.2⟩
      · intro j hj
        rw [r6 j (by omega), b6 j (by omega)]
      · intro i hi1 hi2
        by_cases hi : i = st.casc.ntrees
        · rw [r6 (i : Int) (by omega), hi, b7]
        · exact r7 i (by omega) (by omega)
      · intro h0; omega
      · intro _
        rcases Nat.eq_zero_or_pos k with hk | hk
        · rw [r8 hk]; exact b8
        · exact r9 hk

/-- The `while` loop runs the body exactly while trees remain in the budget and the test
`fpr > maxfpr` holds. -/
theorem stage_loop_rounds {K : Type} [LinearOrderedField K] (rnd : K → K)
    (grow_rtree : Grower K) (expf : K → K) (pool : Pool) (samples : Samples K)
    (srs scs : Nat → Int) (np nn : Nat)
    (mintpr maxfpr : K) (fuel : Nat) (rem : Nat) :
    ∀ (st res : Stage K),
      stage_loop rnd grow_rtree expf pool samples srs scs np nn mintpr maxfpr fuel rem st
        = some res →
      ∃ k, k ≤ rem ∧
        stage_rounds rnd grow_rtree expf pool samples srs scs np nn mintpr fuel k st = some res ∧
        (∀ j, j < k → ∃ stj,
          stage_rounds rnd grow_rtree expf pool samples srs scs np nn mintpr fuel j st = some stj ∧
          Flt.gt stj.fpr (Flt.fin maxfpr) = true) ∧
        (k = rem ∨ Flt.gt res.fpr (Flt.fin maxfpr) = false) := by
  induction rem with
  | zero =>
    intro st res h
    simp only [stage_loop] at h
    exact ⟨0, le_refl 0, h, fun j hj => absurd hj (Nat.not_lt_zero j), Or.inl rfl⟩
  | succ rem ih =>
    intro st res h
    simp only [stage_loop] at h
    by_cases hf : Flt.gt st.fpr (Flt.fin maxfpr) = true
    · rw [if_pos hf] at h
      split at h
      · exact absurd h (by simp)
      · rename_i st1 hbody
        obtain ⟨k, hk1, hk2, hk3, hk4⟩ := ih st1 res h
        refine ⟨k + 1, by omega, ?_, ?_, ?_⟩
        · simp only [stage_rounds, hbody]; exact hk2
        · intro j hj
          rcases Nat.eq_zero_or_pos j with hj0 | hjpos
          · subst hj0
            exact ⟨st, rfl, hf⟩
          · obtain ⟨j1, rfl⟩ : ∃ j1, j = j1 + 1 := ⟨j - 1, by omega⟩
            obtain ⟨stj, hs1, hs2⟩ := hk3 j1 (by omega)
            exact ⟨stj, by simp only [stage_rounds, hbody]; exact hs1, hs2⟩
        · rcases hk4 with hk4 | hk4
          · exact Or.inl (by omega)
          · exact Or.inr hk4
    · rw [if_neg hf] at h
      have e := Option.some.inj h
      subst e
      exact ⟨0, Nat.zero_le _, rfl, fun j hj => absurd hj (Nat.not_lt_zero j),
        Or.inr (Bool.eq_false_iff.mpr hf)⟩

theorem learn_new_stage_eq {K : Type} [LinearOrderedField K] [FloorRing K]
    (rnd : K → K) (grow_rtree : Grower K) (expf : K → K) (pool : Pool) (casc : Cascade K)
    (prng : Nat)
    (mintpr maxfpr : K) (maxntrees : Int) (samples : Samples K) (np nn fuel : Nat)
    (res : Stage K)
    (h : learn_new_stage rnd grow_rtree expf pool casc prng mintpr maxfpr maxntrees samples np nn
      fuel = some res) :
    ∃ st, stage_loop rnd grow_rtree expf pool samples (stage_srs rnd casc samples)
        (stage_scs rnd casc samples) np nn mintpr maxfpr fuel maxntrees.toNat
        (stage_init casc samples prng) = some st ∧
      res.os = st.os ∧ res.fpr = st.fpr ∧ res.prng = st.prng ∧
      res.casc.ntrees = st.casc.ntrees ∧ res.casc.tsr = st.casc.tsr ∧
      res.casc.tsc = st.casc.tsc ∧ res.casc.tdepth = st.casc.tdepth ∧
      res.casc.tcodes = st.casc.tcodes ∧ res.casc.luts = st.casc.luts ∧
      res.casc.thresholds =
        Function.update st.casc.thresholds ((st.casc.ntrees : Int) - 1) 5 := by
  unfold learn_new_stage at h
  simp only at h
  split at h
  · exact absurd h (by simp)
  · rename_i st hst
    have e := Option.some.inj h
    subst e
    exact ⟨st, hst, rfl, rfl, rfl, rfl, rfl, rfl, rfl, rfl, rfl, rfl⟩

theorem stage_body_total {K : Type} [LinearOrderedField K] [FloorRing K]
    (grow_rtree : Grower K) (expf : K → K) (pool : Pool) (samples : Samples K)
    (srs scs : Nat → Int) (np nn : Nat) (mintpr : K) (hnp : 1 ≤ np)
    (hpos : np ≤ (List.range (np + nn)).countP (fun i => decide (0 < samples.tvals i)))
    (hm : mintpr ≤ 1) (st : Stage K) :
    ∃ (F : Nat) (st1 : Stage K), ∀ fuel, F ≤ fuel →
      stage_body (fun x => x) grow_rtree expf pool samples srs scs np nn mintpr fuel st
        = some st1 := by
  obtain ⟨k, hk⟩ := calibrate_total samples.tvals
    (stage_grow (fun x => x) grow_rtree expf pool samples srs scs np nn st).os np nn mintpr
    hnp hpos hm
  refine ⟨k, { stage_grow (fun x => x) grow_rtree expf pool samples srs scs np nn st with
    fpr := stage_fpr samples.tvals
      (stage_grow (fun x => x) grow_rtree expf pool samples srs scs np nn st).os np nn
      (scan_grid k) },
    fun fuel hf => ?_⟩
  unfold stage_body
  simp only
  rw [hk fuel hf]

theorem stage_loop_total {K : Type} [LinearOrderedField K] [FloorRing K]
    (grow_rtree : Grower K) (expf : K → K) (pool : Pool) (samples : Samples K)
    (srs scs : Nat → Int) (np nn : Nat) (mintpr maxfpr : K) (hnp : 1 ≤ np)
    (hpos : np ≤ (List.range (np + nn)).countP (fun i => decide (0 < samples.tvals i)))
    (hm : mintpr ≤ 1) (rem : Nat) :
    ∀ st : Stage K, ∃ (F : Nat) (res : Stage K), ∀ fuel, F ≤ fuel →
      stage_loop (fun x => x) grow_rtree expf pool samples srs scs np nn mintpr maxfpr fuel
        rem st = some res := by
  induction rem with
  | zero => intro st; exact ⟨0, st, fun _ _ => rfl⟩
  | succ rem ih =>
    intro st
    by_cases hf : Flt.gt st.fpr (Flt.fin maxfpr) = true
    · obtain ⟨F1, st1, h1⟩ := stage_body_total grow_rtree expf pool samples srs scs np nn
        mintpr hnp hpos hm st
      obtain ⟨F2, res, h2⟩ := ih st1
      refine ⟨max F1 F2, res, fun fuel hfuel => ?_⟩
      simp only [stage_loop, if_pos hf, h1 fuel (le_trans (le_max_left _ _) hfuel)]
      exact h2 fuel (le_trans (le_max_right _ _) hfuel)
    · exact ⟨0, st, fun fuel _ => by simp only [stage_loop, if_neg hf]⟩

/-- What the loop of `learn_new_stage` guarantees for every rounding, with
`maxntrees ≥ 0`: on return the number `k` of trees appended satisfies `0 ≤ k ≤ maxntrees`,
and either the test `fpr > maxfpr` fails or `k = maxntrees`, where `fpr` is what the scan
after the last appended tree left (the initial `1.0` when no tree was appended); a further
round was run exactly while fewer than `maxntrees` trees were appended and the test
`fpr > maxfpr` held.  The test also fails when `fpr` is NaN.  In exact arithmetic, with
`np ≥ 1` positives and `mintpr ≤ 1`, every scan ends, so the call returns. -/
theorem learn_new_stage_tree_budget {K : Type} [LinearOrderedField K] [FloorRing K]
    (rnd : K → K) (grow_rtree : Grower K) (expf : K → K) (pool : Pool) (casc : Cascade K)
    (prng : Nat) (mintpr maxfpr : K) (maxntrees : Int) (samples : Samples K) (np nn : Nat)
    (hmax : 0 ≤ maxntrees) :
    (∀ (fuel : Nat) (res : Stage K),
      learn_new_stage rnd grow_rtree expf pool casc prng mintpr maxfpr maxntrees samples np nn
        fuel = some res →
      ∃ k : Nat,
        res.casc.ntrees = casc.ntrees + k ∧ (k : Int) ≤ maxntrees ∧
        (Flt.gt res.fpr (Flt.fin maxfpr) = false ∨ (k : Int) = maxntrees) ∧
        (k = 0 → res.fpr = Flt.fin 1) ∧
        (1 ≤ k → ∃ T tpr,
          calibrate rnd samples.tvals res.os np nn mintpr fuel 5 = some (T, tpr, res.fpr)) ∧
        (∀ j, j < k → ∃ stj,
          stage_rounds rnd grow_rtree expf pool samples (stage_srs rnd casc samples)
            (stage_scs rnd casc samples) np nn mintpr fuel j (stage_init casc samples prng)
            = some stj ∧
          stj.casc.ntrees = casc.ntrees + j ∧ (j : Int) < maxntrees ∧
          Flt.gt stj.fpr (Flt.fin maxfpr) = true)) ∧
    (1 ≤ np →
      np ≤ (List.range (np + nn)).countP (fun i => decide (0 < samples.tvals i)) →
      mintpr ≤ 1 →
      ∃ (F : Nat) (res : Stage K), ∀ fuel, F ≤ fuel →
        learn_new_stage (fun x => x) grow_rtree expf pool casc prng mintpr maxfpr maxntrees
          samples np nn fuel = some res) := by
  constructor
  · intro fuel res h
    obtain ⟨st, hloop, e1, e2, _, e4, _⟩ := learn_new_stage_eq rnd grow_rtree expf pool casc prng
      mintpr maxfpr maxntrees samples np nn fuel res h
    obtain ⟨k, hk1, hk2, hk3, hk4⟩ := stage_loop_rounds rnd grow_rtree expf pool samples _ _ np nn
      mintpr maxfpr fuel _ _ _ hloop
    obtain ⟨r1, _, _, _, _, _, _, r8, r9⟩ := stage_rounds_effect rnd grow_rtree expf pool samples
      _ _ np nn mintpr fuel k _ _ hk2
    have htn : ((maxntrees.toNat : Nat) : Int) = maxntrees := Int.toNat_of_nonneg hmax
    refine ⟨k, by rw [e4, r1]; rfl, by omega, ?_, ?_, ?_, ?_⟩
    · rcases hk4 with hk4 | hk4
      · exact Or.inr (by omega)
      · exact Or.inl (by rw [e2]; exact hk4)
    · intro hk0
      rw [e2, r8 hk0]; rfl
    · intro hk
      obtain ⟨T, tpr, hcal⟩ := r9 hk
      rw [e1, e2]
      exact ⟨T, tpr, hcal⟩
    · intro j hj
      obtain ⟨stj, hs1, hs2⟩ := hk3 j hj
      obtain ⟨q1, _⟩ := stage_rounds_effect rnd grow_rtree expf pool samples
        _ _ np nn mintpr fuel j _ _ hs1
      exact ⟨stj, hs1, by rw [q1]; rfl, by omega, hs2⟩
  · intro hnp hpos hm
    obtain ⟨F, st, hF⟩ := stage_loop_total grow_rtree expf pool samples
      (stage_srs (fun x => x) casc samples) (stage_scs (fun x => x) casc samples) np nn mintpr
      maxfpr hnp hpos hm maxntrees.toNat (stage_init casc samples prng)
    refine ⟨F, { st with
      casc := { st.casc with
        thresholds := Function.update st.casc.thresholds ((st.casc.ntrees : Int) - 1) 5 } },
      fun fuel hfuel => ?_⟩
    unfold learn_new_stage
    simp only [hF fuel hfuel]

theorem two_samples_leaf {K : Type} [LinearOrderedField K] (expf : K → K) :
    leaf_value (two_samples : Samples K).tvals
      (compute_weights expf (two_samples : Samples K).tvals (two_samples : Samples K).os 1 1)
      (List.range (1 + 1)) = 0 := by
  have e : compute_weights expf (two_samples : Samples K).tvals (two_samples : Samples K).os 1 1 0
      = compute_weights expf (two_samples : Samples K).tvals (two_samples : Samples K).os 1 1 1 := by
    rw [compute_weights_in_range _ _ _ _ _ _ (by decide),
      compute_weights_in_range _ _ _ _ _ _ (by decide)]
    congr 1
    simp [raw_weight, two_samples, one_positive_tvals]
    norm_num
  unfold leaf_value
  simp only [List.range_succ, List.range_zero, List.nil_append, List.cons_append, List.map_cons,
    List.map_nil, List.sum_cons, List.sum_nil, Nat.zero_add, e]
  have t0 : (two_samples : Samples K).tvals 0 = 1 := by simp [two_samples, one_positive_tvals]
  have t1 : (two_samples : Samples K).tvals 1 = -1 := by simp [two_samples, one_positive_tvals]
  rw [t0, t1]
  split_ifs
  · rfl
  · simp

theorem two_samples_grow_os {K : Type} [LinearOrderedField K] (expf : K → K) (pool : Pool)
    (srs scs : Nat → Int) (prng : Nat) :
    (stage_grow (fun x => x) grow_rtree_depth0 expf pool two_samples srs scs 1 1
      (stage_init (empty_cascade 0) (two_samples : Samples K) prng)).os = two_samples.os := by
  funext i
  simp only [stage_grow, stage_init, grow_rtree_depth0, get_tree_output, empty_cascade, walk_idx,
    Function.update_same, Nat.add_sub_cancel, pow_zero, sub_self, two_samples_leaf, add_zero,
    ite_self]

theorem two_samples_calibrate {K : Type} [LinearOrderedField K] :
    calibrate (fun x => x) (two_samples : Samples K).tvals (two_samples : Samples K).os 1 1
        (9 / 10) 1 5 =
      some (999 / 200, Flt.fin 1, Flt.fin 0) := by
  simp [calibrate, numtps, numfps, two_samples, one_positive_tvals, List.range_succ, fdiv,
    Flt.gt]
  norm_num

theorem two_samples_stage {K : Type} [LinearOrderedField K] [FloorRing K] (expf : K → K)
    (pool : Pool) (prng : Nat) :
    ∃ res : Stage K,
      learn_new_stage (fun x => x) grow_rtree_depth0 expf pool (empty_cascade 0) prng (9 / 10) (1 / 2) 1
        two_samples 1 1 1 = some res ∧
      res.casc.ntrees = 1 ∧ res.os = two_samples.os ∧ res.fpr = Flt.fin 0 ∧
      res.casc.thresholds 0 = 5 := by
  have hbody : stage_body (fun x => x) grow_rtree_depth0 expf pool (two_samples : Samples K)
      (stage_srs (fun x => x) (empty_cascade 0 : Cascade K) two_samples)
      (stage_scs (fun x => x) (empty_cascade 0 : Cascade K) two_samples) 1 1
      (9 / 10) 1 (stage_init (empty_cascade 0) two_samples prng) =
      some { stage_grow (fun x => x) grow_rtree_depth0 expf pool (two_samples : Samples K)
        (stage_srs (fun x => x) (empty_cascade 0 : Cascade K) two_samples)
        (stage_scs (fun x => x) (empty_cascade 0 : Cascade K) two_samples) 1 1
        (stage_init (empty_cascade 0) two_samples prng) with fpr := Flt.fin 0 } := by
    unfold stage_body
    simp only [two_samples_grow_os, two_samples_calibrate]
  have hone : ((1 : K) > 1 / 2) := by norm_num
  obtain ⟨G, hG⟩ : ∃ G, G = stage_grow (fun x => x) grow_rtree_depth0 expf pool (two_samples : Samples K)
      (stage_srs (fun x => x) (empty_cascade 0 : Cascade K) two_samples)
      (stage_scs (fun x => x) (empty_cascade 0 : Cascade K) two_samples) 1 1
      (stage_init (empty_cascade 0) two_samples prng) := ⟨_, rfl⟩
  rw [← hG] at hbody
  have hloop : stage_loop (fun x => x) grow_rtree_depth0 expf pool (two_samples : Samples K)
      (stage_srs (fun x => x) (empty_cascade 0 : Cascade K) two_samples)
      (stage_scs (fun x => x) (empty_cascade 0 : Cascade K) two_samples) 1 1 (9 / 10) (1 / 2) 1 1
      (stage_init (empty_cascade 0) two_samples prng) = some { G with fpr := Flt.fin 0 } := by
    simp only [stage_loop]
    rw [if_pos (by simpa [stage_init, Flt.gt] using hone)]
    simp only [hbody]
  have hres : learn_new_stage (fun x => x) grow_rtree_depth0 expf pool (empty_cascade 0) prng (9 / 10)
      (1 / 2) 1 two_samples 1 1 1 =
      some { casc := { G.casc with
               thresholds := Function.update G.casc.thresholds ((G.casc.ntrees : Int) - 1) 5 },
             os := G.os, fpr := Flt.fin 0, prng := G.prng } := by
    unfold learn_new_stage
    simp only [Int.toNat_one, hloop]
  have hn : G.casc.ntrees = 1 := by rw [hG]; rfl
  refine ⟨_, hres, hn, ?_, rfl, ?_⟩
  · rw [hG]; exact two_samples_grow_os expf pool _ _ prng
  · show Function.update G.casc.thresholds ((G.casc.ntrees : Int) - 1) 5 0 = 5
    rw [hn]
    exact Function.update_same _ _ _

/-- C4, evaluated at a failing input in exact arithmetic.  The empty cascade of depth
`0`, one positive with running output `5`, one negative with `-5`, `mintpr = 0.9`,
`maxfpr = 0.5`, `maxntrees = 1`: the call appends one tree (a leaf of value `0`), the scan of that tree
stops at `T = 4.995` with stage TPR `1`, yet `thresholds[ntrees-1]` holds `5`, the value
of the outer `threshold`, and no positive has running output above it. -/
theorem learn_new_stage_stores_initial_threshold :
    ∃ res : Stage ℝ,
      learn_new_stage (fun x => x) grow_rtree_depth0 Real.exp example_pool (empty_cascade 0) 0 (9 / 10)
        (1 / 2) 1 two_samples 1 1 1 = some res ∧
      res.casc.ntrees = 1 ∧
      calibrate (fun x => x) (two_samples : Samples ℝ).tvals res.os 1 1 (9 / 10) 1 5 =
        some (999 / 200, Flt.fin 1, Flt.fin 0) ∧
      res.casc.thresholds (((res.casc.ntrees : Nat) : Int) - 1) = 5 ∧
      stage_tpr (two_samples : Samples ℝ).tvals res.os 1 1
        (res.casc.thresholds (((res.casc.ntrees : Nat) : Int) - 1)) = 0 := by
  obtain ⟨res, h1, h2, h3, _, h5⟩ := two_samples_stage Real.exp example_pool 0
  have hidx : (((res.casc.ntrees : Nat) : Int) - 1) = 0 := by rw [h2]; norm_num
  refine ⟨res, h1, h2, by rw [h3]; exact two_samples_calibrate, by rw [hidx]; exact h5, ?_⟩
  rw [hidx, h5, h3]
  apply stage_tpr_eq_zero
  intro i hi _
  have : i = 0 ∨ i = 1 := by omega
  rcases this with h | h <;> subst h <;> simp [two_samples]

theorem one_sample_leaf {K : Type} [LinearOrderedField K] (expf : K → K) :
    leaf_value (one_sample : Samples K).tvals
      (compute_weights expf (one_sample : Samples K).tvals (one_sample : Samples K).os 1 0)
      (List.range (1 + 0)) = 0 ∨
    leaf_value (one_sample : Samples K).tvals
      (compute_weights expf (one_sample : Samples K).tvals (one_sample : Samples K).os 1 0)
      (List.range (1 + 0)) = 1 := by
  unfold leaf_value
  simp only [List.range_succ, List.range_zero, List.nil_append, List.map_cons,
    List.map_nil, List.sum_cons, List.sum_nil, Nat.add_zero, add_zero]
  have t0 : (one_sample : Samples K).tvals 0 = 1 := rfl
  rw [t0, mul_one]
  split_ifs with h
  · exact Or.inl rfl
  · exact Or.inr (div_self h)

/-- The first half of the round on the one-sample input: the tree is the leaf holding the
leaf value of the sample, and the running output of the sample grows by it. -/
theorem one_sample_grow {K : Type} [LinearOrderedField K] (rnd : K → K) (expf : K → K)
    (pool : Pool) (srs scs : Nat → Int) (prng : Nat) :
    (stage_grow rnd grow_rtree_depth0 expf pool one_sample srs scs 1 0
      (stage_init (empty_cascade 0) (one_sample : Samples K) prng)).casc.luts 0 0 =
      leaf_value (one_sample : Samples K).tvals
        (compute_weights expf (one_sample : Samples K).tvals (one_sample : Samples K).os 1 0)
        (List.range (1 + 0)) ∧
    (stage_grow rnd grow_rtree_depth0 expf pool one_sample srs scs 1 0
      (stage_init (empty_cascade 0) (one_sample : Samples K) prng)).os 0 =
      rnd (5 + leaf_value (one_sample : Samples K).tvals
        (compute_weights expf (one_sample : Samples K).tvals (one_sample : Samples K).os 1 0)
        (List.range (1 + 0))) := by
  constructor
  · simp only [stage_grow, stage_init, grow_rtree_depth0, empty_cascade, Function.update_same]
  · simp only [stage_grow, stage_init, grow_rtree_depth0, get_tree_output, empty_cascade,
      walk_idx, Function.update_same, Nat.add_sub_cancel, pow_zero, sub_self]
    rw [if_pos (by decide)]
    rfl

theorem one_sample_grow_os {K : Type} [LinearOrderedField K] (rnd : K → K) (expf : K → K)
    (pool : Pool) (srs scs : Nat → Int) (prng : Nat) (h5 : 5 ≤ rnd (5 + 0))
    (h6 : 5 ≤ rnd (5 + 1)) :
    5 ≤ (stage_grow rnd grow_rtree_depth0 expf pool one_sample srs scs 1 0
      (stage_init (empty_cascade 0) (one_sample : Samples K) prng)).os 0 := by
  rw [(one_sample_grow rnd expf pool srs scs prng).2]
  rcases one_sample_leaf expf with h | h
  · rw [h]; exact h5
  · rw [h]; exact h6

theorem one_sample_calibrate {K : Type} [LinearOrderedField K] (rnd : K → K) (os : Nat → K)
    (mintpr : K) (h0 : rnd 0 = 0) (h1 : rnd 1 = 1) (hT : rnd (5 - rnd (5 / 1000)) < os 0)
    (hm : mintpr ≤ 1) (fuel : Nat) :
    calibrate rnd (one_sample : Samples K).tvals os 1 0 mintpr (fuel + 1) 5 =
      some (rnd (5 - rnd (5 / 1000)), Flt.fin 1, Flt.nan) := by
  simp [calibrate, numtps, numfps, one_sample, List.range_succ, fdiv, Flt.gt, hT, h0, h1,
    not_lt.mpr hm]

/-- The stage learner on one positive with running output `5` and no negative, from the
empty cascade of depth `0` with a budget of four trees: for a rounding that fixes `0` and
`1`, keeps `5 + 0` and `5 + 1` at least `5` and the first scan threshold below `5`, and
for `mintpr ≤ 1`, the call returns after one tree with `fpr = 0/0`. -/
theorem one_sample_stage {K : Type} [LinearOrderedField K] [FloorRing K] (rnd : K → K)
    (expf : K → K) (pool : Pool) (prng : Nat) (mintpr : K) (fuel : Nat)
    (h0 : rnd 0 = 0) (h1 : rnd 1 = 1) (h5 : 5 ≤ rnd (5 + 0)) (h6 : 5 ≤ rnd (5 + 1))
    (hT : rnd (5 - rnd (5 / 1000)) < 5) (hm : mintpr ≤ 1) :
    ∃ res : Stage K,
      learn_new_stage rnd grow_rtree_depth0 expf pool (empty_cascade 0) prng mintpr
        (1 / 2) 4 one_sample 1 0 (fuel + 1) = some res ∧
      res.casc.ntrees = 1 ∧ res.fpr = Flt.nan ∧
      res.casc.luts 0 0 = leaf_value (one_sample : Samples K).tvals
        (compute_weights expf (one_sample : Samples K).tvals (one_sample : Samples K).os 1 0)
        (List.range (1 + 0)) ∧
      res.os 0 = rnd (5 + res.casc.luts 0 0) := by
  obtain ⟨G, hG⟩ : ∃ G, G = stage_grow rnd grow_rtree_depth0 expf pool
      (one_sample : Samples K)
      (stage_srs rnd (empty_cascade 0 : Cascade K) one_sample)
      (stage_scs rnd (empty_cascade 0 : Cascade K) one_sample) 1 0
      (stage_init (empty_cascade 0) one_sample prng) := ⟨_, rfl⟩
  have hos : 5 ≤ G.os 0 := by rw [hG]; exact one_sample_grow_os rnd expf pool _ _ prng h5 h6
  have hbody : stage_body rnd grow_rtree_depth0 expf pool (one_sample : Samples K)
      (stage_srs rnd (empty_cascade 0 : Cascade K) one_sample)
      (stage_scs rnd (empty_cascade 0 : Cascade K) one_sample) 1 0
      mintpr (fuel + 1) (stage_init (empty_cascade 0) one_sample prng) =
      some { G with fpr := Flt.nan } := by
    unfold stage_body
    simp only [← hG, one_sample_calibrate rnd G.os mintpr h0 h1 (lt_of_lt_of_le hT hos) hm fuel]
  have hone : ((1 : K) > 1 / 2) := by norm_num
  have hloop : stage_loop rnd grow_rtree_depth0 expf pool (one_sample : Samples K)
      (stage_srs rnd (empty_cascade 0 : Cascade K) one_sample)
      (stage_scs rnd (empty_cascade 0 : Cascade K) one_sample) 1 0 mintpr (1 / 2)
      (fuel + 1) 4 (stage_init (empty_cascade 0) one_sample prng)
      = some { G with fpr := Flt.nan } := by
    simp only [stage_loop]
    rw [if_pos (by simpa [stage_init, Flt.gt] using hone)]
    simp only [hbody]
    rw [if_neg (by simp [Flt.gt])]
  have hres : learn_new_stage rnd grow_rtree_depth0 expf pool (empty_cascade 0) prng
      mintpr (1 / 2) 4 one_sample 1 0 (fuel + 1) =
      some { casc := { G.casc with
               thresholds := Function.update G.casc.thresholds ((G.casc.ntrees : Int) - 1) 5 },
             os := G.os, fpr := Flt.nan, prng := G.prng } := by
    unfold learn_new_stage
    have h4 : (4 : Int).toNat = 4 := rfl
    simp only [h4, hloop]
  have hn : G.casc.ntrees = 1 := by rw [hG]; rfl
  have hl := one_sample_grow rnd expf pool
    (stage_srs rnd (empty_cascade 0 : Cascade K) one_sample)
    (stage_scs rnd (empty_cascade 0 : Cascade K) one_sample) prng
  rw [← hG] at hl
  refine ⟨_, hres, hn, rfl, hl.1, ?_⟩
  show G.os 0 = rnd (5 + G.casc.luts 0 0)
  rw [hl.1, hl.2]

theorem round32_scan_step :
    round32 (49 / 50) = 2055209 / 2097152 ∧ round32 (5 / 1000) = 5368709 / 1073741824 ∧
    round32 (5 - round32 (5 / 1000)) = 5237637 / 1048576 := by
  have a := round32_eval (49 / 50) (-1) 16441672 (by norm_num)
    (by norm_num [abs_of_pos]) (by norm_num [abs_of_pos]) (by norm_num) (by norm_num)
  have b := round32_eval (5 / 1000) (-8) 10737418 (by norm_num)
    (by norm_num [abs_of_pos]) (by norm_num [abs_of_pos]) (by norm_num) (by norm_num)
  have c := round32_eval (5 - 5368709 / 1073741824) 2 10475274 (by norm_num)
    (by norm_num [abs_of_pos]) (by norm_num [abs_of_pos]) (by norm_num) (by norm_num)
  have b2 : round32 (5 / 1000) = 5368709 / 1073741824 := by rw [b]; norm_num
  refine ⟨by rw [a]; norm_num, b2, ?_⟩
  rw [b2, c]
  norm_num

/-- C8, evaluated at a failing input in binary32 arithmetic: the empty cascade of depth
`0`, one positive with running output `5` and no negative (`np = 1`, `nn = 0`, what
`sample_training_data` returns when there is no background image), with the arguments
`mintpr = 0.98f`, `maxfpr = 0.5`, `maxntrees = 4` of the first stage.  Whatever `exp`
returns, for every bound `fuel ≥ 1` on the scan the call returns after appending one
tree (the leaf holding the leaf value of the sample, added to the running output of the
sample), although the budget is four; the `fpr` it leaves is `0/0`, not a number, so
`fpr ≤ maxfpr` does not hold and the test `fpr > maxfpr` of the loop fails. -/
theorem learn_new_stage_empty_background :
    ∀ (expf : ℚ → ℚ) (fuel : Nat), ∃ res : Stage ℚ,
      learn_new_stage round32 grow_rtree_depth0 expf example_pool (empty_cascade 0) 0
        (round32 (49 / 50)) (1 / 2) 4 one_sample 1 0 (fuel + 1) = some res ∧
      res.casc.ntrees = (empty_cascade 0 : Cascade ℚ).ntrees + 1 ∧
      ((res.casc.ntrees : Int) - (empty_cascade 0 : Cascade ℚ).ntrees < 4) ∧
      res.casc.luts 0 0 = leaf_value (one_sample : Samples ℚ).tvals
        (compute_weights expf (one_sample : Samples ℚ).tvals (one_sample : Samples ℚ).os 1 0)
        (List.range (1 + 0)) ∧
      res.os 0 = round32 (5 + res.casc.luts 0 0) ∧
      res.fpr = Flt.nan ∧
      Flt.gt res.fpr (Flt.fin (1 / 2)) = false ∧ Flt.gt (Flt.fin (1 / 2)) res.fpr = false ∧
      res.fpr ≠ Flt.fin (1 / 2) := by
  intro expf fuel
  obtain ⟨r1, r2, r3⟩ := round32_scan_step
  obtain ⟨res, h1, h2, h3, h4, h5⟩ := one_sample_stage round32 expf example_pool 0
    (round32 (49 / 50)) fuel round32_zero round32_one
    (by norm_num [round32_ofNat]) (by norm_num [round32_ofNat])
    (by rw [r3]; norm_num) (by rw [r1]; norm_num)
  refine ⟨res, h1, by rw [h2]; rfl, by rw [h2]; decide, h4, h5, h3, ?_, ?_, ?_⟩
  · rw [h3]; rfl
  · rw [h3]; rfl
  · rw [h3]; exact fun h => Flt.noConfusion h

theorem stage_fpr_no_negatives {K : Type} [LinearOrderedField K] (tvals os : Nat → K)
    (np : Nat) (T : K) (hpos : ∀ i, i < np → 0 < tvals i) :
    stage_fpr tvals os np 0 T = Flt.nan := by
  unfold stage_fpr
  have e : (Finset.range (np + 0)).filter (fun i => tvals i < 0 ∧ T < os i) = ∅ := by
    apply Finset.filter_eq_empty_iff.mpr
    intro i hi hc
    have hi2 : i < np := by simpa using hi
    exact absurd (hpos i hi2) (not_lt.mpr (le_of_lt hc.1))
  rw [e]
  simp [fdiv]

theorem stage_loop_nan {K : Type} [LinearOrderedField K] (rnd : K → K) (grow_rtree : Grower K)
    (expf : K → K) (pool : Pool) (samples : Samples K) (srs scs : Nat → Int) (np nn : Nat)
    (mintpr maxfpr : K) (fuel rem : Nat) (st : Stage K) (h : st.fpr = Flt.nan) :
    stage_loop rnd grow_rtree expf pool samples srs scs np nn mintpr maxfpr fuel rem st
      = some st := by
  cases rem with
  | zero => rfl
  | succ rem => simp [stage_loop, h, Flt.gt]

/-- Without negatives (`nn = 0`) the stage learner, in exact arithmetic, whatever the
tree grower, the running outputs and the cascade at entry: with `np ≥ 1` positives,
`mintpr ≤ 1`, `maxfpr < 1` and a budget `maxntrees ≥ 1`, the call returns after exactly
one tree and leaves `fpr = 0/0`, not a number. -/
theorem learn_new_stage_no_negatives {K : Type} [LinearOrderedField K] [FloorRing K]
    (grow_rtree : Grower K) (expf : K → K) (pool : Pool) (casc : Cascade K) (prng : Nat)
    (mintpr maxfpr : K) (maxntrees : Int) (samples : Samples K) (np : Nat) (hnp : 1 ≤ np)
    (hpos : ∀ i, i < np → 0 < samples.tvals i) (hm : mintpr ≤ 1) (hf : maxfpr < 1)
    (hmax : 1 ≤ maxntrees) :
    ∃ (F : Nat) (res : Stage K), ∀ fuel, F ≤ fuel →
      learn_new_stage (fun x => x) grow_rtree expf pool casc prng mintpr maxfpr maxntrees
        samples np 0 fuel = some res ∧
      res.casc.ntrees = casc.ntrees + 1 ∧ res.fpr = Flt.nan := by
  obtain ⟨G, hG⟩ : ∃ G, G = stage_grow (fun x => x) grow_rtree expf pool samples
      (stage_srs (fun x => x) casc samples) (stage_scs (fun x => x) casc samples) np 0
      (stage_init casc samples prng) := ⟨_, rfl⟩
  have hcount : np ≤ (List.range (np + 0)).countP (fun i => decide (0 < samples.tvals i)) := by
    have : (List.range (np + 0)).countP (fun i => decide (0 < samples.tvals i))
        = (List.range (np + 0)).length := by
      apply List.countP_eq_length.mpr
      intro i hi
      have hi2 : i < np := by simpa using hi
      simpa using hpos i hi2
    rw [this]
    simp
  obtain ⟨k, hk⟩ := calibrate_total samples.tvals G.os np 0 mintpr hnp hcount hm
  obtain ⟨m, hm1⟩ : ∃ m : Nat, maxntrees.toNat = m + 1 := ⟨maxntrees.toNat - 1, by omega⟩
  obtain ⟨R, hR⟩ : ∃ R : Stage K, R =
      { casc := { G.casc with
          thresholds := Function.update G.casc.thresholds ((G.casc.ntrees : Int) - 1) 5 },
        os := G.os, fpr := Flt.nan, prng := G.prng } := ⟨_, rfl⟩
  have hn : G.casc.ntrees = casc.ntrees + 1 := by
    rw [hG]
    rfl
  refine ⟨k, R, fun fuel hfuel => ⟨?_, by rw [hR]; exact hn, by rw [hR]⟩⟩
  · have hbody : stage_body (fun x => x) grow_rtree expf pool samples
        (stage_srs (fun x => x) casc samples) (stage_scs (fun x => x) casc samples) np 0
        mintpr fuel (stage_init casc samples prng) = some { G with fpr := Flt.nan } := by
      unfold stage_body
      simp only [← hG, hk fuel hfuel, stage_fpr_no_negatives samples.tvals G.os np _ hpos]
    have hone : Flt.gt (stage_init casc samples prng).fpr (Flt.fin maxfpr) = true := by
      simpa [stage_init, Flt.gt] using hf
    unfold learn_new_stage
    simp only [hm1, stage_loop, if_pos hone, hbody, stage_loop_nan, hR]

/-- What `learn_new_stage` changes in the cascade, by the number `k` of appended
trees.  The rows of the trees present at entry are kept.  With `k ≥ 1` the thresholds
of those trees are kept, every appended tree but the last has `-1337`, and the last
has `5`.  With `k = 0` the store `thresholds[ntrees-1] = threshold` hits the last tree
present at entry. -/
theorem learn_new_stage_frame {K : Type} [LinearOrderedField K] [FloorRing K]
    (rnd : K → K) (grow_rtree : Grower K) (expf : K → K) (pool : Pool) (casc : Cascade K)
    (prng : Nat)
    (mintpr maxfpr : K) (maxntrees : Int) (samples : Samples K) (np nn fuel : Nat)
    (res : Stage K)
    (h : learn_new_stage rnd grow_rtree expf pool casc prng mintpr maxfpr maxntrees samples np nn
      fuel = some res) :
    ∃ k : Nat, res.casc.ntrees = casc.ntrees + k ∧
      res.casc.tsr = casc.tsr ∧ res.casc.tsc = casc.tsc ∧ res.casc.tdepth = casc.tdepth ∧
      (∀ i, i < casc.ntrees →
        res.casc.tcodes i = casc.tcodes i ∧ res.casc.luts i = casc.luts i) ∧
      res.casc.thresholds ((res.casc.ntrees : Int) - 1) = 5 ∧
      (∀ j : Int, j < (casc.ntrees : Int) → j ≠ (res.casc.ntrees : Int) - 1 →
        res.casc.thresholds j = casc.thresholds j) ∧
      (∀ i : Nat, casc.ntrees ≤ i → i + 1 < casc.ntrees + k →
        res.casc.thresholds (i : Int) = -1337) := by
  obtain ⟨st, hloop, _, _, _, e4, e5, e6, e7, e8, e9, e10⟩ := learn_new_stage_eq rnd grow_rtree
    expf pool casc prng mintpr maxfpr maxntrees samples np nn fuel res h
  obtain ⟨k, _, hk2, _, _⟩ := stage_loop_rounds rnd grow_rtree expf pool samples _ _ np nn
    mintpr maxfpr fuel _ _ _ hloop
  obtain ⟨r1, r2, r3, r4, r5, r6, r7, _, _⟩ := stage_rounds_effect rnd grow_rtree expf pool
    samples _ _ np nn mintpr fuel k _ _ hk2
  have hn : st.casc.ntrees = casc.ntrees + k := r1
  refine ⟨k, by rw [e4, hn], by rw [e5, r2]; rfl, by rw [e6, r3]; rfl, by rw [e7, r4]; rfl,
    ?_, ?_, ?_, ?_⟩
  · intro i hi
    rw [e8, e9]
    exact r5 i hi
  · rw [e10, e4]
    exact Function.update_same _ _ _
  · intro j hj1 hj2
    rw [e10, Function.update_noteq (by rw [← e4]; exact hj2)]
    exact r6 j hj1
  · intro i hi1 hi2
    rw [e10, Function.update_noteq (by rw [hn]; push_cast; omega)]
    exact r7 i hi1 (by omega)

/-- C6, evaluated at a failing input.  A cascade holding one tree with threshold
`-1337` and `maxntrees = 0`: whatever the rounding and the other arguments, the loop appends nothing and
the store `thresholds[ntrees-1] = threshold` sets the threshold of the tree that was
there before the call to `5`. -/
theorem learn_new_stage_overwrites_old_threshold :
    (single_tree_cascade : Cascade ℝ).ntrees = 1 ∧
    (single_tree_cascade : Cascade ℝ).thresholds 0 = -1337 ∧
    ∀ (rnd : ℝ → ℝ) (grow_rtree : Grower ℝ) (mintpr maxfpr : ℝ) (fuel : Nat),
      ∃ res : Stage ℝ,
        learn_new_stage rnd grow_rtree Real.exp example_pool single_tree_cascade 0 mintpr maxfpr 0
          two_samples 1 1 fuel = some res ∧
        res.casc.ntrees = 1 ∧ res.casc.thresholds 0 = 5 := by
  refine ⟨rfl, rfl, fun rnd grow_rtree mintpr maxfpr fuel => ?_⟩
  refine ⟨_, rfl, rfl, ?_⟩
  show Function.update (single_tree_cascade : Cascade ℝ).thresholds
    (((single_tree_cascade : Cascade ℝ).ntrees : Int) - 1) 5 0 = 5
  exact Function.update_same _ _ _

/-! ## The sampler: the negative-mining loop -/

theorem classify_region_ret_indep {K : Type} [LinearOrderedField K] [FloorRing K]
    (rnd : K → K) (casc : Cascade K) (pool : Pool) (o o2 : K) (r c s iind : Int) :
    (classify_region rnd casc pool o r c s iind).1 = (classify_region rnd casc pool o2 r c s iind).1 := by
  unfold classify_region
  by_cases h : casc.ntrees = 0
  · simp [h]
  · simp [h]

theorem mine_init_inv {K : Type} [LinearOrderedField K] [FloorRing K] (rnd : K → K)
    (casc : Cascade K) (pool : Pool) (s0 : Samples K) (np prng : Nat) :
    MineInv rnd casc pool s0 np (mine_init s0 np prng) := by
  refine ⟨Nat.zero_le _, rfl, ?_, ?_, ?_⟩
  · intro h; exact absurd h (by simp [mine_init])
  · intro k h1 h2
    simp only [mine_init] at h2
    omega
  · intro k _
    exact ⟨rfl, rfl, rfl, rfl, rfl, rfl⟩

theorem mine_update_inv {K : Type} [LinearOrderedField K] [FloorRing K] (rnd : K → K)
    (casc : Cascade K) (pool : Pool) (s0 : Samples K) (np : Nat) (w : Window) (ret : Int) (o : K)
    (st : MineState K) (hst : st.stop = false) (hinv : MineInv rnd casc pool s0 np st)
    (hacc : ret = 1 → ∀ o1, (classify_region rnd casc pool o1 w.r w.c w.s w.iind).1 = 1) :
    MineInv rnd casc pool s0 np (mine_update np w ret o st) := by
  obtain ⟨i1, i2, i3, i4, i5⟩ := hinv
  unfold mine_update
  by_cases h1 : ret = 1
  · by_cases h2 : st.nn < np
    · simp only [if_pos h1, if_pos h2, hst, Bool.false_eq_true, if_false]
      refine ⟨by simpa using h2, by simp only [i2]; omega, ?_, ?_, ?_⟩
      · intro h; exact absurd h (by simp [hst])
      · intro k hk1 hk2
        simp only at hk2
        by_cases hk : k = st.n
        · subst hk
          simp only [Function.update_same]
          exact ⟨trivial, hacc h1⟩
        · simp only [Function.update_noteq hk]
          exact i4 k hk1 (by omega)
      · intro k hk
        have hne : k ≠ st.n := by omega
        simp only [Function.update_noteq hne]
        exact i5 k hk
    · simp only [if_pos h1, if_neg h2, if_true]
      refine ⟨i1, i2, fun _ => ?_, i4, i5⟩
      show st.nn = np
      omega
  · simp only [if_neg h1, hst, Bool.false_eq_true, if_false]
    exact ⟨i1, i2, fun h => absurd h (by simp [hst]), i4, i5⟩

theorem mine_step_inv {K : Type} [LinearOrderedField K] [FloorRing K] (rnd : K → K)
    (casc : Cascade K) (pool : Pool) (data : TrainingData) (s0 : Samples K) (np : Nat) (o0 : K)
    (st : MineState K) (hst : st.stop = false) (hinv : MineInv rnd casc pool s0 np st) :
    MineInv rnd casc pool s0 np (mine_step rnd casc pool data np o0 st) := by
  unfold mine_step
  simp only
  refine mine_update_inv rnd casc pool s0 np _ _ _ _ hst hinv ?_
  intro h o1
  rw [classify_region_ret_indep rnd casc pool o1 o0]
  exact h

theorem mine_run_inv {K : Type} [LinearOrderedField K] [FloorRing K] (rnd : K → K)
    (casc : Cascade K) (pool : Pool) (data : TrainingData) (s0 : Samples K) (np : Nat) (gs : List K) :
    ∀ st : MineState K, MineInv rnd casc pool s0 np st →
      MineInv rnd casc pool s0 np (mine_run rnd casc pool data np gs st) := by
  induction gs with
  | nil => intro st h; exact h
  | cons o0 rest ih =>
    intro st h
    simp only [mine_run]
    by_cases hs : st.stop = true
    · rw [if_pos hs]; exact h
    · rw [if_neg hs]
      exact ih _ (mine_step_inv rnd casc pool data s0 np o0 st (by simpa using hs) h)

theorem mine_run_stopped {K : Type} [LinearOrderedField K] [FloorRing K] (rnd : K → K)
    (casc : Cascade K) (pool : Pool) (data : TrainingData) (np : Nat) (gs : List K) (st : MineState K)
    (hs : st.stop = true) : mine_run rnd casc pool data np gs st = st := by
  cases gs with
  | nil => rfl
  | cons o0 rest => simp only [mine_run, if_pos hs]

/-- When `classify_region` accepts every window, `np - nn + 1` rounds end the loop. -/
theorem mine_run_saturating {K : Type} [LinearOrderedField K] [FloorRing K] (rnd : K → K)
    (casc : Cascade K) (pool : Pool) (data : TrainingData) (np : Nat)
    (hall : ∀ (o : K) (r c s iind : Int), (classify_region rnd casc pool o r c s iind).1 = 1)
    (gs : List K) :
    ∀ st : MineState K, st.nn ≤ np → (np - st.nn) + 1 ≤ gs.length →
      (mine_run rnd casc pool data np gs st).stop = true := by
  induction gs with
  | nil => intro st _ h; simp at h
  | cons o0 rest ih =>
    intro st hnn hlen
    simp only [mine_run]
    by_cases hs : st.stop = true
    · rw [if_pos hs]; exact hs
    · rw [if_neg hs]
      have hsf : st.stop = false := by simpa using hs
      simp only [List.length_cons] at hlen
      by_cases h2 : st.nn < np
      · apply ih
        · simp only [mine_step, mine_update, hall, if_true, if_pos h2, hsf, Bool.false_eq_true,
            if_false]
          omega
        · simp only [mine_step, mine_update, hall, if_true, if_pos h2, hsf, Bool.false_eq_true,
            if_false]
          omega
      · rw [mine_run_stopped]
        · simp only [mine_step, mine_update, hall, if_true, if_neg h2]
        · simp only [mine_step, mine_update, hall, if_true, if_neg h2]

/-- C9. In the negative-mining loop of `sample_training_data`, run by one worker for
any number of rounds from any generator state, with at least one background image and
one object: `nn ≤ np` after every round; the slots `np .. np + nn - 1`, which follow the
`np` positives, hold windows that the current cascade classifies `+1`, stored with
`tval = -1`, and the positives are untouched; whenever the loop has stopped, `nn = np`.
When the cascade accepts every draw, the loop has stopped after `np + 1` rounds, with
exactly `np` negatives. -/
theorem negative_mining_invariants {K : Type} [LinearOrderedField K] [FloorRing K]
    (rnd : K → K) (casc : Cascade K) (pool : Pool) (data : TrainingData)
    (hb : 1 ≤ data.nbackground) (ho : 1 ≤ data.nobjects) (s0 : Samples K) (np prng : Nat) (gs : List K) :
    (mine_run rnd casc pool data np gs (mine_init s0 np prng)).nn ≤ np ∧
    (mine_run rnd casc pool data np gs (mine_init s0 np prng)).n =
      np + (mine_run rnd casc pool data np gs (mine_init s0 np prng)).nn ∧
    ((mine_run rnd casc pool data np gs (mine_init s0 np prng)).stop = true →
      (mine_run rnd casc pool data np gs (mine_init s0 np prng)).nn = np) ∧
    (∀ k, np ≤ k → k < np + (mine_run rnd casc pool data np gs (mine_init s0 np prng)).nn →
      (mine_run rnd casc pool data np gs (mine_init s0 np prng)).samples.tvals k = -1 ∧
      ∀ o, (classify_region rnd casc pool o
        ((mine_run rnd casc pool data np gs (mine_init s0 np prng)).samples.rs k)
        ((mine_run rnd casc pool data np gs (mine_init s0 np prng)).samples.cs k)
        ((mine_run rnd casc pool data np gs (mine_init s0 np prng)).samples.ss k)
        ((mine_run rnd casc pool data np gs (mine_init s0 np prng)).samples.iinds k)).1 = 1) ∧
    (∀ k, k < np →
      (mine_run rnd casc pool data np gs (mine_init s0 np prng)).samples.tvals k = s0.tvals k ∧
      (mine_run rnd casc pool data np gs (mine_init s0 np prng)).samples.rs k = s0.rs k ∧
      (mine_run rnd casc pool data np gs (mine_init s0 np prng)).samples.cs k = s0.cs k ∧
      (mine_run rnd casc pool data np gs (mine_init s0 np prng)).samples.ss k = s0.ss k ∧
      (mine_run rnd casc pool data np gs (mine_init s0 np prng)).samples.iinds k = s0.iinds k ∧
      (mine_run rnd casc pool data np gs (mine_init s0 np prng)).samples.os k = s0.os k) ∧
    ((∀ (o : K) (r c s iind : Int), (classify_region rnd casc pool o r c s iind).1 = 1) →
      np + 1 ≤ gs.length →
      (mine_run rnd casc pool data np gs (mine_init s0 np prng)).stop = true ∧
      (mine_run rnd casc pool data np gs (mine_init s0 np prng)).nn = np) := by
  have _hdraws : 1 ≤ data.nbackground ∧ 1 ≤ data.nobjects := ⟨hb, ho⟩
  have hinv := mine_run_inv rnd casc pool data s0 np gs _
    (mine_init_inv rnd casc pool s0 np prng)
  obtain ⟨i1, i2, i3, i4, i5⟩ := hinv
  refine ⟨i1, i2, i3, i4, i5, ?_⟩
  intro hall hlen
  have hstop := mine_run_saturating rnd casc pool data np hall gs (mine_init s0 np prng)
    (Nat.zero_le _) (by simpa [mine_init] using hlen)
  exact ⟨hstop, i3 hstop⟩

/-- Witness for C9: `np = 100` and the empty cascade, which accepts every draw (binary32
rounding): after
`101` rounds the loop has stopped with exactly `100` negatives. -/
theorem negative_mining_invariants_witness :
    (mine_run round32 (empty_cascade 0 : Cascade ℚ) example_pool example_data 100
      (List.replicate 101 0) (mine_init two_samples 100 1)).stop = true ∧
    (mine_run round32 (empty_cascade 0 : Cascade ℚ) example_pool example_data 100
      (List.replicate 101 0) (mine_init two_samples 100 1)).nn = 100 :=
  (negative_mining_invariants round32 (empty_cascade 0 : Cascade ℚ) example_pool example_data
    (by decide) (by decide) two_samples 100 1 (List.replicate 101 0)).2.2.2.2.2
    (fun o r c s iind => by simp [classify_region, empty_cascade])
    (by simp)

/-! ## The output parameter of `classify_region` -/

/-- With at least one tree, an accepting call leaves in `*o` the accumulated output of
all trees, whatever `*o` held before. -/
theorem classify_region_output {K : Type} [LinearOrderedField K] [FloorRing K]
    (rnd : K → K) (casc : Cascade K) (pool : Pool) (o : K) (r c s iind : Int)
    (hn : 1 ≤ casc.ntrees) (hacc : (classify_region rnd casc pool o r c s iind).1 = 1) :
    (classify_region rnd casc pool o r c s iind).2 =
      accumulated_output rnd casc pool r c (ftoi (rnd (casc.tsr * rnd (s : K))))
        (ftoi (rnd (casc.tsc * rnd (s : K)))) iind (casc.ntrees - 1) := by
  have hne : casc.ntrees ≠ 0 := by omega
  have hres : classify_region rnd casc pool o r c s iind =
      classify_loop rnd casc pool r c (ftoi (rnd (casc.tsr * rnd (s : K))))
        (ftoi (rnd (casc.tsc * rnd (s : K)))) iind casc.ntrees 0 0 := by
    simp [classify_region, hne]
  rw [hres] at hacc ⊢
  have h3 := (classify_loop_spec rnd casc pool r c (ftoi (rnd (casc.tsr * rnd (s : K))))
    (ftoi (rnd (casc.tsc * rnd (s : K)))) iind casc.ntrees 0).2.2.1 hacc
  simp only [Nat.zero_add] at h3
  refine Eq.trans h3 ?_
  obtain ⟨m, hm⟩ : ∃ m, casc.ntrees = m + 1 := ⟨casc.ntrees - 1, by omega⟩
  rw [hm]
  rfl

/-- C10, evaluated at a failing input.  On the empty cascade `classify_region` returns
`+1` before it stores anything in `*o`: entered with `*o = 7` it leaves `7`, not the
sum `0` of the outputs of its (zero) trees.  So the positive that
`sample_training_data` records keeps what `os[n]` held before, and the negative that
the mining loop records, at slot `n = np`, carries the content `7` of the
uninitialised local as its running output.  This holds whatever the rounding. -/
theorem classify_region_empty_keeps_output :
    (empty_cascade 0 : Cascade ℚ).ntrees = 0 ∧
    ((List.range (empty_cascade 0 : Cascade ℚ).ntrees).map
      (fun j => get_tree_output (empty_cascade 0 : Cascade ℚ) example_pool j 1 1 2 2 0)).sum
      = 0 ∧
    ∀ rnd : ℚ → ℚ,
      classify_region rnd (empty_cascade 0 : Cascade ℚ) example_pool 7 1 1 2 0 = (1, 7) ∧
      (sample_positives rnd (empty_cascade 0 : Cascade ℚ) example_pool example_data
        { two_samples with os := fun _ => 7 }).2 = 1 ∧
      (sample_positives rnd (empty_cascade 0 : Cascade ℚ) example_pool example_data
        { two_samples with os := fun _ => 7 }).1.os 0 = 7 ∧
      (mine_step rnd (empty_cascade 0 : Cascade ℚ) example_pool example_data 1 7
        (mine_init two_samples 1 1)).nn = 1 ∧
      (mine_step rnd (empty_cascade 0 : Cascade ℚ) example_pool example_data 1 7
        (mine_init two_samples 1 1)).samples.os 1 = 7 := by
  refine ⟨rfl, ?_, fun rnd => ⟨?_, ?_, ?_, ?_, ?_⟩⟩
  · simp [empty_cascade]
  · simp [classify_region, empty_cascade]
  · simp [sample_positives, positive_step, classify_region, empty_cascade, example_data,
      List.range_succ]
  · simp [sample_positives, positive_step, classify_region, empty_cascade, example_data,
      List.range_succ]
  · simp [mine_step, mine_update, classify_region, empty_cascade, mine_init]
  · simp [mine_step, mine_update, classify_region, empty_cascade, mine_init]

/-! ## The detection runtime: `get_overlap` -/

theorem FMAX_eq_max {K : Type} [LinearOrderedField K] (a b : K) : FMAX a b = max a b := by
  unfold FMAX
  split_ifs with h
  · exact (max_eq_left (le_of_lt h)).symm
  · exact (max_eq_right (not_lt.mp h)).symm

theorem FMIN_eq_min {K : Type} [LinearOrderedField K] (a b : K) : FMIN a b = min a b := by
  unfold FMIN
  split_ifs with h
  · exact (min_eq_left (le_of_lt h)).symm
  · exact (min_eq_right (not_lt.mp h)).symm

theorem get_overlap_eq {K : Type} [LinearOrderedField K] (r1 c1 s1 r2 c2 s2 : K) :
    get_overlap (fun x => x) r1 c1 s1 r2 c2 s2 =
      interval_overlap r1 s1 r2 s2 * interval_overlap c1 s1 c2 s2 /
        (s1 * s1 + s2 * s2 - interval_overlap r1 s1 r2 s2 * interval_overlap c1 s1 c2 s2) := by
  simp only [get_overlap, interval_overlap, FMAX_eq_max, FMIN_eq_min]

theorem interval_overlap_bounds {K : Type} [LinearOrderedField K] (x1 s1 x2 s2 : K)
    (h1 : 0 < s1) (h2 : 0 < s2) :
    0 ≤ interval_overlap x1 s1 x2 s2 ∧ interval_overlap x1 s1 x2 s2 ≤ s1 ∧
      interval_overlap x1 s1 x2 s2 ≤ s2 := by
  unfold interval_overlap
  refine ⟨le_max_left _ _, max_le (le_of_lt h1) ?_, max_le (le_of_lt h2) ?_⟩
  · have a := min_le_left (x1 + s1 / 2) (x2 + s2 / 2)
    have b := le_max_left (x1 - s1 / 2) (x2 - s2 / 2)
    linarith
  · have a := min_le_right (x1 + s1 / 2) (x2 + s2 / 2)
    have b := le_max_right (x1 - s1 / 2) (x2 - s2 / 2)
    linarith

theorem get_overlap_symm {K : Type} [LinearOrderedField K] (rnd : K → K)
    (r1 c1 s1 r2 c2 s2 : K) :
    get_overlap rnd r1 c1 s1 r2 c2 s2 = get_overlap rnd r2 c2 s2 r1 c1 s1 := by
  simp only [get_overlap, FMAX_eq_max, FMIN_eq_min]
  rw [min_comm (rnd (r1 + rnd (s1 / 2))), max_comm (rnd (r1 - rnd (s1 / 2))),
    min_comm (rnd (c1 + rnd (s1 / 2))), max_comm (rnd (c1 - rnd (s1 / 2))),
    add_comm (rnd (s1 * s1))]

/-- C14. For two squares with positive sizes `s1`, `s2` and arbitrary centres (exact
arithmetic: no operation rounds), `get_overlap` returns `ov / (s1^2 + s2^2 - ov)` with `ov` the product of the
lengths of the row-interval and column-interval intersections, each clamped at `0`;
the result lies in `[0, 1]`, and it is `1` for two squares of equal size centred at the
same point. -/
theorem get_overlap_formula {K : Type} [LinearOrderedField K] (r1 c1 s1 r2 c2 s2 : K)
    (h1 : 0 < s1) (h2 : 0 < s2) :
    get_overlap (fun x => x) r1 c1 s1 r2 c2 s2 =
      interval_overlap r1 s1 r2 s2 * interval_overlap c1 s1 c2 s2 /
        (s1 ^ 2 + s2 ^ 2 - interval_overlap r1 s1 r2 s2 * interval_overlap c1 s1 c2 s2) ∧
    0 < s1 ^ 2 + s2 ^ 2 - interval_overlap r1 s1 r2 s2 * interval_overlap c1 s1 c2 s2 ∧
    0 ≤ get_overlap (fun x => x) r1 c1 s1 r2 c2 s2 ∧
    get_overlap (fun x => x) r1 c1 s1 r2 c2 s2 ≤ 1 ∧
    get_overlap (fun x => x) r1 c1 s1 r1 c1 s1 = 1 := by
  obtain ⟨a0, a1, a2⟩ := interval_overlap_bounds r1 s1 r2 s2 h1 h2
  obtain ⟨b0, b1, b2⟩ := interval_overlap_bounds c1 s1 c2 s2 h1 h2
  have hov1 : interval_overlap r1 s1 r2 s2 * interval_overlap c1 s1 c2 s2 ≤ s1 * s1 :=
    mul_le_mul a1 b1 b0 (le_of_lt h1)
  have hov2 : interval_overlap r1 s1 r2 s2 * interval_overlap c1 s1 c2 s2 ≤ s2 * s2 :=
    mul_le_mul a2 b2 b0 (le_of_lt h2)
  have hov0 : 0 ≤ interval_overlap r1 s1 r2 s2 * interval_overlap c1 s1 c2 s2 :=
    mul_nonneg a0 b0
  have hs1 : 0 < s1 * s1 := mul_pos h1 h1
  have hs2 : 0 < s2 * s2 := mul_pos h2 h2
  have hden : 0 < s1 * s1 + s2 * s2 -
      interval_overlap r1 s1 r2 s2 * interval_overlap c1 s1 c2 s2 := by linarith
  refine ⟨by rw [get_overlap_eq, pow_two, pow_two], by rw [pow_two, pow_two]; exact hden,
    ?_, ?_, ?_⟩
  · rw [get_overlap_eq]
    exact div_nonneg hov0 (le_of_lt hden)
  · rw [get_overlap_eq, div_le_one hden]
    linarith
  · have e : interval_overlap r1 s1 r1 s1 = s1 := by
      unfold interval_overlap
      rw [min_self, max_self, max_eq_right (by linarith)]
      ring
    have e2 : interval_overlap c1 s1 c1 s1 = s1 := by
      unfold interval_overlap
      rw [min_self, max_self, max_eq_right (by linarith)]
      ring
    rw [get_overlap_eq, e, e2]
    have : s1 * s1 + s1 * s1 - s1 * s1 = s1 * s1 := by ring
    rw [this, div_self (ne_of_gt hs1)]

/-- Witness for C14: two squares of size `50`, centres `(100, 100)` and `(102, 101)`:
the overlap is `48 * 49 / (2500 + 2500 - 48 * 49) = 294/331`. -/
theorem get_overlap_formula_witness :
    get_overlap (fun x => x) (100 : ℚ) 100 50 102 101 50 = 294 / 331 ∧
    0 ≤ get_overlap (fun x => x) (100 : ℚ) 100 50 102 101 50 ∧
    get_overlap (fun x => x) (100 : ℚ) 100 50 102 101 50 ≤ 1 := by
  have h := get_overlap_formula (100 : ℚ) 100 50 102 101 50 (by norm_num) (by norm_num)
  refine ⟨?_, h.2.2.1, h.2.2.2.1⟩
  simp only [get_overlap, FMAX, FMIN]
  norm_num

/-! ## Window extents: the conversion `(int)(tsr*s)` -/

/-- C17, evaluated at a failing input.  For the arguments `--depth 3 data.bin out.bin`
the loop of `main` steps over the value `3` and hands the argument after it to `atoi`:
the depth becomes `atoi("data.bin") = 0`, not `3`; the two file names are then taken
from `data.bin` and `out.bin`.  With the flag last, `data.bin out.bin --depth 3`, the
argument read is `argv[argc]`, the null pointer. -/
theorem depth_flag_skips_its_value :
    atoi "3" = 3 ∧
    parsed_depth (parse_arguments (fun _ => (0 : ℚ)) depth_first_argv) = some 0 ∧
    parsed_files (parse_arguments (fun _ => (0 : ℚ)) depth_first_argv) =
      some ("data.bin", "out.bin") ∧
    parse_arguments (fun _ => (0 : ℚ)) depth_last_argv = none := by
  refine ⟨by decide, by decide, by decide, ?_⟩
  rfl

/-! ## Serialization of the cascade -/

theorem le_word_le_bytes (w : Nat) (hw : w < 4294967296) :
    le_word (w % 256) (w / 256 % 256) (w / 65536 % 256) (w / 16777216 % 256) = w := by
  unfold le_word
  omega

theorem fread_fwrite_words (ws : List Nat) (hws : ∀ w ∈ ws, w < 4294967296) (rest : List Nat) :
    fread_words ws.length (fwrite_words ws ++ rest) = (ws, rest) := by
  induction ws with
  | nil => rfl
  | cons w ws ih =>
    have hw := hws w (List.mem_cons_self _ _)
    have ih1 := ih (fun x hx => hws x (List.mem_cons_of_mem _ hx))
    have e : fwrite_words (w :: ws) ++ rest =
        (w % 256) :: (w / 256 % 256) :: (w / 65536 % 256) :: (w / 16777216 % 256) ::
          (fwrite_words ws ++ rest) := rfl
    rw [e, List.length_cons, fread_words, ih1, le_word_le_bytes w hw]

theorem fwrite_words_length (ws : List Nat) : (fwrite_words ws).length = 4 * ws.length := by
  induction ws with
  | nil => rfl
  | cons w ws ih =>
    unfold fwrite_words at ih ⊢
    simp only [List.flatMap_cons, List.length_append, ih, le_bytes, List.length_cons,
      List.length_nil]
    omega

theorem int_to_word_lt (x : Int) : int_to_word x < 4294967296 := by
  unfold int_to_word
  have := Int.emod_lt_of_pos x (show (0 : Int) < 4294967296 by decide)
  have := Int.emod_nonneg x (show (4294967296 : Int) ≠ 0 by decide)
  omega

theorem word_to_int_to_word (x : Int) (h1 : -2147483648 ≤ x) (h2 : x < 2147483648) :
    word_to_int (int_to_word x) = x := by
  unfold word_to_int int_to_word
  have := Int.emod_lt_of_pos x (show (0 : Int) < 4294967296 by decide)
  have := Int.emod_nonneg x (show (4294967296 : Int) ≠ 0 by decide)
  split_ifs <;> omega

theorem two_pow_pos_nat (D : Nat) : 1 ≤ 2 ^ D := Nat.one_le_two_pow

theorem tree_words_length {K : Type} (f2w : K → Nat) (casc : Cascade K) (i : Nat) :
    (tree_words f2w casc i).length = 2 * 2 ^ casc.tdepth := by
  have := two_pow_pos_nat casc.tdepth
  unfold tree_words
  rw [List.length_append, List.length_append, List.length_map, List.length_map,
    List.length_range, List.length_range, List.length_singleton]
  omega

theorem trees_bytes_length {K : Type} (f2w : K → Nat) (casc : Cascade K) (n : Nat) :
    ((List.range n).flatMap (fun i => fwrite_words (tree_words f2w casc i))).length =
      n * 8 * 2 ^ casc.tdepth := by
  induction n with
  | zero => simp
  | succ n ih =>
    rw [List.range_succ, List.flatMap_append, List.length_append, ih]
    simp only [List.flatMap_cons, List.flatMap_nil, List.append_nil, fwrite_words_length,
      tree_words_length]
    ring

theorem save_length {K : Type} (f2w : K → Nat) (casc : Cascade K) :
    (save_cascade_to_file f2w casc).length = 16 + casc.ntrees * 8 * 2 ^ casc.tdepth := by
  unfold save_cascade_to_file
  simp only [List.length_append, fwrite_words_length, trees_bytes_length, List.length_singleton]

theorem store_items_map {A : Type} (arr : Int → A) (f : Nat → A) (n : Nat) (k : Nat)
    (hk : k < n) : store_items arr ((List.range n).map f) (k : Int) = f k := by
  unfold store_items
  have h1 : (0 : Int) ≤ (k : Int) ∧ (k : Int) < (((List.range n).map f).length : Int) := by
    simp only [List.length_map, List.length_range]
    omega
  rw [if_pos h1, Int.toNat_natCast, List.getD_eq_getElem?_getD, List.getElem?_map,
    List.getElem?_range hk]
  rfl

theorem fwrite_words_append (a b : List Nat) :
    fwrite_words (a ++ b) = fwrite_words a ++ fwrite_words b := by
  unfold fwrite_words
  exact List.flatMap_append a b le_bytes

theorem fread_one (w : Nat) (hw : w < 4294967296) (rest : List Nat) :
    fread_words 1 (fwrite_words [w] ++ rest) = ([w], rest) :=
  fread_fwrite_words [w] (fun x hx => by rw [List.mem_singleton.mp hx]; exact hw) rest

/-- Reading back the words written for tree `i`. -/
theorem fread_tree_words {K : Type} (f2w : K → Nat) (w2f : Nat → K) (casc : Cascade K)
    (hst : Storable f2w w2f casc) (i : Nat) (hi : i < casc.ntrees) (rest : List Nat) :
    fread_words (2 ^ casc.tdepth - 1) (fwrite_words (tree_words f2w casc i) ++ rest) =
      ((List.range (2 ^ casc.tdepth - 1)).map
          (fun (k : Nat) => int_to_word (casc.tcodes i (k : Int))),
        fwrite_words ((List.range (2 ^ casc.tdepth)).map
          (fun (k : Nat) => f2w (casc.luts i (k : Int)))) ++
          (fwrite_words [f2w (casc.thresholds (i : Int))] ++ rest)) ∧
    fread_words (2 ^ casc.tdepth)
        (fwrite_words ((List.range (2 ^ casc.tdepth)).map
          (fun (k : Nat) => f2w (casc.luts i (k : Int)))) ++
          (fwrite_words [f2w (casc.thresholds (i : Int))] ++ rest)) =
      ((List.range (2 ^ casc.tdepth)).map (fun (k : Nat) => f2w (casc.luts i (k : Int))),
        fwrite_words [f2w (casc.thresholds (i : Int))] ++ rest) ∧
    fread_words 1 (fwrite_words [f2w (casc.thresholds (i : Int))] ++ rest) =
      ([f2w (casc.thresholds (i : Int))], rest) := by
  obtain ⟨_, _, htrees⟩ := hst
  obtain ⟨_, hl, ht⟩ := htrees i hi
  refine ⟨?_, ?_, fread_one _ ht.1 rest⟩
  · unfold tree_words
    rw [fwrite_words_append, fwrite_words_append, List.append_assoc, List.append_assoc]
    have h := fread_fwrite_words ((List.range (2 ^ casc.tdepth - 1)).map
        (fun (k : Nat) => int_to_word (casc.tcodes i (k : Int))))
      (fun w hw => by
        obtain ⟨k, _, rfl⟩ := List.mem_map.mp hw
        exact int_to_word_lt _)
      (fwrite_words ((List.range (2 ^ casc.tdepth)).map
          (fun (k : Nat) => f2w (casc.luts i (k : Int)))) ++
          (fwrite_words [f2w (casc.thresholds (i : Int))] ++ rest))
    rw [List.length_map, List.length_range] at h
    exact h
  · have h := fread_fwrite_words ((List.range (2 ^ casc.tdepth)).map
        (fun (k : Nat) => f2w (casc.luts i (k : Int))))
      (fun w hw => by
        obtain ⟨k, hk, rfl⟩ := List.mem_map.mp hw
        exact (hl k (List.mem_range.mp hk)).1)
      (fwrite_words [f2w (casc.thresholds (i : Int))] ++ rest)
    rw [List.length_map, List.length_range] at h
    exact h

/-- The loop of `load_cascade_from_file` on the bytes written for the trees
`i .. i + rem - 1` of `casc`: header and earlier rows are kept, the rows read hold the
values of `casc` in every slot that a tree uses. -/
theorem load_trees_spec {K : Type} (f2w : K → Nat) (w2f : Nat → K) (casc : Cascade K)
    (hst : Storable f2w w2f casc) (rem : Nat) :
    ∀ (i : Nat) (c0 : Cascade K) (rest : List Nat), i + rem ≤ casc.ntrees →
      (load_trees w2f casc.tdepth rem i c0
        ((List.range' i rem).flatMap (fun j => fwrite_words (tree_words f2w casc j))
          ++ rest)).tsr = c0.tsr ∧
      (load_trees w2f casc.tdepth rem i c0
        ((List.range' i rem).flatMap (fun j => fwrite_words (tree_words f2w casc j))
          ++ rest)).tsc = c0.tsc ∧
      (load_trees w2f casc.tdepth rem i c0
        ((List.range' i rem).flatMap (fun j => fwrite_words (tree_words f2w casc j))
          ++ rest)).tdepth = c0.tdepth ∧
      (load_trees w2f casc.tdepth rem i c0
        ((List.range' i rem).flatMap (fun j => fwrite_words (tree_words f2w casc j))
          ++ rest)).ntrees = c0.ntrees ∧
      (∀ j, j < i →
        (load_trees w2f casc.tdepth rem i c0
          ((List.range' i rem).flatMap (fun j => fwrite_words (tree_words f2w casc j))
            ++ rest)).tcodes j = c0.tcodes j ∧
        (load_trees w2f casc.tdepth rem i c0
          ((List.range' i rem).flatMap (fun j => fwrite_words (tree_words f2w casc j))
            ++ rest)).luts j = c0.luts j ∧
        (load_trees w2f casc.tdepth rem i c0
          ((List.range' i rem).flatMap (fun j => fwrite_words (tree_words f2w casc j))
            ++ rest)).thresholds (j : Int) = c0.thresholds (j : Int)) ∧
      (∀ j, i ≤ j → j < i + rem →
        (∀ k : Nat, k < 2 ^ casc.tdepth - 1 →
          (load_trees w2f casc.tdepth rem i c0
            ((List.range' i rem).flatMap (fun j => fwrite_words (tree_words f2w casc j))
              ++ rest)).tcodes j (k : Int) = casc.tcodes j (k : Int)) ∧
        (∀ k : Nat, k < 2 ^ casc.tdepth →
          (load_trees w2f casc.tdepth rem i c0
            ((List.range' i rem).flatMap (fun j => fwrite_words (tree_words f2w casc j))
              ++ rest)).luts j (k : Int) = casc.luts j (k : Int)) ∧
        (load_trees w2f casc.tdepth rem i c0
          ((List.range' i rem).flatMap (fun j => fwrite_words (tree_words f2w casc j))
            ++ rest)).thresholds (j : Int) = casc.thresholds (j : Int)) := by
  induction rem with
  | zero =>
    intro i c0 rest _
    refine ⟨rfl, rfl, rfl, rfl, fun j _ => ⟨rfl, rfl, rfl⟩, fun j h1 h2 => ?_⟩
    omega
  | succ rem ih =>
    intro i c0 rest hle
    have hi : i < casc.ntrees := by omega
    obtain ⟨f1, f2, f3⟩ := fread_tree_words f2w w2f casc hst i hi
      ((List.range' (i + 1) rem).flatMap (fun j => fwrite_words (tree_words f2w casc j)) ++ rest)
    have estream : (List.range' i (rem + 1)).flatMap
          (fun j => fwrite_words (tree_words f2w casc j)) ++ rest =
        fwrite_words (tree_words f2w casc i) ++
          ((List.range' (i + 1) rem).flatMap (fun j => fwrite_words (tree_words f2w casc j))
            ++ rest) := by
      rw [List.range'_succ, List.flatMap_cons, List.append_assoc]
    rw [estream]
    simp only [load_trees, f1, f2, f3]
    obtain ⟨h1, h2, h3, h4, h5, h6⟩ := ih (i + 1)
      { c0 with
        tcodes := Function.update c0.tcodes i (store_items (c0.tcodes i)
          (((List.range (2 ^ casc.tdepth - 1)).map
            (fun (k : Nat) => int_to_word (casc.tcodes i (k : Int)))).map word_to_int))
        luts := Function.update c0.luts i (store_items (c0.luts i)
          (((List.range (2 ^ casc.tdepth)).map
            (fun (k : Nat) => f2w (casc.luts i (k : Int)))).map w2f))
        thresholds := Function.update c0.thresholds (i : Int)
          (store_one (c0.thresholds (i : Int)) [f2w (casc.thresholds (i : Int))] w2f) }
      rest (by omega)
    obtain ⟨_, _, htrees⟩ := hst
    obtain ⟨hc, hl, ht⟩ := htrees i hi
    refine ⟨h1, h2, h3, h4, ?_, ?_⟩
    · intro j hj
      obtain ⟨a, b, c⟩ := h5 j (by omega)
      have hne : j ≠ i := by omega
      have hneI : (j : Int) ≠ (i : Int) := by omega
      rw [a, b, c]
      exact ⟨Function.update_noteq hne _ _, Function.update_noteq hne _ _,
        Function.update_noteq hneI _ _⟩
    · intro j hj1 hj2
      by_cases hji : j = i
      · subst hji
        obtain ⟨a, b, c⟩ := h5 j (by omega)
        rw [a, b, c]
        simp only [Function.update_same, List.map_map]
        refine ⟨?_, ?_, ?_⟩
        · intro k hk
          rw [store_items_map _ _ _ k hk]
          exact word_to_int_to_word _ (hc k hk).1 (hc k hk).2
        · intro k hk
          rw [store_items_map _ _ _ k hk]
          exact (hl k hk).2
        · exact ht.2
      · exact h6 j (by omega) (by omega)

theorem tree_words_congr {K : Type} (f2w : K → Nat) (c1 c2 : Cascade K)
    (h : SameCascade c1 c2) (i : Nat) (hi : i < c2.ntrees) :
    tree_words f2w c1 i = tree_words f2w c2 i := by
  obtain ⟨_, _, hD, _, hrows⟩ := h
  obtain ⟨hc, hl, ht⟩ := hrows i hi
  unfold tree_words
  rw [hD, ht]
  congr 2
  · apply List.map_congr_left
    intro k hk
    rw [hc k (List.mem_range.mp hk)]
  · apply List.map_congr_left
    intro k hk
    rw [hl k (List.mem_range.mp hk)]

theorem save_congr {K : Type} (f2w : K → Nat) (c1 c2 : Cascade K) (h : SameCascade c1 c2) :
    save_cascade_to_file f2w c1 = save_cascade_to_file f2w c2 := by
  have h0 := h
  obtain ⟨e1, e2, e3, e4, _⟩ := h
  unfold save_cascade_to_file
  rw [e1, e2, e3, e4]
  congr 1
  apply List.flatMap_congr
  intro i hi
  rw [tree_words_congr f2w c1 c2 h0 i (List.mem_range.mp hi)]

theorem header_count_round_trip (n : Nat) (hn : n ≤ 4096) :
    (word_to_int (int_to_word (n : Int))).toNat = n := by
  rw [word_to_int_to_word _ (by omega) (by omega)]
  exact Int.toNat_natCast n

/-- C11. For every cascade state with depth `0 ≤ D ≤ 10`, `0 ≤ ntrees ≤ 4096`, `int32_t`
codes and `float` values that survive the trip through their object representation:
decoding with `load_cascade_from_file` (into any previous state `c0` of the globals) the
bytes produced by `save_cascade_to_file` restores the header and, per tree, the
`2^D - 1` codes, the `2^D` leaf values and the threshold; the byte sequence has length
`16 + ntrees * 8 * 2^D`, for an empty cascade the `16` bytes of `(tsr, tsc, D, 0)`; and
saving the reloaded cascade yields the same bytes. -/
theorem cascade_round_trip {K : Type} (f2w : K → Nat) (w2f : Nat → K) (casc : Cascade K)
    (hD : casc.tdepth ≤ 10) (hn : casc.ntrees ≤ 4096) (hst : Storable f2w w2f casc)
    (c0 : Cascade K) :
    SameCascade (load_cascade_from_file w2f c0 (save_cascade_to_file f2w casc)) casc ∧
    (save_cascade_to_file f2w casc).length = 16 + casc.ntrees * 8 * 2 ^ casc.tdepth ∧
    (casc.ntrees = 0 →
      save_cascade_to_file f2w casc =
        le_bytes (f2w casc.tsr) ++ le_bytes (f2w casc.tsc) ++
          le_bytes (int_to_word (casc.tdepth : Int)) ++ le_bytes (int_to_word 0)) ∧
    save_cascade_to_file f2w (load_cascade_from_file w2f c0 (save_cascade_to_file f2w casc)) =
      save_cascade_to_file f2w casc := by
  have hsame : SameCascade (load_cascade_from_file w2f c0 (save_cascade_to_file f2w casc))
      casc := by
    have r1 := hst.1
    have r2 := hst.2.1
    unfold load_cascade_from_file save_cascade_to_file
    simp only [List.append_assoc, fread_one _ r1.1, fread_one _ r2.1,
      fread_one _ (int_to_word_lt _), store_one, r1.2, r2.2,
      header_count_round_trip casc.tdepth (by omega), header_count_round_trip casc.ntrees hn]
    have h := load_trees_spec f2w w2f casc hst casc.ntrees 0
      { c0 with tsr := casc.tsr, tsc := casc.tsc, tdepth := casc.tdepth,
                ntrees := casc.ntrees } [] (by omega)
    rw [← List.range_eq_range', List.append_nil] at h
    obtain ⟨h1, h2, h3, h4, _, h6⟩ := h
    exact ⟨h1, h2, h3, h4, fun i hi => h6 i (Nat.zero_le _) (by omega)⟩
  refine ⟨hsame, save_length f2w casc, ?_, save_congr f2w _ _ hsame⟩
  intro h0
  unfold save_cascade_to_file fwrite_words
  rw [h0]
  simp

theorem single_tree_storable :
    Storable unit_f2w unit_w2f (single_tree_cascade : Cascade ℚ) := by
  have r1 : Representable unit_f2w unit_w2f (1 : ℚ) := by
    unfold Representable unit_f2w unit_w2f; norm_num
  have r2 : Representable unit_f2w unit_w2f (1 / 2 : ℚ) := by
    unfold Representable unit_f2w unit_w2f; norm_num
  have r3 : Representable unit_f2w unit_w2f (-1 / 2 : ℚ) := by
    unfold Representable unit_f2w unit_w2f; norm_num
  have r4 : Representable unit_f2w unit_w2f (-1337 : ℚ) := by
    unfold Representable unit_f2w unit_w2f; norm_num
  refine ⟨r1, r1, fun i _ => ⟨fun k _ => ?_, fun k _ => ?_, r4⟩⟩
  · simp [single_tree_cascade]
  · show Representable unit_f2w unit_w2f (if (k : Int) = 0 then -1 / 2 else 1 / 2)
    split_ifs
    · exact r3
    · exact r2

/-- Witness for C11: the cascade of scenario "single-tree inference" (depth `1`, one
tree) is written as `16 + 1 * 8 * 2 = 32` bytes and read back; the empty cascade of
scenario "empty cascade" (`tsr = tsc = 1`, depth `3`) is written as the `16` bytes of
`(1.0, 1.0, 3, 0)`. -/
theorem cascade_round_trip_witness :
    SameCascade (load_cascade_from_file unit_w2f (empty_cascade 3 : Cascade ℚ)
      (save_cascade_to_file unit_f2w (single_tree_cascade : Cascade ℚ)))
      single_tree_cascade ∧
    (save_cascade_to_file unit_f2w (single_tree_cascade : Cascade ℚ)).length = 32 ∧
    save_cascade_to_file unit_f2w (empty_cascade 3 : Cascade ℚ) =
      [0, 0, 128, 63, 0, 0, 128, 63, 3, 0, 0, 0, 0, 0, 0, 0] :=
  have h := cascade_round_trip unit_f2w unit_w2f (single_tree_cascade : Cascade ℚ)
    (by decide) (by decide) single_tree_storable (empty_cascade 3)
  ⟨h.1, h.2.1, by decide⟩

/-! ## The detection runtime: `find_objects` -/

theorem FMAX_one_le {K : Type} [LinearOrderedField K] (x : K) : 1 ≤ FMAX x 1 := by
  rw [FMAX_eq_max]; exact le_max_right _ _

theorem record_window_inv {K : Type} [LinearOrderedField K] [FloorRing K]
    (detection_func : Int → Int → Int → Int × K) (maxndetections : Int) (nrows ncols : Int)
    (scalefactor minsize maxsize : K) (r c s : K) (st : ScanState K)
    (hs : ∃ k : Nat, s = minsize * scalefactor ^ k) (hsm : s ≤ maxsize)
    (hr1 : s / 2 + 1 ≤ r) (hr2 : r ≤ (nrows : K) - s / 2 - 1)
    (hc1 : s / 2 + 1 ≤ c) (hc2 : c ≤ (ncols : K) - s / 2 - 1)
    (hn : (st.ndetections : Int) ≤ max maxndetections 0)
    (hinv : ScanInv detection_func nrows ncols scalefactor minsize maxsize st) :
    ((record_window detection_func maxndetections r c s st).ndetections : Int)
        ≤ max maxndetections 0 ∧
    ScanInv detection_func nrows ncols scalefactor minsize maxsize
      (record_window detection_func maxndetections r c s st) := by
  unfold record_window
  simp only
  split_ifs with h
  · exact ⟨hn, hinv⟩
  · have h1 : (detection_func (ftoi r) (ftoi c) (ftoi s)).1 = 1 := by
      by_contra hcon; exact h (Or.inl hcon)
    have h2 : (st.ndetections : Int) < maxndetections := by
      by_contra hcon; exact h (Or.inr (not_lt.mp hcon))
    constructor
    · have : maxndetections ≤ max maxndetections 0 := le_max_left _ _
      push_cast
      omega
    · intro i hi
      by_cases hin : i = st.ndetections
      · subst hin
        simp only [Function.update_same]
        exact ⟨hs, hsm, hr1, hr2, hc1, hc2, Prod.ext h1 rfl⟩
      · have hlt : i < st.ndetections := by
          have : i < st.ndetections + 1 := hi
          omega
        simp only [Function.update_noteq hin]
        exact hinv i hlt

theorem col_loop_inv {K : Type} [LinearOrderedField K] [FloorRing K]
    (detection_func : Int → Int → Int → Int × K) (maxndetections : Int) (nrows ncols : Int)
    (scalefactor minsize maxsize : K) (s dc r : K)
    (hs : ∃ k : Nat, s = minsize * scalefactor ^ k) (hsm : s ≤ maxsize) (hdc : 1 ≤ dc)
    (hr1 : s / 2 + 1 ≤ r) (hr2 : r ≤ (nrows : K) - s / 2 - 1) (fuel : Nat) :
    ∀ (c : K) (st res : ScanState K), s / 2 + 1 ≤ c →
      (st.ndetections : Int) ≤ max maxndetections 0 →
      ScanInv detection_func nrows ncols scalefactor minsize maxsize st →
      col_loop detection_func maxndetections ncols s dc r fuel c st = some res →
      (res.ndetections : Int) ≤ max maxndetections 0 ∧
      ScanInv detection_func nrows ncols scalefactor minsize maxsize res := by
  induction fuel with
  | zero => intro c st res _ _ _ h; simp [col_loop] at h
  | succ fuel ih =>
    intro c st res hc hn hinv h
    simp only [col_loop] at h
    by_cases hc2 : c ≤ (ncols : K) - s / 2 - 1
    · rw [if_pos hc2] at h
      obtain ⟨a, b⟩ := record_window_inv detection_func maxndetections nrows ncols scalefactor
        minsize maxsize r c s st hs hsm hr1 hr2 hc hc2 hn hinv
      exact ih (c + dc) _ res (by linarith) a b h
    · rw [if_neg hc2] at h
      rw [← Option.some.inj h]
      exact ⟨hn, hinv⟩

theorem row_loop_inv {K : Type} [LinearOrderedField K] [FloorRing K]
    (detection_func : Int → Int → Int → Int × K) (maxndetections : Int) (nrows ncols : Int)
    (scalefactor minsize maxsize : K) (s dr dc : K)
    (hs : ∃ k : Nat, s = minsize * scalefactor ^ k) (hsm : s ≤ maxsize) (hdr : 1 ≤ dr)
    (hdc : 1 ≤ dc) (fuel k : Nat) :
    ∀ (r : K) (st res : ScanState K), s / 2 + 1 ≤ r →
      (st.ndetections : Int) ≤ max maxndetections 0 →
      ScanInv detection_func nrows ncols scalefactor minsize maxsize st →
      row_loop detection_func maxndetections nrows ncols s dr dc fuel k r st = some res →
      (res.ndetections : Int) ≤ max maxndetections 0 ∧
      ScanInv detection_func nrows ncols scalefactor minsize maxsize res := by
  induction k with
  | zero => intro r st res _ _ _ h; simp [row_loop] at h
  | succ k ih =>
    intro r st res hr hn hinv h
    simp only [row_loop] at h
    by_cases hr2 : r ≤ (nrows : K) - s / 2 - 1
    · rw [if_pos hr2] at h
      split at h
      · exact absurd h (by simp)
      · rename_i st1 hcol
        obtain ⟨a, b⟩ := col_loop_inv detection_func maxndetections nrows ncols scalefactor
          minsize maxsize s dc r hs hsm hdc hr hr2 fuel (s / 2 + 1) st st1 (le_refl _) hn hinv
          hcol
        exact ih (r + dr) st1 res (by linarith) a b h
    · rw [if_neg hr2] at h
      rw [← Option.some.inj h]
      exact ⟨hn, hinv⟩

theorem scale_loop_inv {K : Type} [LinearOrderedField K] [FloorRing K]
    (detection_func : Int → Int → Int → Int × K) (maxndetections : Int) (nrows ncols : Int)
    (scalefactor stridefactor minsize maxsize : K) (fuel k : Nat) :
    ∀ (s : K) (st res : ScanState K), (∃ j : Nat, s = minsize * scalefactor ^ j) →
      (st.ndetections : Int) ≤ max maxndetections 0 →
      ScanInv detection_func nrows ncols scalefactor minsize maxsize st →
      scale_loop detection_func maxndetections nrows ncols scalefactor stridefactor maxsize
        fuel k s st = some res →
      (res.ndetections : Int) ≤ max maxndetections 0 ∧
      ScanInv detection_func nrows ncols scalefactor minsize maxsize res := by
  induction k with
  | zero => intro s st res _ _ _ h; simp [scale_loop] at h
  | succ k ih =>
    intro s st res hs hn hinv h
    simp only [scale_loop] at h
    by_cases hsm : s ≤ maxsize
    · rw [if_pos hsm] at h
      split at h
      · exact absurd h (by simp)
      · rename_i st1 hrow
        obtain ⟨a, b⟩ := row_loop_inv detection_func maxndetections nrows ncols scalefactor
          minsize maxsize s _ _ hs hsm (FMAX_one_le _) (FMAX_one_le _) fuel fuel (s / 2 + 1) st
          st1 (le_refl _) hn hinv hrow
        obtain ⟨j, hj⟩ := hs
        exact ih (scalefactor * s) st1 res ⟨j + 1, by rw [hj, pow_succ]; ring⟩ a b h
    · rw [if_neg hsm] at h
      rw [← Option.some.inj h]
      exact ⟨hn, hinv⟩

theorem col_loop_total {K : Type} [LinearOrderedField K] [FloorRing K]
    (detection_func : Int → Int → Int → Int × K) (maxndetections : Int) (ncols : Int)
    (s dc r : K) (hdc : 1 ≤ dc) (m : Nat) :
    ∀ (c : K) (st : ScanState K) (fuel : Nat), (ncols : K) - s / 2 - 1 - c < (m : K) →
      m + 1 ≤ fuel →
      ∃ res, col_loop detection_func maxndetections ncols s dc r fuel c st = some res := by
  induction m with
  | zero =>
    intro c st fuel hm hfuel
    obtain ⟨f, rfl⟩ : ∃ f, fuel = f + 1 := ⟨fuel - 1, by omega⟩
    have : ¬ c ≤ (ncols : K) - s / 2 - 1 := by
      push_cast at hm
      intro hc; linarith
    exact ⟨st, by simp only [col_loop, if_neg this]⟩
  | succ m ih =>
    intro c st fuel hm hfuel
    obtain ⟨f, rfl⟩ : ∃ f, fuel = f + 1 := ⟨fuel - 1, by omega⟩
    simp only [col_loop]
    by_cases hc : c ≤ (ncols : K) - s / 2 - 1
    · rw [if_pos hc]
      apply ih
      · push_cast at hm; linarith
      · omega
    · rw [if_neg hc]
      exact ⟨st, rfl⟩

theorem row_loop_total {K : Type} [LinearOrderedField K] [FloorRing K]
    (detection_func : Int → Int → Int → Int × K) (maxndetections : Int) (nrows ncols : Int)
    (s dr dc : K) (hdr : 1 ≤ dr) (fuel : Nat)
    (hcol : ∀ (r : K) (st : ScanState K),
      ∃ res, col_loop detection_func maxndetections ncols s dc r fuel (s / 2 + 1) st = some res)
    (m : Nat) :
    ∀ (r : K) (st : ScanState K) (k : Nat), (nrows : K) - s / 2 - 1 - r < (m : K) →
      m + 1 ≤ k →
      ∃ res, row_loop detection_func maxndetections nrows ncols s dr dc fuel k r st
        = some res := by
  induction m with
  | zero =>
    intro r st k hm hk
    obtain ⟨f, rfl⟩ : ∃ f, k = f + 1 := ⟨k - 1, by omega⟩
    have : ¬ r ≤ (nrows : K) - s / 2 - 1 := by
      push_cast at hm
      intro hc; linarith
    exact ⟨st, by simp only [row_loop, if_neg this]⟩
  | succ m ih =>
    intro r st k hm hk
    obtain ⟨f, rfl⟩ : ∃ f, k = f + 1 := ⟨k - 1, by omega⟩
    simp only [row_loop]
    by_cases hr : r ≤ (nrows : K) - s / 2 - 1
    · rw [if_pos hr]
      obtain ⟨st1, h1⟩ := hcol r st
      rw [h1]
      apply ih
      · push_cast at hm; linarith
      · omega
    · rw [if_neg hr]
      exact ⟨st, rfl⟩

/-- At one scale the two inner loops end when given enough fuel. -/
theorem rows_total {K : Type} [LinearOrderedField K] [FloorRing K]
    (detection_func : Int → Int → Int → Int × K) (maxndetections : Int) (nrows ncols : Int)
    (s dr dc : K) (hdr : 1 ≤ dr) (hdc : 1 ≤ dc) :
    ∃ F : Nat, ∀ (fuel : Nat) (st : ScanState K), F ≤ fuel →
      ∃ res, row_loop detection_func maxndetections nrows ncols s dr dc fuel fuel (s / 2 + 1) st
        = some res := by
  haveI : Archimedean K := FloorRing.archimedean K
  obtain ⟨mc, hmc⟩ := exists_nat_gt ((ncols : K) - s / 2 - 1 - (s / 2 + 1))
  obtain ⟨mr, hmr⟩ := exists_nat_gt ((nrows : K) - s / 2 - 1 - (s / 2 + 1))
  refine ⟨max (mc + 1) (mr + 1), fun fuel st hfuel => ?_⟩
  have h1 : mc + 1 ≤ fuel := le_trans (le_max_left _ _) hfuel
  have h2 : mr + 1 ≤ fuel := le_trans (le_max_right _ _) hfuel
  exact row_loop_total detection_func maxndetections nrows ncols s dr dc hdr fuel
    (fun r st1 => col_loop_total detection_func maxndetections ncols s dc r hdc mc (s / 2 + 1)
      st1 fuel hmc h1)
    mr (s / 2 + 1) st fuel hmr h2

theorem scale_loop_total {K : Type} [LinearOrderedField K] [FloorRing K]
    (detection_func : Int → Int → Int → Int × K) (maxndetections : Int) (nrows ncols : Int)
    (scalefactor stridefactor maxsize : K) (hsf : 1 < scalefactor) (m : Nat) :
    ∀ (s : K), 0 < s → maxsize < s * scalefactor ^ m →
      ∃ F : Nat, ∀ (fuel k : Nat) (st : ScanState K), F ≤ fuel → m + 1 ≤ k →
        ∃ res, scale_loop detection_func maxndetections nrows ncols scalefactor stridefactor
          maxsize fuel k s st = some res := by
  induction m with
  | zero =>
    intro s _ hm
    refine ⟨0, fun fuel k st _ hk => ?_⟩
    obtain ⟨f, rfl⟩ : ∃ f, k = f + 1 := ⟨k - 1, by omega⟩
    have : ¬ s ≤ maxsize := by
      rw [pow_zero, mul_one] at hm
      exact not_le.mpr hm
    exact ⟨st, by simp only [scale_loop, if_neg this]⟩
  | succ m ih =>
    intro s hs hm
    obtain ⟨F1, hF1⟩ := rows_total detection_func maxndetections nrows ncols s
      (FMAX (stridefactor * s) 1) (FMAX (stridefactor * s) 1) (FMAX_one_le _) (FMAX_one_le _)
    obtain ⟨F2, hF2⟩ := ih (scalefactor * s) (mul_pos (by linarith) hs)
      (by rw [pow_succ] at hm; linarith [hm, mul_comm scalefactor s,
        show scalefactor * s * scalefactor ^ m = s * (scalefactor ^ m * scalefactor) by ring])
    refine ⟨max F1 F2, fun fuel k st hfuel hk => ?_⟩
    obtain ⟨f, rfl⟩ : ∃ f, k = f + 1 := ⟨k - 1, by omega⟩
    simp only [scale_loop]
    by_cases hsm : s ≤ maxsize
    · rw [if_pos hsm]
      obtain ⟨st1, h1⟩ := hF1 fuel st (le_trans (le_max_left _ _) hfuel)
      rw [h1]
      exact hF2 fuel f st1 (le_trans (le_max_right _ _) hfuel) (by omega)
    · rw [if_neg hsm]
      exact ⟨st, rfl⟩

/-- C15. For every image size, every detection callback and all parameters with
`maxndetections ≥ 0`, `minsize > 0` and `scalefactor > 1` (exact arithmetic),
`find_objects` terminates (enough fuel gives a result) and returns `ndetections` with
`0 ≤ ndetections ≤ maxndetections`; every recorded detection `(r, c, s, q)` has
`s = minsize * scalefactor^k ≤ maxsize` for some `k ≥ 0`,
`s/2 + 1 ≤ r ≤ nrows - s/2 - 1`, `s/2 + 1 ≤ c ≤ ncols - s/2 - 1`, and the callback, called
with `(r, c, s)` (converted to its `int` parameters), returned `1` and left `q`. -/
theorem find_objects_contract {K : Type} [LinearOrderedField K] [FloorRing K]
    (dets : Detections K) (maxndetections : Int)
    (detection_func : Int → Int → Int → Int × K) (nrows ncols : Int)
    (scalefactor stridefactor minsize maxsize : K) (hmax : 0 ≤ maxndetections)
    (hmin : 0 < minsize) (hsf : 1 < scalefactor) :
    (∃ F : Nat, ∀ fuel, F ≤ fuel →
      ∃ res, find_objects dets maxndetections detection_func nrows ncols scalefactor
        stridefactor minsize maxsize fuel = some res) ∧
    (∀ (fuel : Nat) (res : ScanState K),
      find_objects dets maxndetections detection_func nrows ncols scalefactor stridefactor
        minsize maxsize fuel = some res →
      (res.ndetections : Int) ≤ maxndetections ∧
      ∀ i, i < res.ndetections →
        (∃ k : Nat, res.dets.ss i = minsize * scalefactor ^ k) ∧ res.dets.ss i ≤ maxsize ∧
        res.dets.ss i / 2 + 1 ≤ res.dets.rs i ∧
        res.dets.rs i ≤ (nrows : K) - res.dets.ss i / 2 - 1 ∧
        res.dets.ss i / 2 + 1 ≤ res.dets.cs i ∧
        res.dets.cs i ≤ (ncols : K) - res.dets.ss i / 2 - 1 ∧
        detection_func (ftoi (res.dets.rs i)) (ftoi (res.dets.cs i)) (ftoi (res.dets.ss i)) =
          (1, res.dets.qs i)) := by
  constructor
  · haveI : Archimedean K := FloorRing.archimedean K
    obtain ⟨m, hm⟩ := pow_unbounded_of_one_lt (maxsize / minsize) hsf
    have hm2 : maxsize < minsize * scalefactor ^ m := by
      rw [div_lt_iff₀ hmin] at hm
      linarith [mul_comm (scalefactor ^ m) minsize]
    obtain ⟨F, hF⟩ := scale_loop_total detection_func maxndetections nrows ncols scalefactor
      stridefactor maxsize hsf m minsize hmin hm2
    refine ⟨max F (m + 1), fun fuel hfuel => ?_⟩
    exact hF fuel fuel _ (le_trans (le_max_left _ _) hfuel) (le_trans (le_max_right _ _) hfuel)
  · intro fuel res h
    unfold find_objects at h
    obtain ⟨a, b⟩ := scale_loop_inv detection_func maxndetections nrows ncols scalefactor
      stridefactor minsize maxsize fuel fuel minsize _ res ⟨0, by rw [pow_zero, mul_one]⟩
      (by simp) (fun i hi => absurd hi (Nat.not_lt_zero i)) h
    rw [max_eq_left hmax] at a
    exact ⟨a, b⟩

/-- Witness for C15: a `5 x 5` image, `minsize = maxsize = 3`, `scalefactor = 2`, stride
factor `0.1`, a callback that accepts every window with confidence `7`, room for three
detections: the scan returns one detection, the window `(2.5, 2.5, 3)`. -/
theorem find_objects_contract_witness :
    ∃ res : ScanState ℚ,
      find_objects no_detections 3 (fun _ _ _ => (1, (7 : ℚ))) 5 5 2 (1 / 10) 3 3 3
        = some res ∧
      (res.ndetections : Int) ≤ 3 ∧ res.ndetections = 1 ∧
      res.dets.rs 0 = 5 / 2 ∧ res.dets.cs 0 = 5 / 2 ∧ res.dets.ss 0 = 3 ∧ res.dets.qs 0 = 7 := by
  have hev : ∃ res : ScanState ℚ,
      find_objects no_detections 3 (fun _ _ _ => (1, (7 : ℚ))) 5 5 2 (1 / 10) 3 3 3
        = some res ∧ res.ndetections = 1 ∧
      res.dets.rs 0 = 5 / 2 ∧ res.dets.cs 0 = 5 / 2 ∧ res.dets.ss 0 = 3 ∧ res.dets.qs 0 = 7 := by
    refine ⟨record_window (fun _ _ _ => (1, (7 : ℚ))) 3 (3 / 2 + 1) (3 / 2 + 1) 3
      { dets := no_detections, ndetections := 0 }, ?_, ?_⟩
    · simp only [find_objects, scale_loop, row_loop, col_loop, FMAX]
      norm_num
    · norm_num [record_window, no_detections]
  obtain ⟨res, h1, h2, h3⟩ := hev
  exact ⟨res, h1, ((find_objects_contract no_detections 3
    (fun _ _ _ => (1, (7 : ℚ))) 5 5 2 (1 / 10) 3 3 (by decide) (by norm_num)
    (by norm_num)).2 3 res h1).1, h2, h3⟩

/-! ## The tree trainer: `split_training_data` -/

theorem scan_up_spec (bit : Nat → Int) (inds : Nat → Nat) (j : Nat) (d : Nat) :
    ∀ i, i + d = j →
      i ≤ scan_up bit inds d i ∧ scan_up bit inds d i ≤ j ∧
      (∀ k, i ≤ k → k < scan_up bit inds d i → bit (inds k) = 0) ∧
      (scan_up bit inds d i = j ∨ bit (inds (scan_up bit inds d i)) ≠ 0) ∧
      (bit (inds i) = 0 → i < j → i < scan_up bit inds d i) := by
  induction d with
  | zero =>
    intro i h
    simp only [scan_up]
    exact ⟨le_refl _, by omega, fun k h1 h2 => by omega, Or.inl (by omega), fun _ h2 => by omega⟩
  | succ d ih =>
    intro i h
    simp only [scan_up]
    by_cases hb : bit (inds i) = 0
    · rw [if_pos hb]
      obtain ⟨a, b, c, e, _⟩ := ih (i + 1) (by omega)
      refine ⟨by omega, b, ?_, e, fun _ _ => by omega⟩
      intro k h1 h2
      by_cases hk : k = i
      · rw [hk]; exact hb
      · exact c k (by omega) h2
    · rw [if_neg hb]
      exact ⟨le_refl _, by omega, fun k h1 h2 => by omega, Or.inr hb,
        fun h0 _ => absurd h0 hb⟩

theorem scan_down_spec (bit : Nat → Int) (inds : Nat → Nat) (i : Nat) (d : Nat) :
    ∀ j, i + d = j →
      i ≤ scan_down bit inds d j ∧ scan_down bit inds d j ≤ j ∧
      (∀ k, scan_down bit inds d j < k → k ≤ j → bit (inds k) ≠ 0) ∧
      (scan_down bit inds d j = i ∨ bit (inds (scan_down bit inds d j)) = 0) ∧
      (bit (inds j) ≠ 0 → i < j → scan_down bit inds d j < j) := by
  induction d with
  | zero =>
    intro j h
    simp only [scan_down]
    exact ⟨by omega, le_refl _, fun k h1 h2 => by omega, Or.inl (by omega),
      fun _ h2 => by omega⟩
  | succ d ih =>
    intro j h
    simp only [scan_down]
    by_cases hb : bit (inds j) ≠ 0
    · rw [if_pos hb]
      obtain ⟨a, b, c, e, _⟩ := ih (j - 1) (by omega)
      refine ⟨a, by omega, ?_, e, fun _ _ => by omega⟩
      intro k h1 h2
      by_cases hk : k = j
      · rw [hk]; exact hb
      · exact c k h1 (by omega)
    · rw [if_neg hb]
      exact ⟨by omega, le_refl _, fun k h1 h2 => by omega, Or.inr (not_not.mp hb),
        fun h0 _ => absurd h0 hb⟩

theorem xor_swap_eq (inds : Nat → Nat) (i j : Nat) (hij : i ≠ j) :
    xor_swap inds i j = fun k => inds (Equiv.swap i j k) := by
  funext k
  have hji : j ≠ i := fun h => hij h.symm
  have e1 : (inds i ^^^ inds j) ^^^ inds j = inds i := by
    rw [Nat.xor_assoc, Nat.xor_self, Nat.xor_zero]
  have e2 : (inds i ^^^ inds j) ^^^ inds i = inds j := by
    rw [Nat.xor_comm (inds i) (inds j), Nat.xor_assoc, Nat.xor_self, Nat.xor_zero]
  unfold xor_swap
  simp only [Function.update_same, Function.update_noteq hji, Function.update_noteq hij, e1, e2]
  by_cases hki : k = i
  · subst hki
    rw [Function.update_same, Equiv.swap_apply_left]
  · rw [Function.update_noteq hki]
    by_cases hkj : k = j
    · subst hkj
      rw [Function.update_same, Equiv.swap_apply_right]
    · rw [Function.update_noteq hkj, Function.update_noteq hki,
        Equiv.swap_apply_of_ne_of_ne hki hkj]

theorem countP_range_threshold (p : Nat → Bool) (m : Nat) (n : Nat) (hmn : m ≤ n)
    (h1 : ∀ k, k < m → p k = true) (h2 : ∀ k, m ≤ k → k < n → p k = false) :
    (List.range n).countP p = m := by
  induction n with
  | zero =>
    have : m = 0 := by omega
    simp [this]
  | succ n ih =>
    rw [List.range_succ, List.countP_append]
    by_cases hm : m = n + 1
    · have hall : (List.range n).countP p = n := by
        have : ∀ x ∈ List.range n, p x = true := fun x hx =>
          h1 x (by have := List.mem_range.mp hx; omega)
        rw [List.countP_eq_length.mpr this, List.length_range]
      have hn : p n = true := h1 n (by omega)
      simp [hall, hn, hm]
    · have hle : m ≤ n := by omega
      rw [ih hle (fun k hk1 hk2 => h2 k hk1 (by omega))]
      have hn : p n = false := h2 n hle (by omega)
      simp [hn]

/-- A permutation of the natural numbers that moves only numbers below `n`. -/
theorem perm_maps_below {n : Nat} (σ : Equiv.Perm Nat) (hσ : ∀ k, n ≤ k → σ k = k) (k : Nat)
    (hk : k < n) : σ k < n := by
  by_contra hcon
  have h1 : σ (σ k) = σ k := hσ (σ k) (not_lt.mp hcon)
  have h2 : σ k = k := σ.injective h1
  omega

theorem perm_range_map {A : Type} (f : Nat → A) (n : Nat) (σ : Equiv.Perm Nat)
    (hσ : ∀ k, n ≤ k → σ k = k) :
    ((List.range n).map (fun k => f (σ k))).Perm ((List.range n).map f) := by
  have hperm : ((List.range n).map σ).Perm (List.range n) := by
    apply (List.perm_ext_iff_of_nodup
      ((List.nodup_range n).map σ.injective) (List.nodup_range n)).mpr
    intro x
    constructor
    · intro hx
      obtain ⟨k, hk, rfl⟩ := List.mem_map.mp hx
      exact List.mem_range.mpr (perm_maps_below σ hσ k (List.mem_range.mp hk))
    · intro hx
      have hxn : x < n := List.mem_range.mp hx
      have hinv : ∀ k, n ≤ k → σ.symm k = k := by
        intro k hk
        have := hσ k hk
        rw [Equiv.symm_apply_eq]
        exact this.symm
      exact List.mem_map.mpr ⟨σ.symm x,
        List.mem_range.mpr (perm_maps_below σ.symm hinv x hxn), σ.apply_symm_apply x⟩
  have := hperm.map f
  rwa [List.map_map] at this

/-- The outer loop of `split_training_data`, entered with zeros below `i` and non-zeros
above `j`, ends within `j - i + 2` rounds at a meeting index `m` with zeros below and
non-zeros above it; the array has only been permuted below `n`. -/
theorem split_loop_spec (bit : Nat → Int) (inds0 : Nat → Nat) (n : Nat) (fuel : Nat) :
    ∀ (inds : Nat → Nat) (i j : Nat) (σ : Equiv.Perm Nat),
      i ≤ j → j < n →
      (∀ k, k < i → bit (inds k) = 0) →
      (∀ k, j < k → k < n → bit (inds k) ≠ 0) →
      (∀ k, n ≤ k → σ k = k) → (inds = fun k => inds0 (σ k)) →
      j - i + 1 + (if bit (inds i) ≠ 0 ∧ bit (inds j) = 0 then 1 else 0) ≤ fuel →
      ∃ (inds1 : Nat → Nat) (m : Nat) (σ1 : Equiv.Perm Nat),
        split_loop bit fuel inds i j = some (inds1, m) ∧ m < n ∧
        (∀ k, k < m → bit (inds1 k) = 0) ∧
        (∀ k, m < k → k < n → bit (inds1 k) ≠ 0) ∧
        (∀ k, n ≤ k → σ1 k = k) ∧ (inds1 = fun k => inds0 (σ1 k)) := by
  induction fuel with
  | zero =>
    intro inds i j σ _ _ _ _ _ _ hf
    omega
  | succ fuel ih =>
    intro inds i j σ hij hjn hlo hhi hσ hinds hf
    obtain ⟨u1, u2, u3, u4, u5⟩ := scan_up_spec bit inds j (j - i) i (by omega)
    obtain ⟨d1, d2, d3, d4, d5⟩ := scan_down_spec bit inds (scan_up bit inds (j - i) i)
      (j - scan_up bit inds (j - i) i) j (by omega)
    simp only [split_loop]
    generalize scan_up bit inds (j - i) i = i1 at u1 u2 u3 u4 u5 d1 d2 d3 d4 d5 ⊢
    generalize scan_down bit inds (j - i1) j = j1 at d1 d2 d3 d4 d5 ⊢
    by_cases hmeet : i1 = j1
    · rw [if_pos hmeet]
      refine ⟨inds, _, σ, rfl, by omega, ?_, ?_, hσ, hinds⟩
      · intro k hk
        by_cases hki : k < i
        · exact hlo k hki
        · exact u3 k (by omega) hk
      · intro k hk1 hk2
        by_cases hkj : j < k
        · exact hhi k hkj hk2
        · exact d3 k (by rw [← hmeet]; exact hk1) (by omega)
    · rw [if_neg hmeet]
      have hlt : i1 < j1 := by omega
      have hbj1 : bit (inds j1) = 0 := by
        rcases d4 with h | h
        · omega
        · exact h
      have hbi1 : bit (inds i1) ≠ 0 := by
        rcases u4 with h | h
        · omega
        · exact h
      have hne : i1 ≠ j1 := by omega
      have hswap := xor_swap_eq inds i1 j1 hne
      have hs_i : xor_swap inds i1 j1 i1 = inds j1 := by
        rw [hswap]; simp only [Equiv.swap_apply_left]
      have hs_j : xor_swap inds i1 j1 j1 = inds i1 := by
        rw [hswap]; simp only [Equiv.swap_apply_right]
      have hs_o : ∀ k, k ≠ i1 → k ≠ j1 → xor_swap inds i1 j1 k = inds k := by
        intro k h1 h2
        rw [hswap]; simp only [Equiv.swap_apply_of_ne_of_ne h1 h2]
      -- the bound on the rounds
      have hfuel : j1 - i1 + 1 +
          (if bit (xor_swap inds i1 j1 i1) ≠ 0 ∧ bit (xor_swap inds i1 j1 j1) = 0 then 1
            else 0) ≤ fuel := by
        have hnot : ¬ (bit (xor_swap inds i1 j1 i1) ≠ 0 ∧ bit (xor_swap inds i1 j1 j1) = 0) := by
          rw [hs_i]
          intro h
          exact h.1 hbj1
        rw [if_neg hnot]
        by_cases hstuck : bit (inds i) ≠ 0 ∧ bit (inds j) = 0
        · rw [if_pos hstuck] at hf
          omega
        · rw [if_neg hstuck] at hf
          have hij2 : i < j := by omega
          by_cases hbi : bit (inds i) = 0
          · have := u5 hbi hij2
            omega
          · have hbj : bit (inds j) ≠ 0 := fun h => hstuck ⟨hbi, h⟩
            have := d5 hbj (by omega)
            omega
      refine ih (xor_swap inds i1 j1) i1 j1 ((Equiv.swap i1 j1).trans σ) (le_of_lt hlt)
        (by omega) ?_ ?_ ?_ ?_ hfuel
      · intro k hk
        rw [hs_o k (by omega) (by omega)]
        by_cases hki : k < i
        · exact hlo k hki
        · exact u3 k (by omega) hk
      · intro k hk1 hk2
        rw [hs_o k (by omega) (by omega)]
        by_cases hkj : j < k
        · exact hhi k hkj hk2
        · exact d3 k hk1 (by omega)
      · intro k hk
        have h1 : k ≠ i1 := by omega
        have h2 : k ≠ j1 := by omega
        rw [Equiv.trans_apply, Equiv.swap_apply_of_ne_of_ne h1 h2]
        exact hσ k hk
      · rw [hswap, hinds]
        funext k
        rw [Equiv.trans_apply]

/-- What `split_training_data` does for arbitrary test outcomes `bit`: with at least
`ninds + 1` rounds it returns, the array is permuted below `ninds` and untouched from
`ninds` on, and the zeros come first. -/
theorem split_training_data_spec (bit : Nat → Int) (inds : Nat → Nat) (ninds : Nat)
    (hn : 1 ≤ ninds) (fuel : Nat) (hfuel : ninds + 1 ≤ fuel) :
    ∃ (inds1 : Nat → Nat) (n0 : Nat) (σ : Equiv.Perm Nat),
      split_training_data bit inds ninds fuel = some (inds1, n0) ∧
      (∀ k, ninds ≤ k → σ k = k) ∧ (inds1 = fun k => inds (σ k)) ∧
      n0 ≤ ninds ∧
      (∀ k, k < n0 → bit (inds1 k) = 0) ∧
      (∀ k, n0 ≤ k → k < ninds → bit (inds1 k) ≠ 0) := by
  have hbound : ninds - 1 - 0 + 1 +
      (if bit (inds 0) ≠ 0 ∧ bit (inds (ninds - 1)) = 0 then 1 else 0) ≤ fuel := by
    split_ifs <;> omega
  obtain ⟨inds1, m, σ, hrun, hm, hlo, hhi, hσ, hinds1⟩ :=
    split_loop_spec bit inds ninds fuel inds 0 (ninds - 1) (Equiv.refl Nat) (Nat.zero_le _)
      (by omega) (fun k hk => by omega) (fun k h1 h2 => by omega) (fun k _ => rfl) rfl hbound
  have hne : ninds ≠ 0 := by omega
  by_cases hbm : bit (inds1 m) = 0
  · have hcount : (List.range ninds).countP (fun k => decide (bit (inds1 k) = 0)) = m + 1 := by
      apply countP_range_threshold _ (m + 1) ninds (by omega)
      · intro k hk
        by_cases hkm : k = m
        · rw [hkm]; exact decide_eq_true hbm
        · exact decide_eq_true (hlo k (by omega))
      · intro k hk1 hk2
        exact decide_eq_false (hhi k (by omega) hk2)
    refine ⟨inds1, m + 1, σ, ?_, hσ, hinds1, by omega, ?_, ?_⟩
    · unfold split_training_data
      rw [if_neg hne, hrun]
      simp only [hcount]
    · intro k hk
      by_cases hkm : k = m
      · rw [hkm]; exact hbm
      · exact hlo k (by omega)
    · intro k hk1 hk2
      exact hhi k (by omega) hk2
  · have hcount : (List.range ninds).countP (fun k => decide (bit (inds1 k) = 0)) = m := by
      apply countP_range_threshold _ m ninds (by omega)
      · intro k hk
        exact decide_eq_true (hlo k hk)
      · intro k hk1 hk2
        by_cases hkm : k = m
        · rw [hkm]; exact decide_eq_false hbm
        · exact decide_eq_false (hhi k (by omega) hk2)
    refine ⟨inds1, m, σ, ?_, hσ, hinds1, by omega, hlo, ?_⟩
    · unfold split_training_data
      rw [if_neg hne, hrun]
      simp only [hcount]
    · intro k hk1 hk2
      by_cases hkm : k = m
      · rw [hkm]; exact hbm
      · exact hhi k (by omega) hk2

/-- The number of zero outcomes among `inds[0 .. ninds-1]` does not change under a
permutation of these positions. -/
theorem count_zero_perm (bit : Nat → Int) (inds : Nat → Nat) (ninds : Nat)
    (σ : Equiv.Perm Nat) (hσ : ∀ k, ninds ≤ k → σ k = k) :
    (List.range ninds).countP (fun k => decide (bit (inds (σ k)) = 0)) =
      (List.range ninds).countP (fun k => decide (bit (inds k) = 0)) := by
  have h := (perm_range_map inds ninds σ hσ).countP_eq (fun v => decide (bit v = 0))
  rw [List.countP_map, List.countP_map] at h
  exact h

/-- C18. For every index array `inds` of length `ninds >= 1` and every test code,
`split_training_data` terminates (every bound of at least `ninds + 1` rounds on the outer
loop is enough), leaves `inds[0 .. ninds-1]` a permutation of its input and touches
nothing beyond, and returns `n0`, the number of samples in the array whose binary test
is `0`; `bintest` is `0` for every `inds[k]` with `k < n0` and `1` for every `inds[k]`
with `n0 <= k < ninds`. -/
theorem split_training_data_partitions (pool : Pool) (tcode : Int)
    (rs cs srs scs iinds : Nat → Int) (inds : Nat → Nat) (ninds : Nat) (hn : 1 ≤ ninds) :
    ∀ fuel, ninds + 1 ≤ fuel →
      ∃ (inds1 : Nat → Nat) (n0 : Nat),
        split_training_data (sample_bit pool tcode rs cs srs scs iinds) inds ninds fuel =
          some (inds1, n0) ∧
        ((List.range ninds).map inds1).Perm ((List.range ninds).map inds) ∧
        (∀ k, ninds ≤ k → inds1 k = inds k) ∧
        n0 = (List.range ninds).countP
          (fun k => decide (sample_bit pool tcode rs cs srs scs iinds (inds k) = 0)) ∧
        n0 ≤ ninds ∧
        (∀ k, k < n0 → bintest pool tcode (rs (inds1 k)) (cs (inds1 k)) (srs (inds1 k))
          (scs (inds1 k)) (iinds (inds1 k)) = 0) ∧
        (∀ k, n0 ≤ k → k < ninds → bintest pool tcode (rs (inds1 k)) (cs (inds1 k))
          (srs (inds1 k)) (scs (inds1 k)) (iinds (inds1 k)) = 1) := by
  intro fuel hfuel
  obtain ⟨inds1, n0, σ, hrun, hσ, hinds1, hle, hlo, hhi⟩ :=
    split_training_data_spec (sample_bit pool tcode rs cs srs scs iinds) inds ninds hn fuel hfuel
  refine ⟨inds1, n0, hrun, ?_, ?_, ?_, hle, hlo, ?_⟩
  · rw [hinds1]
    exact perm_range_map inds ninds σ hσ
  · intro k hk
    rw [hinds1]
    simp only [hσ k hk]
  · rw [← count_zero_perm _ inds ninds σ hσ]
    have hc := countP_range_threshold
      (fun k => decide (sample_bit pool tcode rs cs srs scs iinds (inds1 k) = 0)) n0 ninds hle
      (fun k hk => decide_eq_true (hlo k hk))
      (fun k hk1 hk2 => decide_eq_false (hhi k hk1 hk2))
    rw [hinds1] at hc
    exact hc.symm
  · intro k hk1 hk2
    rcases bintest_zero_or_one pool tcode (rs (inds1 k)) (cs (inds1 k)) (srs (inds1 k))
      (scs (inds1 k)) (iinds (inds1 k)) with h | h
    · exact absurd h (hhi k hk1 hk2)
    · exact h

/-- Witness for C18: five samples with test outcomes `1, 0, 1, 0, 0` and the identity
index array; the call returns `n0 = 3` with the array `4, 1, 3, 2, 0`. -/
theorem split_training_data_partitions_witness :
    1 ≤ 5 ∧
    (∃ (inds1 : Nat → Nat) (n0 : Nat),
      split_training_data (sample_bit example_pool 32512 (fun _ => 0) split_example_cs
        (fun _ => 3) (fun _ => 3) (fun _ => 0)) id 5 6 = some (inds1, n0) ∧
      ((List.range 5).map inds1).Perm ((List.range 5).map id) ∧
      (∀ k, 5 ≤ k → inds1 k = id k) ∧
      n0 = (List.range 5).countP
        (fun k => decide (sample_bit example_pool 32512 (fun _ => 0) split_example_cs
          (fun _ => 3) (fun _ => 3) (fun _ => 0) (id k) = 0)) ∧
      n0 ≤ 5 ∧
      (∀ k, k < n0 → bintest example_pool 32512 0 (split_example_cs (inds1 k)) 3 3 0 = 0) ∧
      (∀ k, n0 ≤ k → k < 5 →
        bintest example_pool 32512 0 (split_example_cs (inds1 k)) 3 3 0 = 1)) ∧
    (split_training_data split_example_bit id 5 6).map
      (fun res => ((List.range 5).map res.1, res.2)) = some ([4, 1, 3, 2, 0], 3) :=
  ⟨by decide,
   split_training_data_partitions example_pool 32512 (fun _ => 0) split_example_cs
     (fun _ => 3) (fun _ => 3) (fun _ => 0) id 5 (by decide) 6 (by decide),
   by decide⟩

/-! ## The detection runtime: connected components -/

theorem unlabelled_mono (n : Nat) (a b : Nat → Int) (h : ∀ k, a k ≠ 0 → b k ≠ 0) :
    unlabelled n b ≤ unlabelled n a := by
  unfold unlabelled
  apply Finset.card_le_card
  intro k hk
  rw [Finset.mem_filter] at hk ⊢
  refine ⟨hk.1, ?_⟩
  by_contra hcon
  exact h k hcon hk.2

theorem unlabelled_update_lt (n : Nat) (a : Nat → Int) (j : Nat) (c : Int) (hj : j < n)
    (haj : a j = 0) (hc : c ≠ 0) :
    unlabelled n (Function.update a j c) < unlabelled n a := by
  unfold unlabelled
  apply Finset.card_lt_card
  rw [Finset.ssubset_iff_of_subset]
  · refine ⟨j, ?_, ?_⟩
    · rw [Finset.mem_filter]
      exact ⟨Finset.mem_range.mpr hj, haj⟩
    · rw [Finset.mem_filter, Function.update_same]
      exact fun h => hc h.2
  · intro k hk
    rw [Finset.mem_filter] at hk ⊢
    refine ⟨hk.1, ?_⟩
    by_cases hkj : k = j
    · rw [hkj]; exact haj
    · have := hk.2
      rwa [Function.update_noteq hkj] at this

/-- The loop of `ccdfs` for node `i` with label `c`, given that the recursive calls
behave as `DfsPost` says. -/
theorem ccdfs_for_spec {K : Type} [LinearOrderedField K] (rnd : K → K)
    (rs cs ss : Nat → K) (n : Nat)
    (fuel : Nat) (rec : (Nat → Int) → Nat → Option (Nat → Int)) (c : Int) (hc : c ≠ 0)
    (hrec : ∀ (b : Nat → Int) (j : Nat), j < n → b j = c → unlabelled n b < fuel →
      ∃ b1, rec b j = some b1 ∧ DfsPost rnd rs cs ss n c j b b1)
    (a : Nat → Int) (i : Nat) (hi : i < n) (hai : a i = c) (rem : Nat) :
    ∀ (j : Nat) (b : Nat → Int), j + rem = n →
      (∀ k, a k ≠ 0 → b k = a k) →
      (∀ k, a k = 0 → b k = 0 ∨ (b k = c ∧ k < n ∧ Chained rnd rs cs ss n i k)) →
      (∀ k, k < n → a k = 0 → b k ≠ 0 → ∀ l, l < n →
        get_overlap rnd (rs k) (cs k) (ss k) (rs l) (cs l) (ss l) > rnd (3 / 10) → b l ≠ 0) →
      (∀ l, l < j → get_overlap rnd (rs i) (cs i) (ss i) (rs l) (cs l) (ss l) > rnd (3 / 10) →
        b l ≠ 0) →
      unlabelled n b ≤ fuel →
      ∃ b1, ccdfs_for rnd rs cs ss rec i rem j b = some b1 ∧ DfsPost rnd rs cs ss n c i a b1 := by
  induction rem with
  | zero =>
    intro j b hj h1 h2 h3 h4 _
    have hjn : j = n := by omega
    subst hjn
    exact ⟨b, rfl, h1, h2, h3, h4⟩
  | succ rem ih =>
    intro j b hj h1 h2 h3 h4 hf
    have hjn : j < n := by omega
    have hbi : b i = c := by rw [h1 i (by rw [hai]; exact hc), hai]
    simp only [ccdfs_for]
    by_cases hcond : b j = 0 ∧
        get_overlap rnd (rs i) (cs i) (ss i) (rs j) (cs j) (ss j) > rnd (3 / 10)
    · rw [if_pos hcond, hbi]
      obtain ⟨hbj, hov⟩ := hcond
      obtain ⟨b1, hrun, p1, p2, p3, p4⟩ := hrec (Function.update b j c) j hjn
        (Function.update_same j c b)
        (lt_of_lt_of_le (unlabelled_update_lt n b j c hjn hbj hc) hf)
      rw [hrun]
      have haj : a j = 0 := by
        by_contra hne
        exact hne (by rw [← h1 j hne]; exact hbj)
      have hb1j : b1 j = c := by
        rw [p1 j (by rw [Function.update_same]; exact hc), Function.update_same]
      have hmono : ∀ l, b l ≠ 0 → b1 l ≠ 0 := by
        intro l hl
        have hlj : l ≠ j := fun h => hl (by rw [h]; exact hbj)
        rw [p1 l (by rw [Function.update_noteq hlj]; exact hl), Function.update_noteq hlj]
        exact hl
      refine ih (j + 1) b1 (by omega) ?_ ?_ ?_ ?_ ?_
      · intro k hk
        have hkj : k ≠ j := fun h => hk (by rw [h]; exact haj)
        have hbk : b k = a k := h1 k hk
        rw [p1 k (by rw [Function.update_noteq hkj, hbk]; exact hk),
          Function.update_noteq hkj, hbk]
      · intro k hk
        by_cases hkj : k = j
        · subst hkj
          exact Or.inr ⟨hb1j, hjn,
            Relation.ReflTransGen.single ⟨hi, hjn, hov⟩⟩
        · by_cases hbk : b k = 0
          · rcases p2 k (by rw [Function.update_noteq hkj]; exact hbk) with h | ⟨e1, e2, e3⟩
            · exact Or.inl h
            · exact Or.inr ⟨e1, e2,
                Relation.ReflTransGen.head ⟨hi, hjn, hov⟩ e3⟩
          · rcases h2 k hk with h | ⟨e1, e2, e3⟩
            · exact absurd h hbk
            · refine Or.inr ⟨?_, e2, e3⟩
              rw [p1 k (by rw [Function.update_noteq hkj]; exact hbk),
                Function.update_noteq hkj, e1]
      · intro k hkn hak hb1k l hl hkl
        by_cases hkj : k = j
        · subst hkj
          exact p4 l hl hkl
        · by_cases hbk : b k = 0
          · exact p3 k hkn (by rw [Function.update_noteq hkj]; exact hbk) hb1k l hl hkl
          · exact hmono l (h3 k hkn hak hbk l hl hkl)
      · intro l hl hil
        by_cases hlj : l = j
        · rw [hlj, hb1j]; exact hc
        · exact hmono l (h4 l (by omega) hil)
      · refine le_trans (unlabelled_mono n b b1 hmono) hf
    · rw [if_neg hcond]
      refine ih (j + 1) b (by omega) h1 h2 h3 ?_ hf
      intro l hl hil
      by_cases hlj : l = j
      · subst hlj
        intro hzero
        exact hcond ⟨hzero, hil⟩
      · exact h4 l (by omega) hil

/-- A call `ccdfs(a, i, ...)` returns within a recursion depth of one more than the
number of unlabelled detections, and establishes `DfsPost`. -/
theorem ccdfs_spec {K : Type} [LinearOrderedField K] (rnd : K → K)
    (rs cs ss : Nat → K) (n : Nat)
    (c : Int) (hc : c ≠ 0) (fuel : Nat) :
    ∀ (a : Nat → Int) (i : Nat), i < n → a i = c → unlabelled n a < fuel →
      ∃ b, ccdfs rnd rs cs ss n fuel a i = some b ∧ DfsPost rnd rs cs ss n c i a b := by
  induction fuel with
  | zero =>
    intro a i _ _ h
    omega
  | succ fuel ih =>
    intro a i hi hai hf
    simp only [ccdfs]
    exact ccdfs_for_spec rnd rs cs ss n fuel (ccdfs rnd rs cs ss n fuel) c hc ih a i hi hai n 0 a
      (by omega) (fun _ _ => rfl) (fun _ h => Or.inl h)
      (fun k _ hak hbk => absurd hak hbk) (fun l hl => by omega) (by omega)

theorem adjacent_symm {K : Type} [LinearOrderedField K] (rnd : K → K)
    (rs cs ss : Nat → K) (n : Nat)
    (i j : Nat) (h : Adjacent rnd rs cs ss n i j) : Adjacent rnd rs cs ss n j i := by
  obtain ⟨h1, h2, h3⟩ := h
  refine ⟨h2, h1, ?_⟩
  rw [get_overlap_symm rnd]
  exact h3

theorem chained_symm {K : Type} [LinearOrderedField K] (rnd : K → K)
    (rs cs ss : Nat → K) (n : Nat)
    (i j : Nat) (h : Chained rnd rs cs ss n i j) : Chained rnd rs cs ss n j i := by
  unfold Chained at h ⊢
  induction h with
  | refl => exact Relation.ReflTransGen.refl
  | tail _ hbc ih => exact Relation.ReflTransGen.head (adjacent_symm rnd rs cs ss n _ _ hbc) ih

theorem unlabelled_le (n : Nat) (a : Nat → Int) : unlabelled n a ≤ n := by
  unfold unlabelled
  calc ((Finset.range n).filter (fun k => a k = 0)).card
      ≤ (Finset.range n).card := Finset.card_filter_le _ _
    _ = n := Finset.card_range n

/-- One round of the loop of `find_connected_components` that starts a new component
keeps `CompInv`. -/
theorem components_step {K : Type} [LinearOrderedField K] (rnd : K → K)
    (rs cs ss : Nat → K) (n : Nat)
    (a0 : Nat → Int) (i : Nat) (hi : i < n) (st : Labelling)
    (hinv : CompInv rnd rs cs ss n a0 i st) (hz : st.a i = 0) (b : Nat → Int)
    (hpost : DfsPost rnd rs cs ss n st.cc i (Function.update st.a i st.cc) b) :
    CompInv rnd rs cs ss n a0 (i + 1) { a := b, ncc := st.ncc + 1, cc := st.cc + 1 } := by
  obtain ⟨⟨t0a, t0b, t0c⟩, t1, t1b, t2, t3, t4, t6, t7⟩ := hinv
  obtain ⟨p1, p2, p3, p4⟩ := hpost
  have hc1 : 1 ≤ st.cc := by omega
  have hc : st.cc ≠ 0 := by omega
  have hbi : b i = st.cc := by
    rw [p1 i (by rw [Function.update_same]; exact hc), Function.update_same]
  -- detections labelled before keep their label
  have hold : ∀ k, st.a k ≠ 0 → b k = st.a k := by
    intro k hk
    have hki : k ≠ i := fun h => hk (by rw [h]; exact hz)
    rw [p1 k (by rw [Function.update_noteq hki]; exact hk), Function.update_noteq hki]
  -- detections labelled in this round get the new label and are chained to i
  have hnew : ∀ k, st.a k = 0 → b k ≠ 0 → b k = st.cc ∧ k < n ∧ Chained rnd rs cs ss n i k := by
    intro k hk hbk
    by_cases hki : k = i
    · rw [hki]
      exact ⟨hbi, hi, Relation.ReflTransGen.refl⟩
    · rcases p2 k (by rw [Function.update_noteq hki]; exact hk) with h | h
      · exact absurd h hbk
      · exact h
  have hnewnb : ∀ k, k < n → st.a k = 0 → b k ≠ 0 → ∀ l, l < n →
      get_overlap rnd (rs k) (cs k) (ss k) (rs l) (cs l) (ss l) > rnd (3 / 10) → b l ≠ 0 := by
    intro k hkn hk hbk l hl hkl
    by_cases hki : k = i
    · rw [hki] at hkl
      exact p4 l hl hkl
    · exact p3 k hkn (by rw [Function.update_noteq hki]; exact hk) hbk l hl hkl
  have hrange : ∀ k, k < n → st.a k ≠ 0 → st.a k ≤ st.ncc := by
    intro k hk hne
    rcases t1 k hk with h | h
    · exact absurd h hne
    · exact h.2
  refine ⟨⟨by simp only [t0a], by simp only; omega, by simp only; push_cast; omega⟩,
    ?_, ?_, ?_, ?_, ?_, ?_, ?_⟩
  · intro k hk
    simp only
    by_cases hak : st.a k = 0
    · by_cases hbk : b k = 0
      · exact Or.inl hbk
      · have := (hnew k hak hbk).1
        exact Or.inr (by omega)
    · have h1 := hold k hak
      rcases t1 k hk with h | h
      · exact absurd h hak
      · exact Or.inr (by omega)
  · intro k hk
    simp only
    by_cases hki : k = i
    · rw [hki, hbi]; exact hc
    · rw [hold k (t1b k (by omega))]
      exact t1b k (by omega)
  · intro c h1 h2
    simp only at h2 ⊢
    by_cases hcn : c = st.ncc + 1
    · exact ⟨i, hi, by rw [hbi, t0a, hcn]⟩
    · obtain ⟨k, hk, hkc⟩ := t2 c h1 (by omega)
      exact ⟨k, hk, by rw [hold k (by omega), hkc]⟩
  · intro k hk hbk l hl hkl
    simp only at hbk ⊢
    by_cases hak : st.a k = 0
    · have hbl := hnewnb k hk hak hbk l hl hkl
      by_cases hal : st.a l = 0
      · rw [(hnew l hal hbl).1, (hnew k hak hbk).1]
      · have hlk : get_overlap rnd (rs l) (cs l) (ss l) (rs k) (cs k) (ss k) > rnd (3 / 10) := by
          rw [get_overlap_symm rnd]; exact hkl
        have := t3 l hl hal k hk hlk
        exact absurd (by rw [← this, hak]) hal
    · rw [hold k hak, hold l (by rw [t3 k hk hak l hl hkl]; exact hak)]
      exact t3 k hk hak l hl hkl
  · intro k l hk hl hbk hkl
    simp only at hbk hkl ⊢
    by_cases hak : st.a k = 0
    · have hk1 := hnew k hak hbk
      by_cases hal : st.a l = 0
      · have hl1 := hnew l hal (by rw [← hkl]; exact hbk)
        exact Relation.ReflTransGen.trans (chained_symm rnd rs cs ss n i k hk1.2.2) hl1.2.2
      · have h1 := hold l hal
        have h2 := hrange l hl hal
        have h3 := hk1.1
        omega
    · have h1 := hold k hak
      have h2 := hrange k hk hak
      by_cases hal : st.a l = 0
      · have hl1 := hnew l hal (by rw [← hkl]; exact hbk)
        have h3 := hl1.1
        omega
      · exact t4 k l hk hl hak (by rw [← hold k hak, ← hold l hal]; exact hkl)
  · intro k hk
    simp only
    by_cases hak : st.a k = 0
    · by_cases hbk : b k = 0
      · omega
      · have h1 := (hnew k hak hbk).1
        have hik : i ≤ k := by
          by_contra hcon
          exact t1b k (by omega) hak
        omega
    · rw [hold k hak]
      exact t6 k hk
  · intro k hk
    simp only
    by_cases hak : st.a k = 0
    · by_cases hbk : b k = 0
      · rw [hbk, ← t7 k hk, hak]
      · have := (hnew k hak hbk).2.1
        omega
    · rw [hold k hak]
      exact t7 k hk

/-- The loop of `find_connected_components` returns when the recursion of `ccdfs` may be
`n` deep, and keeps `CompInv`. -/
theorem components_for_spec {K : Type} [LinearOrderedField K] (rnd : K → K)
    (rs cs ss : Nat → K)
    (n fuel : Nat) (hfuel : n ≤ fuel) (a0 : Nat → Int) (rem : Nat) :
    ∀ (i : Nat) (st : Labelling), i + rem = n → CompInv rnd rs cs ss n a0 i st →
      ∃ st1, components_for rnd rs cs ss n fuel rem i st = some st1 ∧
        CompInv rnd rs cs ss n a0 n st1 := by
  induction rem with
  | zero =>
    intro i st hi hinv
    have : i = n := by omega
    subst this
    exact ⟨st, rfl, hinv⟩
  | succ rem ih =>
    intro i st hi hinv
    have hin : i < n := by omega
    simp only [components_for]
    by_cases hz : st.a i ≠ 0
    · rw [if_pos hz]
      refine ih (i + 1) st (by omega) ?_
      obtain ⟨⟨t0a, t0b, t0c⟩, t1, t1b, t2, t3, t4, t6, t7⟩ := hinv
      refine ⟨⟨t0a, t0b, by push_cast; omega⟩, t1, ?_, t2, t3, t4, t6, t7⟩
      intro k hk
      by_cases hki : k = i
      · rw [hki]; exact hz
      · exact t1b k (by omega)
    · rw [if_neg hz]
      have hz0 : st.a i = 0 := not_not.mp hz
      have hc : st.cc ≠ 0 := by
        have := hinv.1
        omega
      have hlt : unlabelled n (Function.update st.a i st.cc) < fuel :=
        lt_of_lt_of_le (unlabelled_update_lt n st.a i st.cc hin hz0 hc)
          (le_trans (unlabelled_le n st.a) hfuel)
      obtain ⟨b, hrun, hpost⟩ := ccdfs_spec rnd rs cs ss n st.cc hc fuel
        (Function.update st.a i st.cc) i hin (Function.update_same i st.cc st.a) hlt
      rw [hrun]
      exact ih (i + 1) _ (by omega) (components_step rnd rs cs ss n a0 i hin st hinv hz0 b hpost)

/-- Detections joined by a chain carry the same label once the labelled set is closed
under adjacency. -/
theorem chained_same_label {K : Type} [LinearOrderedField K] (rnd : K → K)
    (rs cs ss : Nat → K) (n : Nat)
    (a : Nat → Int) (hlab : ∀ k, k < n → a k ≠ 0)
    (hadj : ∀ k, k < n → a k ≠ 0 → ∀ l, l < n →
      get_overlap rnd (rs k) (cs k) (ss k) (rs l) (cs l) (ss l) > rnd (3 / 10) → a l = a k)
    (k l : Nat) (h : Chained rnd rs cs ss n k l) : a k = a l := by
  unfold Chained at h
  induction h with
  | refl => rfl
  | tail _ hbc ih =>
    obtain ⟨h1, h2, h3⟩ := hbc
    rw [ih]
    exact (hadj _ h1 (hlab _ h1) _ h2 h3).symm

/-- Without adjacent pairs of distinct detections a chain joins a detection only to
itself. -/
theorem chained_eq_of_no_edges {K : Type} [LinearOrderedField K] (rnd : K → K)
    (rs cs ss : Nat → K)
    (n : Nat)
    (hno : ∀ k l, k < n → l < n → k ≠ l →
      ¬ get_overlap rnd (rs k) (cs k) (ss k) (rs l) (cs l) (ss l) > rnd (3 / 10))
    (k l : Nat) (h : Chained rnd rs cs ss n k l) : k = l := by
  unfold Chained at h
  induction h with
  | refl => rfl
  | tail _ hbc ih =>
    obtain ⟨h1, h2, h3⟩ := hbc
    rw [ih]
    by_contra hne
    exact hno _ _ h1 h2 hne h3

/-- Pairwise different labels in `1..ncc` on `n` detections need `n <= ncc`. -/
theorem labels_injective_bound (n : Nat) (a : Nat → Int) (ncc : Int) (h0 : 0 ≤ ncc)
    (hrange : ∀ k, k < n → 1 ≤ a k ∧ a k ≤ ncc)
    (hinj : ∀ k l, k < n → l < n → a k = a l → k = l) : (n : Int) ≤ ncc := by
  have hcard : (Finset.range n).card ≤ (Finset.Icc 1 ncc.toNat).card := by
    apply Finset.card_le_card_of_injOn (fun k => (a k).toNat)
    · intro k hk
      have hk1 := hrange k (Finset.mem_range.mp hk)
      rw [Finset.mem_Icc]
      constructor <;> omega
    · intro k hk l hl hkl
      have hk2 : k < n := Finset.mem_range.mp (Finset.mem_coe.mp hk)
      have hl2 : l < n := Finset.mem_range.mp (Finset.mem_coe.mp hl)
      have hk1 := hrange k hk2
      have hl1 := hrange l hl2
      apply hinj k l hk2 hl2
      simp only at hkl
      omega
  rw [Finset.card_range, Nat.card_Icc] at hcard
  omega

/-- What `find_connected_components` returns on `n` detections when `ccdfs` may recurse
`fuel >= n` deep. -/
theorem find_connected_components_spec {K : Type} [LinearOrderedField K] (rnd : K → K)
    (a0 : Nat → Int)
    (rs cs ss : Nat → K) (n fuel : Nat) (hfuel : n ≤ fuel) :
    ∃ (a : Nat → Int) (ncc : Int),
      find_connected_components rnd a0 rs cs ss n fuel = some (a, ncc) ∧
      (n = 0 → ncc = 0) ∧ 0 ≤ ncc ∧ ncc ≤ n ∧
      (∀ k, k < n → 1 ≤ a k ∧ a k ≤ ncc) ∧
      (∀ c, 1 ≤ c → c ≤ ncc → ∃ k, k < n ∧ a k = c) ∧
      (∀ k l, k < n → l < n → (a k = a l ↔ Chained rnd rs cs ss n k l)) ∧
      (∀ k, k < n → a k ≤ k + 1) ∧
      (∀ k, n ≤ k → a k = a0 k) := by
  by_cases hn : n = 0
  · subst hn
    refine ⟨a0, 0, ?_, fun _ => rfl, le_refl _, by simp, fun k hk => by omega,
      fun c h1 h2 => by omega, fun k l hk => by omega, fun k hk => by omega, fun _ _ => rfl⟩
    simp [find_connected_components]
  · have hinit : CompInv rnd rs cs ss n a0 0
        { a := fun k => if k < n then 0 else a0 k, ncc := 0, cc := 1 } := by
      refine ⟨⟨rfl, le_refl _, by simp⟩, ?_, ?_, ?_, ?_, ?_, ?_, ?_⟩
      · intro k hk
        exact Or.inl (if_pos hk)
      · intro k hk
        omega
      · intro c h1 h2
        simp only at h2
        omega
      · intro k hk hne
        exact absurd (if_pos hk) hne
      · intro k l hk _ hne
        exact absurd (if_pos hk) hne
      · intro k hk
        simp only [if_pos hk]
        omega
      · intro k hk
        simp only
        rw [if_neg (by omega)]
    obtain ⟨st, hrun, ⟨_, t0b, t0c⟩, t1, t1b, t2, t3, t4, t6, t7⟩ :=
      components_for_spec rnd rs cs ss n fuel hfuel a0 n 0 _ (by omega) hinit
    have hlab : ∀ k, k < n → st.a k ≠ 0 := t1b
    have hrange : ∀ k, k < n → 1 ≤ st.a k ∧ st.a k ≤ st.ncc := by
      intro k hk
      rcases t1 k hk with h | h
      · exact absurd h (hlab k hk)
      · exact h
    refine ⟨st.a, st.ncc, ?_, fun h => absurd h hn, t0b, t0c, hrange, t2, ?_, t6, t7⟩
    · unfold find_connected_components
      rw [if_neg hn]
      simp only [hrun]
    · intro k l hk hl
      exact ⟨fun h => t4 k l hk hl (hlab k hk) h,
        fun h => chained_same_label rnd rs cs ss n st.a hlab t3 k l h⟩

/-- C13 (amended). For every list of `n` detections, `find_connected_components`
terminates (a recursion depth of `n` for `ccdfs` is enough), gives every detection a label
in `1..ncc` with every label in `1..ncc` used by at least one detection, returns `ncc`,
and gives two detections the same label iff they are joined by a chain of detections in
which each consecutive pair passes the test of the program: the value of `get_overlap` as
the machine computes it in `float`, every operation rounded by `rnd`, exceeds `0.3f`, the
rounding of `0.3`; when no two distinct detections pass that test it returns `ncc = n`,
and for `n = 0` it returns `0`. -/
theorem find_connected_components_contract {K : Type} [LinearOrderedField K]
    (rnd : K → K) (a0 : Nat → Int) (rs cs ss : Nat → K) (n : Nat) :
    ∀ fuel, n ≤ fuel →
      ∃ (a : Nat → Int) (ncc : Int),
        find_connected_components rnd a0 rs cs ss n fuel = some (a, ncc) ∧
        (∀ k, k < n → 1 ≤ a k ∧ a k ≤ ncc) ∧
        (∀ c, 1 ≤ c → c ≤ ncc → ∃ k, k < n ∧ a k = c) ∧
        (∀ k l, k < n → l < n → (a k = a l ↔ Chained rnd rs cs ss n k l)) ∧
        ((∀ k l, k < n → l < n → k ≠ l →
          ¬ get_overlap rnd (rs k) (cs k) (ss k) (rs l) (cs l) (ss l) > rnd (3 / 10)) →
          ncc = n) ∧
        (n = 0 → ncc = 0) := by
  intro fuel hfuel
  obtain ⟨a, ncc, hrun, h0, hnn, hle, hrange, hused, hiff, _, _⟩ :=
    find_connected_components_spec rnd a0 rs cs ss n fuel hfuel
  refine ⟨a, ncc, hrun, hrange, hused, hiff, ?_, h0⟩
  intro hno
  apply le_antisymm hle
  apply labels_injective_bound n a ncc hnn hrange
  intro k l hk hl hkl
  exact chained_eq_of_no_edges rnd rs cs ss n hno k l ((hiff k l hk hl).mp hkl)

theorem round32_example_quotient : round32 (294 / 331) = 14901817 / 16777216 := by
  have h := round32_eval (294 / 331) (-1) 14901817 (by norm_num)
    (by norm_num [abs_of_pos]) (by norm_num [abs_of_pos]) (by norm_num) (by norm_num)
  rw [h]
  norm_num

/-- The overlaps of the example detections in binary32 arithmetic. -/
theorem example_overlaps :
    get_overlap round32 (100 : ℚ) 100 50 102 101 50 = 14901817 / 16777216 ∧
    get_overlap round32 (100 : ℚ) 100 50 300 300 50 = 0 ∧
    get_overlap round32 (102 : ℚ) 101 50 300 300 50 = 0 ∧
    get_overlap round32 (300 : ℚ) 300 50 100 100 50 = 0 ∧
    get_overlap round32 (300 : ℚ) 300 50 102 101 50 = 0 := by
  refine ⟨?_, ?_, ?_, ?_, ?_⟩ <;> simp only [get_overlap, FMAX_eq_max, FMIN_eq_min] <;>
    norm_num [round32_ofNat, round32_neg_ofNat, round32_zero, round32_example_quotient]

/-- The labels of the three example detections, for a rounding under which the first two
pass the test of `ccdfs` and the third passes it with neither: the first two form
component `1`, the third is component `2`. -/
theorem example_components (rnd : ℚ → ℚ) (a0 : Nat → Int)
    (h01 : get_overlap rnd (100 : ℚ) 100 50 102 101 50 > rnd (3 / 10))
    (h02 : ¬ get_overlap rnd (100 : ℚ) 100 50 300 300 50 > rnd (3 / 10))
    (h12 : ¬ get_overlap rnd (102 : ℚ) 101 50 300 300 50 > rnd (3 / 10))
    (h20 : ¬ get_overlap rnd (300 : ℚ) 300 50 100 100 50 > rnd (3 / 10))
    (h21 : ¬ get_overlap rnd (300 : ℚ) 300 50 102 101 50 > rnd (3 / 10)) :
    (find_connected_components rnd a0 (example_detections : Detections ℚ).rs
      example_detections.cs example_detections.ss 3 3).map
      (fun res => ((List.range 3).map res.1, res.2)) = some ([1, 1, 2], 2) := by
  simp only [gt_iff_lt] at h01 h02 h12 h20 h21
  norm_num [find_connected_components, components_for, ccdfs, ccdfs_for, example_detections,
    Function.update, h01, h02, h12, h20, h21, List.range_succ]

theorem example_tests :
    get_overlap round32 (100 : ℚ) 100 50 102 101 50 > round32 (3 / 10) ∧
    ¬ get_overlap round32 (100 : ℚ) 100 50 300 300 50 > round32 (3 / 10) ∧
    ¬ get_overlap round32 (102 : ℚ) 101 50 300 300 50 > round32 (3 / 10) ∧
    ¬ get_overlap round32 (300 : ℚ) 300 50 100 100 50 > round32 (3 / 10) ∧
    ¬ get_overlap round32 (300 : ℚ) 300 50 102 101 50 > round32 (3 / 10) := by
  obtain ⟨e1, e2, e3, e4, e5⟩ := example_overlaps
  rw [e1, e2, e3, e4, e5, round32_three_tenths]
  norm_num

/-- Witness for C13 (amended): the three example detections in binary32 arithmetic with a
recursion depth of `3`; the call returns `ncc = 2` with the labels `1, 1, 2`. -/
theorem find_connected_components_contract_witness :
    3 ≤ 3 ∧
    (∃ (a : Nat → Int) (ncc : Int),
      find_connected_components round32 (fun _ => 0) (example_detections : Detections ℚ).rs
        example_detections.cs example_detections.ss 3 3 = some (a, ncc) ∧
      (∀ k, k < 3 → 1 ≤ a k ∧ a k ≤ ncc) ∧
      (∀ c, 1 ≤ c → c ≤ ncc → ∃ k, k < 3 ∧ a k = c) ∧
      (∀ k l, k < 3 → l < 3 → (a k = a l ↔
        Chained round32 (example_detections : Detections ℚ).rs example_detections.cs
          example_detections.ss 3 k l)) ∧
      ((∀ k l, k < 3 → l < 3 → k ≠ l →
        ¬ get_overlap round32 ((example_detections : Detections ℚ).rs k)
          (example_detections.cs k) (example_detections.ss k) (example_detections.rs l)
          (example_detections.cs l) (example_detections.ss l) > round32 (3 / 10)) →
        ncc = (3 : Nat)) ∧
      (3 = 0 → ncc = 0)) ∧
    (find_connected_components round32 (fun _ => 0) (example_detections : Detections ℚ).rs
      example_detections.cs example_detections.ss 3 3).map
      (fun res => ((List.range 3).map res.1, res.2)) = some ([1, 1, 2], 2) :=
  ⟨le_refl 3,
   find_connected_components_contract round32 (fun _ => 0)
     (example_detections : Detections ℚ).rs example_detections.cs example_detections.ss 3 3
     (le_refl 3),
   example_components round32 (fun _ => 0) example_tests.1 example_tests.2.1
     example_tests.2.2.1 example_tests.2.2.2.1 example_tests.2.2.2.2⟩

theorem round32_close_quotient : round32 (1689793 / 5632643) = 5033165 / 16777216 := by
  have h := round32_eval (1689793 / 5632643) (-2) 10066330 (by norm_num)
    (by norm_num [abs_of_pos]) (by norm_num [abs_of_pos]) (by norm_num) (by norm_num)
  rw [h]
  norm_num

theorem close_overlap_rounded :
    get_overlap round32 (0 : ℚ) 0 2706 1000 725 2706 = 5033165 / 16777216 := by
  simp only [get_overlap, FMAX_eq_max, FMIN_eq_min]
  norm_num [round32_ofNat, round32_neg_ofNat, round32_zero, round32_close_quotient]

/-- The labels of the two close detections, for a rounding under which they fail the test
of `ccdfs`: two components. -/
theorem close_components (rnd : ℚ → ℚ) (a0 : Nat → Int)
    (h : ¬ get_overlap rnd (0 : ℚ) 0 2706 1000 725 2706 > rnd (3 / 10)) :
    (find_connected_components rnd a0 close_detections.rs close_detections.cs
      close_detections.ss 2 2).map
      (fun res => ((List.range 2).map res.1, res.2)) = some ([1, 2], 2) := by
  simp only [gt_iff_lt] at h
  norm_num [find_connected_components, components_for, ccdfs, ccdfs_for, close_detections,
    Function.update, h, List.range_succ]

/-- Counterexample to C13 as stated: the two detections `(0, 0, 2706)` and
`(1000, 725, 2706)` have `get_overlap = 3379586 / 11265286 > 0.3`, so they are joined by
a chain of length one and the claim gives them one label; in binary32 arithmetic the
quotient rounds to `0.3f`, the very value it is compared with, the test
`get_overlap(...) > 0.3f` fails, and `find_connected_components` returns two components
with the labels `1` and `2`. -/
theorem find_connected_components_rounding_counterexample :
    get_overlap (fun x => x) (0 : ℚ) 0 2706 1000 725 2706 = 3379586 / 11265286 ∧
    (3379586 / 11265286 : ℚ) > 3 / 10 ∧
    Chained (fun x => x) close_detections.rs close_detections.cs close_detections.ss 2 0 1 ∧
    get_overlap round32 (0 : ℚ) 0 2706 1000 725 2706 = round32 (3 / 10) ∧
    (find_connected_components round32 (fun _ => 0) close_detections.rs close_detections.cs
      close_detections.ss 2 2).map
      (fun res => ((List.range 2).map res.1, res.2)) = some ([1, 2], 2) := by
  have hex : get_overlap (fun x => x) (0 : ℚ) 0 2706 1000 725 2706 = 3379586 / 11265286 := by
    simp only [get_overlap, FMAX_eq_max, FMIN_eq_min]
    norm_num
  have hr : get_overlap round32 (0 : ℚ) 0 2706 1000 725 2706 = round32 (3 / 10) := by
    rw [close_overlap_rounded, round32_three_tenths]
  refine ⟨hex, by norm_num, ?_, hr, ?_⟩
  · apply Relation.ReflTransGen.single
    refine ⟨by decide, by decide, ?_⟩
    have e : get_overlap (fun x => x) (close_detections.rs 0) (close_detections.cs 0)
        (close_detections.ss 0) (close_detections.rs 1) (close_detections.cs 1)
        (close_detections.ss 1) = get_overlap (fun x => x) (0 : ℚ) 0 2706 1000 725 2706 := by
      simp [close_detections]
    rw [e, hex]
    norm_num
  · exact close_components round32 (fun _ => 0) (by rw [hr]; exact lt_irrefl _)

/-! ## The detection runtime: clustering -/

theorem cluster_sums_spec {K : Type} [LinearOrderedField K] (a : Nat → Int)
    (d : Detections K) (cc : Int) (rem : Nat) :
    ∀ (i : Nat) (s : ClusterSums K),
      cluster_sums a d cc rem i s =
        { sumqs := s.sumqs +
            (((List.range' i rem).filter (fun i => decide (a i = cc))).map d.qs).sum
          sumrs := s.sumrs +
            (((List.range' i rem).filter (fun i => decide (a i = cc))).map d.rs).sum
          sumcs := s.sumcs +
            (((List.range' i rem).filter (fun i => decide (a i = cc))).map d.cs).sum
          sumss := s.sumss +
            (((List.range' i rem).filter (fun i => decide (a i = cc))).map d.ss).sum
          k := s.k + (((List.range' i rem).filter (fun i => decide (a i = cc))).length : Int) } := by
  induction rem with
  | zero =>
    intro i s
    simp [cluster_sums]
  | succ rem ih =>
    intro i s
    simp only [cluster_sums, List.range'_succ]
    by_cases h : a i = cc
    · rw [if_neg (not_not.mpr h), ih, List.filter_cons_of_pos (by simp [h])]
      simp only [List.map_cons, List.sum_cons, List.length_cons, add_assoc]
      congr 1
      push_cast
      ring
    · rw [if_pos h, ih, List.filter_cons_of_neg (by simp [h])]

/-- The accumulators after the inner loop of `cluster_detections`. -/
theorem cluster_sums_members {K : Type} [LinearOrderedField K] (a : Nat → Int)
    (d : Detections K) (cc : Int) (n : Nat) :
    cluster_sums a d cc n 0 { sumqs := 0, sumrs := 0, sumcs := 0, sumss := 0, k := 0 } =
      { sumqs := member_sum a n cc d.qs, sumrs := member_sum a n cc d.rs,
        sumcs := member_sum a n cc d.cs, sumss := member_sum a n cc d.ss,
        k := ((members a n cc).length : Int) } := by
  rw [cluster_sums_spec]
  simp only [member_sum, members, List.range_eq_range', zero_add]

/-- The sum over the members of a component reads only positions from `c - 1` on when
`a[i] <= i + 1`. -/
theorem member_sum_congr {K : Type} [LinearOrderedField K] (a : Nat → Int) (n : Nat)
    (ha : ∀ i, i < n → a i ≤ i + 1) (idx : Nat) (x y : Nat → K)
    (hxy : ∀ k, idx ≤ k → x k = y k) :
    member_sum a n ((idx : Int) + 1) x = member_sum a n ((idx : Int) + 1) y := by
  unfold member_sum
  congr 1
  apply List.map_congr_left
  intro i hi
  unfold members at hi
  rw [List.mem_filter] at hi
  have h1 := ha i (List.mem_range.mp hi.1)
  have h2 : a i = (idx : Int) + 1 := of_decide_eq_true hi.2
  exact hxy i (by omega)

/-- The outer loop of `cluster_detections`, entered at `cc = idx + 1` with the arrays
unchanged from position `idx` on: it runs `rem` rounds, leaves the positions below `idx`
and from `idx + rem` on alone, and stores at position `j` the sum and the means over
component `j + 1` of the original arrays `d`. -/
theorem cluster_for_spec {K : Type} [LinearOrderedField K] (a : Nat → Int) (n : Nat)
    (ha : ∀ i, i < n → a i ≤ i + 1) (d : Detections K) (rem : Nat) :
    ∀ (idx : Nat) (dcur : Detections K),
      (∀ k, idx ≤ k → dcur.qs k = d.qs k ∧ dcur.rs k = d.rs k ∧ dcur.cs k = d.cs k ∧
        dcur.ss k = d.ss k) →
      (cluster_for a n rem ((idx : Int) + 1) idx dcur).2 = idx + rem ∧
      (∀ k, k < idx →
        (cluster_for a n rem ((idx : Int) + 1) idx dcur).1.qs k = dcur.qs k ∧
        (cluster_for a n rem ((idx : Int) + 1) idx dcur).1.rs k = dcur.rs k ∧
        (cluster_for a n rem ((idx : Int) + 1) idx dcur).1.cs k = dcur.cs k ∧
        (cluster_for a n rem ((idx : Int) + 1) idx dcur).1.ss k = dcur.ss k) ∧
      (∀ k, idx + rem ≤ k →
        (cluster_for a n rem ((idx : Int) + 1) idx dcur).1.qs k = d.qs k ∧
        (cluster_for a n rem ((idx : Int) + 1) idx dcur).1.rs k = d.rs k ∧
        (cluster_for a n rem ((idx : Int) + 1) idx dcur).1.cs k = d.cs k ∧
        (cluster_for a n rem ((idx : Int) + 1) idx dcur).1.ss k = d.ss k) ∧
      (∀ j, idx ≤ j → j < idx + rem →
        (cluster_for a n rem ((idx : Int) + 1) idx dcur).1.qs j =
          member_sum a n ((j : Int) + 1) d.qs ∧
        (cluster_for a n rem ((idx : Int) + 1) idx dcur).1.rs j =
          member_mean a n ((j : Int) + 1) d.rs ∧
        (cluster_for a n rem ((idx : Int) + 1) idx dcur).1.cs j =
          member_mean a n ((j : Int) + 1) d.cs ∧
        (cluster_for a n rem ((idx : Int) + 1) idx dcur).1.ss j =
          member_mean a n ((j : Int) + 1) d.ss) := by
  induction rem with
  | zero =>
    intro idx dcur hag
    exact ⟨rfl, fun k _ => ⟨rfl, rfl, rfl, rfl⟩, hag, fun j h1 h2 => by omega⟩
  | succ rem ih =>
    intro idx dcur hag
    have hcc : (idx : Int) + 1 + 1 = ((idx + 1 : Nat) : Int) + 1 := by push_cast; ring
    have eqs := member_sum_congr a n ha idx dcur.qs d.qs (fun k hk => (hag k hk).1)
    have ers := member_sum_congr a n ha idx dcur.rs d.rs (fun k hk => (hag k hk).2.1)
    have ecs := member_sum_congr a n ha idx dcur.cs d.cs (fun k hk => (hag k hk).2.2.1)
    have ess := member_sum_congr a n ha idx dcur.ss d.ss (fun k hk => (hag k hk).2.2.2)
    simp only [cluster_for, cluster_sums_members, eqs, ers, ecs, ess, Int.cast_natCast, hcc]
    obtain ⟨i1, i2, i3, i4⟩ := ih (idx + 1)
      { qs := Function.update dcur.qs idx (member_sum a n ((idx : Int) + 1) d.qs)
        rs := Function.update dcur.rs idx
          (member_sum a n ((idx : Int) + 1) d.rs / ((members a n ((idx : Int) + 1)).length : K))
        cs := Function.update dcur.cs idx
          (member_sum a n ((idx : Int) + 1) d.cs / ((members a n ((idx : Int) + 1)).length : K))
        ss := Function.update dcur.ss idx
          (member_sum a n ((idx : Int) + 1) d.ss / ((members a n ((idx : Int) + 1)).length : K)) }
      (by
        intro k hk
        have hki : k ≠ idx := by omega
        simp only [Function.update_noteq hki]
        exact hag k (by omega))
    refine ⟨by rw [i1]; omega, ?_, ?_, ?_⟩
    · intro k hk
      have hki : k ≠ idx := by omega
      have := i2 k (by omega)
      simp only [Function.update_noteq hki] at this
      exact this
    · intro k hk
      exact i3 k (by omega)
    · intro j hj1 hj2
      by_cases hji : j = idx
      · subst hji
        have := i2 j (by omega)
        simp only [Function.update_same] at this
        exact this
      · exact i4 j (by omega) (by omega)

/-- C12. For every list of `n` detections (exact arithmetic in the sums and means,
whatever the rounding `rnd` in the overlap test of `ccdfs`; the arrays of the embedding
are unbounded, so the bound `n <= 4096` of the local label array is not needed),
`cluster_detections` returns the number `ncc` of connected components found by
`find_connected_components` and, for each component `j + 1` in `1..ncc`, stores at output
position `j` the sum of `q` and the arithmetic means of `r`, `c` and `s` over that
component's members as they were in the original input arrays; no component is empty, so
no mean divides by zero; positions from `ncc` on are left alone. -/
theorem cluster_detections_contract {K : Type} [LinearOrderedField K] (rnd : K → K)
    (a0 : Nat → Int) (d : Detections K) (n : Nat) :
    ∀ fuel, n ≤ fuel →
      ∃ (a : Nat → Int) (ncc : Int) (d1 : Detections K),
        find_connected_components rnd a0 d.rs d.cs d.ss n fuel = some (a, ncc) ∧
        cluster_detections rnd a0 d n fuel = some (d1, ncc) ∧
        (∀ j : Nat, (j : Int) < ncc →
          members a n ((j : Int) + 1) ≠ [] ∧
          d1.qs j = member_sum a n ((j : Int) + 1) d.qs ∧
          d1.rs j = member_mean a n ((j : Int) + 1) d.rs ∧
          d1.cs j = member_mean a n ((j : Int) + 1) d.cs ∧
          d1.ss j = member_mean a n ((j : Int) + 1) d.ss) ∧
        (∀ k : Nat, ncc ≤ (k : Int) →
          d1.qs k = d.qs k ∧ d1.rs k = d.rs k ∧ d1.cs k = d.cs k ∧ d1.ss k = d.ss k) := by
  intro fuel hfuel
  obtain ⟨a, ncc, hrun, _, hnn, _, _, hused, _, hle, _⟩ :=
    find_connected_components_spec rnd a0 d.rs d.cs d.ss n fuel hfuel
  have hne : ∀ j : Nat, (j : Int) < ncc → members a n ((j : Int) + 1) ≠ [] := by
    intro j hj
    obtain ⟨k, hk, hak⟩ := hused ((j : Int) + 1) (by omega) (by omega)
    apply List.ne_nil_of_mem (a := k)
    unfold members
    rw [List.mem_filter]
    exact ⟨List.mem_range.mpr hk, decide_eq_true hak⟩
  by_cases h0 : ncc = 0
  · refine ⟨a, ncc, d, hrun, ?_, fun j hj => by omega, fun k _ => ⟨rfl, rfl, rfl, rfl⟩⟩
    unfold cluster_detections
    rw [hrun]
    simp only [if_pos h0]
    rw [h0]
  · have hone : (1 : Int) = ((0 : Nat) : Int) + 1 := by norm_num
    obtain ⟨c1, _, c3, c4⟩ := cluster_for_spec a n hle d ncc.toNat 0 d
      (fun k _ => ⟨rfl, rfl, rfl, rfl⟩)
    rw [← hone] at c1 c3 c4
    refine ⟨a, ncc, (cluster_for a n ncc.toNat 1 0 d).1, hrun, ?_, ?_, ?_⟩
    · unfold cluster_detections
      rw [hrun]
      simp only [if_neg h0, c1]
      congr 2
      omega
    · intro j hj
      exact ⟨hne j hj, c4 j (Nat.zero_le j) (by omega)⟩
    · intro k hk
      exact c3 k (by omega)

/-- The two detections of the scenario "clustering" collapse into one (exact
arithmetic). -/
theorem example_cluster (a0 : Nat → Int) :
    (cluster_detections (fun x => x) a0 (example_detections : Detections ℚ) 2 2).map
      (fun res => (res.1.rs 0, res.1.cs 0, res.1.ss 0, res.1.qs 0, res.2)) =
      some (101, 201 / 2, 50, 3, 1) := by
  have e1 : get_overlap (fun x => x) (100 : ℚ) 100 50 102 101 50 = 294 / 331 := by
    simp only [get_overlap, FMAX_eq_max, FMIN_eq_min]
    norm_num
  norm_num [cluster_detections, cluster_for, cluster_sums, find_connected_components,
    components_for, ccdfs, ccdfs_for, example_detections, Function.update, e1]

/-- Witness for C12: the detections `(100, 100, 50, 1.0)` and `(102, 101, 50, 2.0)`
collapse to the single detection `(101, 100.5, 50, 3.0)`. -/
theorem cluster_detections_contract_witness :
    2 ≤ 2 ∧
    (∃ (a : Nat → Int) (ncc : Int) (d1 : Detections ℚ),
      find_connected_components (fun x => x) (fun _ => 0) (example_detections : Detections ℚ).rs
        example_detections.cs example_detections.ss 2 2 = some (a, ncc) ∧
      cluster_detections (fun x => x) (fun _ => 0) (example_detections : Detections ℚ) 2 2 =
        some (d1, ncc) ∧
      (∀ j : Nat, (j : Int) < ncc →
        members a 2 ((j : Int) + 1) ≠ [] ∧
        d1.qs j = member_sum a 2 ((j : Int) + 1) (example_detections : Detections ℚ).qs ∧
        d1.rs j = member_mean a 2 ((j : Int) + 1) (example_detections : Detections ℚ).rs ∧
        d1.cs j = member_mean a 2 ((j : Int) + 1) (example_detections : Detections ℚ).cs ∧
        d1.ss j = member_mean a 2 ((j : Int) + 1) (example_detections : Detections ℚ).ss) ∧
      (∀ k : Nat, ncc ≤ (k : Int) →
        d1.qs k = (example_detections : Detections ℚ).qs k ∧
        d1.rs k = (example_detections : Detections ℚ).rs k ∧
        d1.cs k = (example_detections : Detections ℚ).cs k ∧
        d1.ss k = (example_detections : Detections ℚ).ss k)) ∧
    (cluster_detections (fun x => x) (fun _ => 0) (example_detections : Detections ℚ) 2 2).map
      (fun res => (res.1.rs 0, res.1.cs 0, res.1.ss 0, res.1.qs 0, res.2)) =
      some (101, 201 / 2, 50, 3, 1) :=
  ⟨le_refl 2,
   cluster_detections_contract (fun x => x) (fun _ => 0) (example_detections : Detections ℚ) 2 2
     (le_refl 2),
   example_cluster (fun _ => 0)⟩

/-! ## The tree trainer: `grow_subtree` -/

theorem apply_writes_append {V : Type} (l1 l2 : List (Int × V)) (f : Int → V) :
    apply_writes (l1 ++ l2) f = apply_writes l2 (apply_writes l1 f) := by
  unfold apply_writes
  rw [List.foldl_append]

theorem apply_writes_not_mem {V : Type} (l : List (Int × V)) :
    ∀ (f : Int → V) (y : Int), y ∉ l.map Prod.fst → apply_writes l f y = f y := by
  induction l with
  | nil =>
    intro f y _
    rfl
  | cons e l ih =>
    intro f y hy
    rw [List.map_cons, List.mem_cons, not_or] at hy
    show apply_writes l (Function.update f e.1 e.2) y = f y
    rw [ih _ y hy.2, Function.update_noteq hy.1]

/-- When every slot is stored once, the array holds at each stored slot the value stored
there. -/
theorem apply_writes_mem {V : Type} (l : List (Int × V)) :
    ∀ (f : Int → V), (l.map Prod.fst).Nodup → ∀ e, e ∈ l → apply_writes l f e.1 = e.2 := by
  induction l with
  | nil =>
    intro f _ e he
    exact absurd he (List.not_mem_nil e)
  | cons e0 l ih =>
    intro f hnd e he
    rw [List.map_cons, List.nodup_cons] at hnd
    show apply_writes l (Function.update f e0.1 e0.2) e.1 = e.2
    rcases List.mem_cons.mp he with h | h
    · rw [h, apply_writes_not_mem l _ e0.1 hnd.1, Function.update_same]
    · exact ih _ hnd.2 e h

theorem subset_of_congr (a b : Nat → Nat) (off ninds : Nat)
    (h : ∀ k, k < ninds → a (off + k) = b (off + k)) :
    subset_of a off ninds = subset_of b off ninds := by
  unfold subset_of
  apply List.map_congr_left
  intro k hk
  exact h k (List.mem_range.mp hk)

theorem mem_subset_of (a : Nat → Nat) (off ninds : Nat) (v : Nat) :
    v ∈ subset_of a off ninds ↔ ∃ k, k < ninds ∧ a (off + k) = v := by
  unfold subset_of
  rw [List.mem_map]
  constructor
  · rintro ⟨k, hk, rfl⟩
    exact ⟨k, List.mem_range.mp hk, rfl⟩
  · rintro ⟨k, hk, rfl⟩
    exact ⟨k, List.mem_range.mpr hk, rfl⟩

theorem subset_of_split (a : Nat → Nat) (off n0 ninds : Nat) (h : n0 ≤ ninds) :
    subset_of a off ninds = subset_of a off n0 ++ subset_of a (off + n0) (ninds - n0) := by
  unfold subset_of
  have hn : ninds = n0 + (ninds - n0) := by omega
  conv_lhs => rw [hn, List.range_add, List.map_append, List.map_map]
  congr 1
  apply List.map_congr_left
  intro k _
  simp only [Function.comp, Nat.add_assoc]

theorem walk_from_walk_idx (bit : Int → Int) (h : Nat) :
    ∀ j, walk_from bit h (walk_idx bit j) = walk_idx bit (j + h) := by
  induction h with
  | zero =>
    intro j
    rfl
  | succ h ih =>
    intro j
    have := ih (j + 1)
    rw [walk_idx] at this
    rw [walk_from, this]
    congr 1
    omega

theorem walk_idx_eq_walk_from (bit : Int → Int) (D : Nat) :
    walk_idx bit D = walk_from bit D 1 := by
  have := walk_from_walk_idx bit D 0
  rw [Nat.zero_add] at this
  rw [← this]
  rfl

theorem subtree_slots_length (h : Nat) : ∀ x, (subtree_slots h x).length = 2 ^ h - 1 := by
  induction h with
  | zero =>
    intro x
    rfl
  | succ h ih =>
    intro x
    simp only [subtree_slots, List.length_cons, List.length_append, ih]
    have hp : 0 < 2 ^ h := Nat.pow_pos (by norm_num)
    rw [pow_succ]
    omega

/-- Slot `y` is visited below node `x` iff the 1-based index `y + 1` has `x + 1` as its
ancestor fewer than `h` levels up. -/
theorem mem_subtree_slots (h : Nat) :
    ∀ x y, y ∈ subtree_slots h x ↔ ∃ t, t < h ∧ (y + 1) / 2 ^ t = x + 1 := by
  induction h with
  | zero =>
    intro x y
    simp [subtree_slots]
  | succ h ih =>
    intro x y
    simp only [subtree_slots, List.mem_cons, List.mem_append, ih]
    constructor
    · rintro (h0 | ⟨t, ht, he⟩ | ⟨t, ht, he⟩)
      · exact ⟨0, by omega, by rw [h0, pow_zero, Nat.div_one]⟩
      · refine ⟨t + 1, by omega, ?_⟩
        rw [pow_succ, ← Nat.div_div_eq_div_mul, he]
        omega
      · refine ⟨t + 1, by omega, ?_⟩
        rw [pow_succ, ← Nat.div_div_eq_div_mul, he]
        omega
    · rintro ⟨t, ht, he⟩
      cases t with
      | zero =>
        rw [pow_zero, Nat.div_one] at he
        exact Or.inl (by omega)
      | succ t =>
        rw [pow_succ, ← Nat.div_div_eq_div_mul] at he
        have : (y + 1) / 2 ^ t = 2 * x + 1 + 1 ∨ (y + 1) / 2 ^ t = 2 * x + 2 + 1 := by omega
        rcases this with h1 | h1
        · exact Or.inr (Or.inl ⟨t, by omega, h1⟩)
        · exact Or.inr (Or.inr ⟨t, by omega, h1⟩)

/-- Going further up gives a smaller ancestor. -/
theorem div_pow_two_le (a s t : Nat) (hst : s < t) : a / 2 ^ t ≤ a / 2 ^ s / 2 := by
  have ht : t = s + 1 + (t - s - 1) := by omega
  rw [ht, pow_add, pow_succ, ← Nat.div_div_eq_div_mul, ← Nat.div_div_eq_div_mul]
  exact Nat.div_le_self _ _

theorem subtree_slots_nodup (h : Nat) : ∀ x, (subtree_slots h x).Nodup := by
  induction h with
  | zero =>
    intro x
    exact List.nodup_nil
  | succ h ih =>
    intro x
    simp only [subtree_slots]
    rw [List.nodup_cons, List.mem_append, List.nodup_append]
    refine ⟨?_, ih _, ih _, ?_⟩
    · rintro (hm | hm)
      · obtain ⟨t, _, he⟩ := (mem_subtree_slots h _ _).mp hm
        have := Nat.div_le_self (x + 1) (2 ^ t)
        omega
      · obtain ⟨t, _, he⟩ := (mem_subtree_slots h _ _).mp hm
        have := Nat.div_le_self (x + 1) (2 ^ t)
        omega
    · intro y hy1 hy2
      obtain ⟨t1, _, he1⟩ := (mem_subtree_slots h _ _).mp hy1
      obtain ⟨t2, _, he2⟩ := (mem_subtree_slots h _ _).mp hy2
      rcases Nat.lt_trichotomy t1 t2 with hlt | heq | hgt
      · have := div_pow_two_le (y + 1) t1 t2 hlt
        omega
      · rw [heq] at he1
        omega
      · have := div_pow_two_le (y + 1) t2 t1 hgt
        omega

/-- The slots visited from the root are the slots `0 .. 2^D - 2`. -/
theorem mem_subtree_slots_root (D : Nat) (y : Nat) :
    y ∈ subtree_slots D 0 ↔ y + 1 < 2 ^ D := by
  rw [mem_subtree_slots]
  constructor
  · rintro ⟨t, ht, he⟩
    have hp : 0 < 2 ^ t := Nat.pow_pos (by norm_num)
    have h1 : (y + 1) / 2 ^ t < 2 := by omega
    rw [Nat.div_lt_iff_lt_mul hp] at h1
    have h2 : 2 ^ (t + 1) ≤ 2 ^ D := Nat.pow_le_pow_right (by norm_num) (by omega)
    rw [pow_succ] at h2
    omega
  · intro hy
    have hne : y + 1 ≠ 0 := by omega
    have h1 := Nat.pow_log_le_self 2 hne
    have h2 := Nat.lt_pow_succ_log_self (by norm_num : 1 < 2) (y + 1)
    have hp : 0 < 2 ^ Nat.log 2 (y + 1) := Nat.pow_pos (by norm_num)
    refine ⟨Nat.log 2 (y + 1), ?_, ?_⟩
    · by_contra hcon
      have := Nat.pow_le_pow_right (by norm_num : 0 < 2) (not_lt.mp hcon)
      omega
    · apply Nat.div_eq_of_lt_le
      · omega
      · rw [Nat.pow_succ] at h2
        omega

theorem leaf_nodes_split (h x : Nat) :
    leaf_nodes (h + 1) x = leaf_nodes h (2 * x + 1) ++ leaf_nodes h (2 * x + 2) := by
  unfold leaf_nodes
  have hp : 0 < 2 ^ h := Nat.pow_pos (by norm_num)
  have e1 : (x + 1) * 2 ^ (h + 1) - 1 = (2 * x + 1 + 1) * 2 ^ h - 1 := by
    rw [pow_succ]
    congr 1
    ring
  have e2 : (2 * x + 2 + 1) * 2 ^ h - 1 = ((2 * x + 1 + 1) * 2 ^ h - 1) + 2 ^ h := by
    have e3 : (2 * x + 2 + 1) * 2 ^ h = (2 * x + 1 + 1) * 2 ^ h + 2 ^ h := by ring
    have e4 : 2 ^ h ≤ (2 * x + 1 + 1) * 2 ^ h := Nat.le_mul_of_pos_left _ (by omega)
    omega
  have e5 : 2 ^ (h + 1) = 2 ^ h + 2 ^ h := by rw [pow_succ]; omega
  rw [e1, e2, e5, List.range'_append_1]

theorem leaf_nodes_root (D : Nat) : leaf_nodes D 0 = List.range' (2 ^ D - 1) (2 ^ D) := by
  unfold leaf_nodes
  rw [Nat.zero_add, Nat.one_mul]

/-- The leaf branch of `grow_subtree`. -/
theorem grow_post_leaf {K : Type} [LinearOrderedField K] (pool : Pool) (tvals ws : Nat → K)
    (rs cs srs scs iinds : Nat → Int) (maxd : Nat) (x off ninds : Nat) (st : TreeState K) :
    GrowPost pool tvals ws rs cs srs scs iinds maxd 0 x off ninds st
      { st with
        lut := Function.update st.lut ((x : Int) - (2 ^ maxd - 1))
          (leaf_value tvals ws (subset_of st.inds off ninds))
        leaf_log := st.leaf_log ++ [((x : Int) - (2 ^ maxd - 1), subset_of st.inds off ninds)] } := by
  refine ⟨[], [((x : Int) - (2 ^ maxd - 1), subset_of st.inds off ninds)],
    ⟨by simp, rfl, rfl⟩, ⟨rfl, ?_, rfl⟩, ⟨fun _ _ => rfl, List.Perm.refl _⟩, ?_⟩
  · simp [leaf_nodes]
  · intro v hv tc _
    refine ⟨subset_of st.inds off ninds, ?_, hv⟩
    simp only [walk_from, List.mem_singleton, Prod.mk.injEq, and_true]
    ring

/-- The branch `ninds <= 1` of `grow_subtree`: the node gets the code `0` and both
children the whole subset. -/
theorem grow_post_small {K : Type} [LinearOrderedField K] (pool : Pool) (tvals ws : Nat → K)
    (rs cs srs scs iinds : Nat → Int) (maxd : Nat) (h x off ninds : Nat)
    (st st1 st2 : TreeState K)
    (hL : GrowPost pool tvals ws rs cs srs scs iinds maxd h (2 * x + 1) off ninds
      { st with
        tcodes := Function.update st.tcodes (x : Int) 0
        code_log := st.code_log ++ [((x : Int), 0)] } st1)
    (hR : GrowPost pool tvals ws rs cs srs scs iinds maxd h (2 * x + 2) off ninds st1 st2) :
    GrowPost pool tvals ws rs cs srs scs iinds maxd (h + 1) x off ninds st st2 := by
  obtain ⟨cL, lL, ⟨a1, a2, a3⟩, ⟨b1, b2, b3⟩, ⟨f1, f2⟩, w1⟩ := hL
  obtain ⟨cR, lR, ⟨a4, a5, a6⟩, ⟨b4, b5, b6⟩, ⟨f3, f4⟩, w2⟩ := hR
  simp only at a1 a3 b1 b3 f1 f2 w1
  refine ⟨((x : Int), 0) :: (cL ++ cR), lL ++ lR, ⟨?_, ?_, ?_⟩, ⟨?_, ?_, ?_⟩, ⟨?_, ?_⟩, ?_⟩
  · rw [a4, a1]
    simp only [List.append_assoc, List.singleton_append, List.cons_append, List.nil_append]
  · simp only [List.map_cons, List.map_append, a2, a5, subtree_slots]
  · rw [a6, a3, ← apply_writes_append]
    rfl
  · rw [b4, b1, List.append_assoc]
  · rw [List.map_append, b2, b5, leaf_nodes_split, List.map_append]
  · rw [b6, b3, List.map_append, apply_writes_append]
  · intro p hp
    rw [f3 p hp, f1 p hp]
  · exact f4.trans f2
  · intro v hv tc htc
    have hx : tc (x : Int) = 0 := htc ((x : Int), 0) (List.mem_cons_self _ _)
    have hv1 : v ∈ subset_of st1.inds off ninds := f2.mem_iff.mpr hv
    obtain ⟨J, hJ, hvJ⟩ := w2 v hv1 tc
      (fun e he => htc e (List.mem_cons_of_mem _ (List.mem_append_right _ he)))
    refine ⟨J, List.mem_append_right _ ?_, hvJ⟩
    have hstep : (2 : Int) * ((x : Int) + 1) +
        bintest pool (tc ((x : Int) + 1 - 1)) (rs v) (cs v) (srs v) (scs v) (iinds v) =
        ((2 * x + 2 : Nat) : Int) + 1 := by
      rw [add_sub_cancel_right, hx, bintest_zero_code]
      push_cast
      ring
    rw [walk_from, hstep]
    exact hJ

/-- The splitting branch of `grow_subtree`: the node gets the selected code `c`, the
subset is partitioned by `split_training_data`, the zeros go to the first child and the
others to the second. -/
theorem grow_post_split {K : Type} [LinearOrderedField K] (pool : Pool) (tvals ws : Nat → K)
    (rs cs srs scs iinds : Nat → Int) (maxd : Nat) (h x off ninds : Nat)
    (st st2 st3 : TreeState K) (c : Int) (prng1 : Nat) (inds1 : Nat → Nat) (n0 : Nat)
    (nv : Nat → Nat) (hnv : nv = fun p => if off ≤ p then inds1 (p - off) else st.inds p)
    (σ : Equiv.Perm Nat) (hσ : ∀ k, ninds ≤ k → σ k = k)
    (hinds1 : inds1 = fun k => st.inds (off + σ k)) (hn0 : n0 ≤ ninds)
    (hlo : ∀ k, k < n0 → sample_bit pool c rs cs srs scs iinds (inds1 k) = 0)
    (hhi : ∀ k, n0 ≤ k → k < ninds → sample_bit pool c rs cs srs scs iinds (inds1 k) ≠ 0)
    (hL : GrowPost pool tvals ws rs cs srs scs iinds maxd h (2 * x + 1) off n0
      { st with
        tcodes := Function.update st.tcodes (x : Int) c
        prng := prng1
        code_log := st.code_log ++ [((x : Int), c)]
        inds := nv } st2)
    (hR : GrowPost pool tvals ws rs cs srs scs iinds maxd h (2 * x + 2) (off + n0)
      (ninds - n0) st2 st3) :
    GrowPost pool tvals ws rs cs srs scs iinds maxd (h + 1) x off ninds st st3 := by
  obtain ⟨cL, lL, ⟨a1, a2, a3⟩, ⟨b1, b2, b3⟩, ⟨f1, f2⟩, w1⟩ := hL
  obtain ⟨cR, lR, ⟨a4, a5, a6⟩, ⟨b4, b5, b6⟩, ⟨f3, f4⟩, w2⟩ := hR
  simp only at a1 a3 b1 b3 f1 f2 w1
  -- the index array after the split, seen from the pointer of the call
  have hview : ∀ k, nv (off + k) = inds1 k := by
    intro k
    rw [hnv]
    simp only [Nat.le_add_right, if_true, Nat.add_sub_cancel_left]
  have hsplit : (subset_of nv off ninds).Perm (subset_of st.inds off ninds) := by
    have e1 : subset_of nv off ninds =
        (List.range ninds).map (fun k => (fun k => st.inds (off + k)) (σ k)) := by
      unfold subset_of
      apply List.map_congr_left
      intro k _
      rw [hview k, hinds1]
    rw [e1]
    exact perm_range_map (fun k => st.inds (off + k)) ninds σ hσ
  have hmem : ∀ v, v ∈ subset_of st.inds off ninds → ∃ k, k < ninds ∧ inds1 k = v := by
    intro v hv
    obtain ⟨k, hk, hkv⟩ := (mem_subset_of _ off ninds v).mp (hsplit.mem_iff.mpr hv)
    rw [hview k] at hkv
    exact ⟨k, hk, hkv⟩
  refine ⟨((x : Int), c) :: (cL ++ cR), lL ++ lR, ⟨?_, ?_, ?_⟩, ⟨?_, ?_, ?_⟩, ⟨?_, ?_⟩, ?_⟩
  · rw [a4, a1]
    simp only [List.append_assoc, List.singleton_append, List.cons_append, List.nil_append]
  · simp only [List.map_cons, List.map_append, a2, a5, subtree_slots]
  · rw [a6, a3, ← apply_writes_append]
    rfl
  · rw [b4, b1, List.append_assoc]
  · rw [List.map_append, b2, b5, leaf_nodes_split, List.map_append]
  · rw [b6, b3, List.map_append, apply_writes_append]
  · intro p hp
    rw [f3 p (by omega), f1 p (by omega), hnv]
    by_cases hop : off ≤ p
    · have hpn : ninds ≤ p - off := by omega
      simp only [if_pos hop, hinds1, hσ _ hpn]
      congr 1
      omega
    · simp only [if_neg hop]
  · rw [subset_of_split st3.inds off n0 ninds hn0]
    have e1 : subset_of st3.inds off n0 = subset_of st2.inds off n0 :=
      subset_of_congr _ _ off n0 (fun k hk => f3 (off + k) (by omega))
    have e2 : subset_of st2.inds (off + n0) (ninds - n0) =
        subset_of nv (off + n0) (ninds - n0) :=
      subset_of_congr _ _ (off + n0) (ninds - n0) (fun k _ => f1 (off + n0 + k) (by omega))
    rw [e1]
    refine List.Perm.trans ?_ hsplit
    rw [subset_of_split _ off n0 ninds hn0, ← e2]
    exact List.Perm.append f2 f4
  · intro v hv tc htc
    have hx : tc (x : Int) = c := htc ((x : Int), c) (List.mem_cons_self _ _)
    obtain ⟨k, hk, hkv⟩ := hmem v hv
    by_cases hkn : k < n0
    · have hbit : bintest pool c (rs v) (cs v) (srs v) (scs v) (iinds v) = 0 := by
        have := hlo k hkn
        rw [hkv] at this
        exact this
      have hv1 : v ∈ subset_of nv off n0 :=
        (mem_subset_of _ off n0 v).mpr ⟨k, hkn, by rw [hview k]; exact hkv⟩
      obtain ⟨J, hJ, hvJ⟩ := w1 v hv1 tc
        (fun e he => htc e (List.mem_cons_of_mem _ (List.mem_append_left _ he)))
      refine ⟨J, List.mem_append_left _ ?_, hvJ⟩
      have hstep : (2 : Int) * ((x : Int) + 1) +
          bintest pool (tc ((x : Int) + 1 - 1)) (rs v) (cs v) (srs v) (scs v) (iinds v) =
          ((2 * x + 1 : Nat) : Int) + 1 := by
        rw [add_sub_cancel_right, hx, hbit]
        push_cast
        ring
      rw [walk_from, hstep]
      exact hJ
    · have hbit : bintest pool c (rs v) (cs v) (srs v) (scs v) (iinds v) = 1 := by
        have := hhi k (by omega) hk
        rw [hkv] at this
        rcases bintest_zero_or_one pool c (rs v) (cs v) (srs v) (scs v) (iinds v) with h0 | h1
        · exact absurd h0 this
        · exact h1
      have hv2 : v ∈ subset_of st2.inds (off + n0) (ninds - n0) := by
        refine (mem_subset_of _ (off + n0) (ninds - n0) v).mpr ⟨k - n0, by omega, ?_⟩
        rw [f1 (off + n0 + (k - n0)) (by omega)]
        have e : off + n0 + (k - n0) = off + k := by omega
        rw [e, hview k]
        exact hkv
      obtain ⟨J, hJ, hvJ⟩ := w2 v hv2 tc
        (fun e he => htc e (List.mem_cons_of_mem _ (List.mem_append_right _ he)))
      refine ⟨J, List.mem_append_right _ ?_, hvJ⟩
      have hstep : (2 : Int) * ((x : Int) + 1) +
          bintest pool (tc ((x : Int) + 1 - 1)) (rs v) (cs v) (srs v) (scs v) (iinds v) =
          ((2 * x + 2 : Nat) : Int) + 1 := by
        rw [add_sub_cancel_right, hx, hbit]
        push_cast
        ring
      rw [walk_from, hstep]
      exact hJ

/-- Every call of `grow_subtree` returns when each `split_training_data` may run
`ninds + 1` rounds, and establishes `GrowPost`. -/
theorem grow_subtree_spec {K : Type} [LinearOrderedField K] (pool : Pool)
    (select : Selector) (tvals ws : Nat → K) (rs cs srs scs iinds : Nat → Int)
    (maxd fuel : Nat) (h : Nat) :
    ∀ (x off ninds : Nat) (st : TreeState K), ninds + 1 ≤ fuel →
      ∃ st1, grow_subtree pool select tvals ws rs cs srs scs iinds maxd fuel h (x : Int) off
          ninds st = some st1 ∧
        GrowPost pool tvals ws rs cs srs scs iinds maxd h x off ninds st st1 := by
  induction h with
  | zero =>
    intro x off ninds st _
    exact ⟨_, rfl, grow_post_leaf pool tvals ws rs cs srs scs iinds maxd x off ninds st⟩
  | succ h ih =>
    intro x off ninds st hf
    have hc1 : 2 * (x : Int) + 1 = ((2 * x + 1 : Nat) : Int) := by push_cast; ring
    have hc2 : 2 * (x : Int) + 2 = ((2 * x + 2 : Nat) : Int) := by push_cast; ring
    simp only [grow_subtree]
    by_cases hsmall : ninds ≤ 1
    · rw [if_pos hsmall, hc1, hc2]
      obtain ⟨st1, r1, p1⟩ := ih (2 * x + 1) off ninds
        { st with
          tcodes := Function.update st.tcodes (x : Int) 0
          code_log := st.code_log ++ [((x : Int), 0)] } hf
      rw [r1]
      obtain ⟨st2, r2, p2⟩ := ih (2 * x + 2) off ninds st1 hf
      exact ⟨st2, r2,
        grow_post_small pool tvals ws rs cs srs scs iinds maxd h x off ninds st st1 st2 p1 p2⟩
    · rw [if_neg hsmall, hc1, hc2]
      obtain ⟨inds1, n0, σ, hrun, hσ, hinds1, hle, hlo, hhi⟩ :=
        split_training_data_spec
          (sample_bit pool (select st.prng (fun k => st.inds (off + k)) ninds).1 rs cs srs scs
            iinds)
          (fun k => st.inds (off + k)) ninds (by omega) fuel hf
      rw [hrun]
      obtain ⟨st2, r2, p2⟩ := ih (2 * x + 1) off n0
        { st with
          tcodes := Function.update st.tcodes (x : Int)
            (select st.prng (fun k => st.inds (off + k)) ninds).1
          prng := (select st.prng (fun k => st.inds (off + k)) ninds).2
          code_log := st.code_log ++
            [((x : Int), (select st.prng (fun k => st.inds (off + k)) ninds).1)]
          inds := fun p => if off ≤ p then inds1 (p - off) else st.inds p } (by omega)
      simp only
      rw [r2]
      obtain ⟨st3, r3, p3⟩ := ih (2 * x + 2) (off + n0) (ninds - n0) st2 (by omega)
      exact ⟨st3, r3,
        grow_post_split pool tvals ws rs cs srs scs iinds maxd h x off ninds st st2 st3 _ _
          inds1 n0 _ rfl σ hσ hinds1 hle hlo hhi p2 p3⟩

/-- What `grow_rtree` establishes: it returns when each `split_training_data` may run
`n + 1` rounds, with `GrowPost` for the root and the whole sample set. -/
theorem grow_rtree_spec {K : Type} [LinearOrderedField K] (pool : Pool) (select : Selector)
    (prng : Nat) (tcodes : Int → Int) (lut : Int → K) (d : Nat) (tvals : Nat → K)
    (rs cs srs scs iinds : Nat → Int) (ws : Nat → K) (n fuel : Nat) (hf : n + 1 ≤ fuel) :
    ∃ st1, grow_rtree pool select prng tcodes lut d tvals rs cs srs scs iinds ws n fuel =
        some st1 ∧
      GrowPost pool tvals ws rs cs srs scs iinds d d 0 0 n
        { tcodes := tcodes, lut := lut, inds := fun i => i, prng := prng,
          code_log := [], leaf_log := [] } st1 := by
  have := grow_subtree_spec pool select tvals ws rs cs srs scs iinds d fuel d 0 0 n
    { tcodes := tcodes, lut := lut, inds := fun i => i, prng := prng,
      code_log := [], leaf_log := [] } hf
  rw [Nat.cast_zero] at this
  exact this

/-- The internal-node slots of a tree of depth `D`, as integers. -/
theorem mem_code_slots (D : Nat) (y : Int) :
    y ∈ (subtree_slots D 0).map (fun (k : Nat) => (k : Int)) ↔ 0 ≤ y ∧ y ≤ 2 ^ D - 2 := by
  have hcast : ((2 ^ D : Nat) : Int) = 2 ^ D := by push_cast; rfl
  rw [List.mem_map, ← hcast]
  constructor
  · rintro ⟨k, hk, rfl⟩
    rw [mem_subtree_slots_root] at hk
    omega
  · rintro ⟨h1, h2⟩
    refine ⟨y.toNat, ?_, by omega⟩
    rw [mem_subtree_slots_root]
    omega

theorem code_slots_nodup (D : Nat) :
    ((subtree_slots D 0).map (fun (k : Nat) => (k : Int))).Nodup :=
  (subtree_slots_nodup D 0).map (fun a b hab => by simpa using hab)

/-- The leaf slots of a tree of depth `D`, as integers. -/
theorem mem_leaf_slots (D : Nat) (y : Int) :
    y ∈ (leaf_nodes D 0).map (fun (k : Nat) => (k : Int) - (2 ^ D - 1)) ↔
      0 ≤ y ∧ y ≤ 2 ^ D - 1 := by
  have hcast : ((2 ^ D : Nat) : Int) = 2 ^ D := by push_cast; rfl
  have hp : 0 < 2 ^ D := Nat.pow_pos (by norm_num)
  rw [List.mem_map, ← hcast, leaf_nodes_root]
  constructor
  · rintro ⟨k, hk, rfl⟩
    rw [List.mem_range'_1] at hk
    omega
  · rintro ⟨h1, h2⟩
    refine ⟨(y + (2 ^ D - 1 : Nat)).toNat, ?_, by omega⟩
    rw [List.mem_range'_1]
    omega

theorem leaf_slots_nodup (D : Nat) :
    ((leaf_nodes D 0).map (fun (k : Nat) => (k : Int) - (2 ^ D - 1))).Nodup := by
  rw [leaf_nodes_root]
  exact (List.nodup_range' _ _).map (fun a b hab => by simpa using hab)

theorem count_of_nodup (l : List Int) (hnd : l.Nodup) (p : Int → Prop) [DecidablePred p]
    (hmem : ∀ y, y ∈ l ↔ p y) (y : Int) : l.count y = if p y then 1 else 0 := by
  rw [List.count_eq_of_nodup hnd]
  by_cases hy : p y
  · rw [if_pos hy, if_pos ((hmem y).mpr hy)]
  · rw [if_neg hy, if_neg (fun h => hy ((hmem y).mp h))]

/-- C19. For every depth `D >= 0` and every training sample `j` passed to `grow_rtree`,
evaluating the finished tree with `get_tree_output` at the window of `j` reaches a leaf
whose training subset `J` contains `j`, and the value returned is the value of that
leaf, `leaf_value tvals ws J`: the weighted mean of the targets over `J`, or `0` when the
weights of `J` sum to `0`.  The tree sits in row `i` of a cascade of depth `D`. -/
theorem grow_rtree_evaluates {K : Type} [LinearOrderedField K] (pool : Pool)
    (select : Selector) (prng : Nat) (tcodes : Int → Int) (lut : Int → K) (D : Nat)
    (tvals : Nat → K) (rs cs srs scs iinds : Nat → Int) (ws : Nat → K) (n : Nat) :
    ∀ fuel, n + 1 ≤ fuel →
      ∃ st1, grow_rtree pool select prng tcodes lut D tvals rs cs srs scs iinds ws n fuel =
          some st1 ∧
        ∀ j, j < n → ∀ (casc : Cascade K) (i : Nat), casc.tdepth = D →
          casc.tcodes i = st1.tcodes → casc.luts i = st1.lut →
          ∃ J : List Nat,
            (walk_idx (fun k => bintest pool (casc.tcodes i k) (rs j) (cs j) (srs j) (scs j)
              (iinds j)) D - 2 ^ D, J) ∈ st1.leaf_log ∧
            j ∈ J ∧
            get_tree_output casc pool i (rs j) (cs j) (srs j) (scs j) (iinds j) =
              leaf_value tvals ws J ∧
            leaf_value tvals ws J =
              if (J.map ws).sum = 0 then 0
              else (J.map (fun k => ws k * tvals k)).sum / (J.map ws).sum := by
  intro fuel hf
  obtain ⟨st1, hrun, newc, newl, ⟨a1, a2, a3⟩, ⟨b1, b2, b3⟩, _, hwalk⟩ :=
    grow_rtree_spec pool select prng tcodes lut D tvals rs cs srs scs iinds ws n fuel hf
  simp only [List.nil_append] at a1 a3 b1 b3
  refine ⟨st1, hrun, ?_⟩
  intro j hj casc i hD htc hlut
  have hjmem : j ∈ subset_of (fun i => i) 0 n :=
    (mem_subset_of _ 0 n j).mpr ⟨j, hj, Nat.zero_add j⟩
  have hcodes : ∀ e, e ∈ newc → st1.tcodes e.1 = e.2 := by
    intro e he
    rw [a3]
    exact apply_writes_mem newc tcodes (by rw [a2]; exact code_slots_nodup D) e he
  obtain ⟨J, hJ, hjJ⟩ := hwalk j hjmem st1.tcodes hcodes
  have hstart : ((0 : Nat) : Int) + 1 = 1 := by norm_num
  rw [hstart, ← walk_idx_eq_walk_from] at hJ
  refine ⟨J, ?_, hjJ, ?_, rfl⟩
  · rw [htc, b1]
    exact hJ
  · unfold get_tree_output
    rw [hD, htc, hlut, b3]
    have hfst : (newl.map (fun (e : Int × List Nat) => (e.1, leaf_value tvals ws e.2))).map
        Prod.fst = newl.map Prod.fst := by
      rw [List.map_map]
      rfl
    exact apply_writes_mem _ lut (by rw [hfst, b2]; exact leaf_slots_nodup D)
      (_, leaf_value tvals ws J) (List.mem_map.mpr ⟨_, hJ, rfl⟩)

/-- The leaves reached by the three training samples of the example tree: samples `0`
and `2` reach leaf `3` (subset `[0, 2]`), sample `1` reaches leaf `1` (subset `[1]`). -/
theorem example_tree_walks :
    (example_tree : Option (TreeState ℚ)).map (fun st => (List.range 3).map (fun j =>
      walk_idx (fun k => bintest example_pool ((tree_cascade st 2).tcodes 0 k) 0
        (split_example_cs j) 3 3 0) 2 - 2 ^ 2)) = some [3, 1, 3] := by
  decide

/-- Witness for C19: the example tree of depth `2` on three samples, held in a cascade. -/
theorem grow_rtree_evaluates_witness :
    3 + 1 ≤ 4 ∧
    (∃ st1, grow_rtree example_pool example_select 0 (fun _ => 0) (fun _ => (0 : ℚ)) 2
        one_positive_tvals (fun _ => 0) split_example_cs (fun _ => 3) (fun _ => 3)
        (fun _ => 0) (fun _ => 1 / 2) 3 4 = some st1 ∧
      ∀ j, j < 3 → ∀ (casc : Cascade ℚ) (i : Nat), casc.tdepth = 2 →
        casc.tcodes i = st1.tcodes → casc.luts i = st1.lut →
        ∃ J : List Nat,
          (walk_idx (fun k => bintest example_pool (casc.tcodes i k) ((fun _ => 0) j)
            (split_example_cs j) ((fun _ => 3) j) ((fun _ => 3) j) ((fun _ => 0) j)) 2 - 2 ^ 2,
            J) ∈ st1.leaf_log ∧
          j ∈ J ∧
          get_tree_output casc example_pool i ((fun _ => 0) j) (split_example_cs j)
            ((fun _ => 3) j) ((fun _ => 3) j) ((fun _ => 0) j) =
            leaf_value one_positive_tvals (fun _ => 1 / 2) J ∧
          leaf_value one_positive_tvals (fun _ => (1 / 2 : ℚ)) J =
            if (J.map (fun _ => (1 / 2 : ℚ))).sum = 0 then 0
            else (J.map (fun k => (fun _ => (1 / 2 : ℚ)) k * one_positive_tvals k)).sum /
              (J.map (fun _ => (1 / 2 : ℚ))).sum) ∧
    (example_tree : Option (TreeState ℚ)).map (fun st => (List.range 3).map (fun j =>
      walk_idx (fun k => bintest example_pool ((tree_cascade st 2).tcodes 0 k) 0
        (split_example_cs j) 3 3 0) 2 - 2 ^ 2)) = some [3, 1, 3] :=
  ⟨by decide,
   grow_rtree_evaluates example_pool example_select 0 (fun _ => 0) (fun _ => (0 : ℚ)) 2
     one_positive_tvals (fun _ => 0) split_example_cs (fun _ => 3) (fun _ => 3)
     (fun _ => 0) (fun _ => 1 / 2) 3 4 (by decide),
   example_tree_walks⟩

/-- At depth `0` the tree is the single leaf described by `grow_rtree_depth0`. -/
theorem grow_rtree_depth_zero {K : Type} [LinearOrderedField K] (pool : Pool)
    (select : Selector) (prng : Nat) (tcodes : Int → Int) (lut : Int → K)
    (samples : Samples K) (srs scs : Nat → Int) (ws : Nat → K) (n fuel : Nat) :
    (grow_rtree pool select prng tcodes lut 0 samples.tvals samples.rs samples.cs srs scs
      samples.iinds ws n fuel).map (fun st => (st.tcodes, st.lut, st.prng)) =
      some (grow_rtree_depth0 pool prng tcodes lut 0 samples srs scs ws n) := by
  have hsub : subset_of (fun i => i) 0 n = List.range n := by
    unfold subset_of
    simp only [Nat.zero_add, List.map_id']
  simp only [grow_rtree, grow_subtree, grow_rtree_depth0, hsub, Option.map_some']
  norm_num

/-! ## The tree trainer: the candidate search -/

theorem Flt.gt_asymm {K : Type} [LinearOrderedField K] (a b : Flt K)
    (h : Flt.gt a b = true) : Flt.gt b a = false := by
  cases a <;> cases b <;> simp [Flt.gt] at h ⊢
  exact le_of_lt h

/-- On values that are not NaN: from `a <= b` and `c < a` follows `c < b`. -/
theorem Flt.gt_of_not_gt_of_gt {K : Type} [LinearOrderedField K] (a b c : Flt K)
    (hb : b ≠ Flt.nan) (h1 : Flt.gt a b = false) (h2 : Flt.gt a c = true) :
    Flt.gt b c = true := by
  cases a <;> cases b <;> cases c <;> simp [Flt.gt] at h1 h2 hb ⊢
  exact lt_of_lt_of_le h2 h1

/-- On values that are not NaN: from `a <= b` and `c < a` follows `c <= b`. -/
theorem Flt.not_gt_of_not_gt_of_gt {K : Type} [LinearOrderedField K] (a b c : Flt K)
    (hb : b ≠ Flt.nan) (h1 : Flt.gt a b = false) (h2 : Flt.gt a c = true) :
    Flt.gt c b = false :=
  Flt.gt_asymm b c (Flt.gt_of_not_gt_of_gt a b c hb h1 h2)

/-- A first score that is NaN is never replaced: the search keeps the first candidate
whatever the other scores are. -/
theorem best_loop_nan {K : Type} [LinearOrderedField K] (tmptcodes : Nat → Int)
    (es : Nat → Flt K) (c : Int) (rem : Nat) :
    ∀ i, best_loop tmptcodes es rem i (Flt.nan, c) = (Flt.nan, c) := by
  induction rem with
  | zero =>
    intro i
    rfl
  | succ rem ih =>
    intro i
    simp only [best_loop, Flt.gt]
    exact ih (i + 1)

theorem root_not_in_children (h x : Nat) :
    x ∉ subtree_slots h (2 * x + 1) ∧ x ∉ subtree_slots h (2 * x + 2) := by
  have hnd := subtree_slots_nodup (h + 1) x
  simp only [subtree_slots] at hnd
  rw [List.nodup_cons, List.mem_append, not_or] at hnd
  exact hnd.1

theorem not_mem_cast_slots (x : Nat) (l : List Nat) (h : x ∉ l) :
    (x : Int) ∉ l.map (fun (k : Nat) => (k : Int)) := by
  intro hmem
  obtain ⟨k, hk, hkx⟩ := List.mem_map.mp hmem
  have : k = x := by exact_mod_cast hkx
  rw [this] at hk
  exact h hk

/-- The code that a call of `grow_subtree` above the leaf level leaves at its own node:
`0` when the subset has at most one sample, the selected code otherwise. -/
theorem grow_subtree_node_code {K : Type} [LinearOrderedField K] (pool : Pool)
    (select : Selector) (tvals ws : Nat → K) (rs cs srs scs iinds : Nat → Int)
    (maxd fuel : Nat) (h x off ninds : Nat) (st : TreeState K) (hf : ninds + 1 ≤ fuel) :
    ∃ st1, grow_subtree pool select tvals ws rs cs srs scs iinds maxd fuel (h + 1) (x : Int)
        off ninds st = some st1 ∧
      st1.tcodes (x : Int) =
        if ninds ≤ 1 then 0 else (select st.prng (fun k => st.inds (off + k)) ninds).1 := by
  have hc1 : 2 * (x : Int) + 1 = ((2 * x + 1 : Nat) : Int) := by push_cast; ring
  have hc2 : 2 * (x : Int) + 2 = ((2 * x + 2 : Nat) : Int) := by push_cast; ring
  obtain ⟨hx1, hx2⟩ := root_not_in_children h x
  simp only [grow_subtree]
  by_cases hsmall : ninds ≤ 1
  · rw [if_pos hsmall, if_pos hsmall, hc1, hc2]
    obtain ⟨st1, r1, cL, _, ⟨_, a2, a3⟩, _, _, _⟩ :=
      grow_subtree_spec pool select tvals ws rs cs srs scs iinds maxd fuel h (2 * x + 1) off
        ninds
        { st with
          tcodes := Function.update st.tcodes (x : Int) 0
          code_log := st.code_log ++ [((x : Int), 0)] } hf
    rw [r1]
    obtain ⟨st2, r2, cR, _, ⟨_, a5, a6⟩, _, _, _⟩ :=
      grow_subtree_spec pool select tvals ws rs cs srs scs iinds maxd fuel h (2 * x + 2) off
        ninds st1 hf
    refine ⟨st2, r2, ?_⟩
    rw [a6, apply_writes_not_mem cR _ _ (by rw [a5]; exact not_mem_cast_slots x _ hx2), a3,
      apply_writes_not_mem cL _ _ (by rw [a2]; exact not_mem_cast_slots x _ hx1)]
    exact Function.update_same _ _ _
  · rw [if_neg hsmall, if_neg hsmall, hc1, hc2]
    obtain ⟨inds1, n0, σ, hrun, _, _, hle, _, _⟩ :=
      split_training_data_spec
        (sample_bit pool (select st.prng (fun k => st.inds (off + k)) ninds).1 rs cs srs scs
          iinds)
        (fun k => st.inds (off + k)) ninds (by omega) fuel hf
    rw [hrun]
    obtain ⟨st2, r2, cL, _, ⟨_, a2, a3⟩, _, _, _⟩ :=
      grow_subtree_spec pool select tvals ws rs cs srs scs iinds maxd fuel h (2 * x + 1) off n0
        { st with
          tcodes := Function.update st.tcodes (x : Int)
            (select st.prng (fun k => st.inds (off + k)) ninds).1
          prng := (select st.prng (fun k => st.inds (off + k)) ninds).2
          code_log := st.code_log ++
            [((x : Int), (select st.prng (fun k => st.inds (off + k)) ninds).1)]
          inds := fun p => if off ≤ p then inds1 (p - off) else st.inds p } (by omega)
    simp only
    rw [r2]
    obtain ⟨st3, r3, cR, _, ⟨_, a5, a6⟩, _, _, _⟩ :=
      grow_subtree_spec pool select tvals ws rs cs srs scs iinds maxd fuel h (2 * x + 2)
        (off + n0) (ninds - n0) st2 (by omega)
    refine ⟨st3, r3, ?_⟩
    rw [a6, apply_writes_not_mem cR _ _ (by rw [a5]; exact not_mem_cast_slots x _ hx2), a3,
      apply_writes_not_mem cL _ _ (by rw [a2]; exact not_mem_cast_slots x _ hx1)]
    exact Function.update_same _ _ _

/-- While every sample goes to side `1`, the accumulators of side `0` do not move. -/
theorem split_sums_all_ones {K : Type} [LinearOrderedField K] (bit : Nat → Int)
    (tvals ws : Nat → K) (inds : Nat → Nat) (rem : Nat) :
    ∀ (i : Nat) (s : SplitSums K), (∀ k, i ≤ k → k < i + rem → bit (inds k) ≠ 0) →
      (split_sums bit tvals ws inds rem i s).wsum0 = s.wsum0 ∧
      (split_sums bit tvals ws inds rem i s).wtvalsum0 = s.wtvalsum0 ∧
      (split_sums bit tvals ws inds rem i s).wtvalsumsqr0 = s.wtvalsumsqr0 := by
  induction rem with
  | zero =>
    intro i s _
    exact ⟨rfl, rfl, rfl⟩
  | succ rem ih =>
    intro i s hall
    simp only [split_sums]
    rw [if_pos (hall i (le_refl i) (by omega))]
    exact ih (i + 1) _ (fun k h1 h2 => hall k (by omega) (by omega))

/-- While every sample goes to side `0`, the accumulators of side `1` do not move. -/
theorem split_sums_all_zeros {K : Type} [LinearOrderedField K] (bit : Nat → Int)
    (tvals ws : Nat → K) (inds : Nat → Nat) (rem : Nat) :
    ∀ (i : Nat) (s : SplitSums K), (∀ k, i ≤ k → k < i + rem → bit (inds k) = 0) →
      (split_sums bit tvals ws inds rem i s).wsum1 = s.wsum1 ∧
      (split_sums bit tvals ws inds rem i s).wtvalsum1 = s.wtvalsum1 ∧
      (split_sums bit tvals ws inds rem i s).wtvalsumsqr1 = s.wtvalsumsqr1 := by
  induction rem with
  | zero =>
    intro i s _
    exact ⟨rfl, rfl, rfl⟩
  | succ rem ih =>
    intro i s hall
    simp only [split_sums]
    rw [if_neg (not_not.mpr (hall i (le_refl i) (by omega)))]
    exact ih (i + 1) _ (fun k h1 h2 => hall k (by omega) (by omega))

theorem Flt.add_nan_right {K : Type} [LinearOrderedField K] (a : Flt K) :
    Flt.add a Flt.nan = Flt.nan := by
  cases a <;> rfl

/-- A side whose accumulators are `0` makes the score NaN: its `wmse` is
`0 - 0*0/0`. -/
theorem split_score_nan_left {K : Type} [LinearOrderedField K] (s : SplitSums K)
    (h1 : s.wsum0 = 0) (h2 : s.wtvalsum0 = 0) : split_score s = Flt.nan := by
  unfold split_score
  simp only [h1, h2, SQR, mul_zero]
  have hdiv : Flt.div (Flt.fin (0 : K)) (Flt.fin 0) = Flt.nan := by
    simp only [Flt.div, if_true]
  rw [hdiv]
  rfl

theorem split_score_nan_right {K : Type} [LinearOrderedField K] (s : SplitSums K)
    (h1 : s.wsum1 = 0) (h2 : s.wtvalsum1 = 0) : split_score s = Flt.nan := by
  unfold split_score
  simp only [h1, h2, SQR, mul_zero]
  have hdiv : Flt.div (Flt.fin (0 : K)) (Flt.fin 0) = Flt.nan := by
    simp only [Flt.div, if_true]
  have hsub : Flt.sub (Flt.fin s.wtvalsumsqr1) (Flt.nan : Flt K) = Flt.nan := rfl
  rw [hdiv, hsub, Flt.add_nan_right]
  rfl

/-- C22 (the behaviour of the code). For every test code that routes all samples of the
subset to one side, `get_split_error` does not treat the `wmse` of the empty side as
`0`: it computes `0 - 0*0/0` for that side, a division of zero by zero, and the score it
returns is NaN, whatever the weights and targets are; it is not the finite quotient of
the other side's `wmse` by the total weight. -/
theorem get_split_error_one_sided_nan {K : Type} [LinearOrderedField K] (pool : Pool)
    (tcode : Int) (tvals : Nat → K) (rs cs srs scs iinds : Nat → Int) (ws : Nat → K)
    (inds : Nat → Nat) (indsnum : Nat)
    (h : (∀ k, k < indsnum → sample_bit pool tcode rs cs srs scs iinds (inds k) ≠ 0) ∨
      (∀ k, k < indsnum → sample_bit pool tcode rs cs srs scs iinds (inds k) = 0)) :
    get_split_error pool tcode tvals rs cs srs scs iinds ws inds indsnum = Flt.nan ∧
    ∀ v : K, get_split_error pool tcode tvals rs cs srs scs iinds ws inds indsnum ≠
      Flt.fin v := by
  have hnan : get_split_error pool tcode tvals rs cs srs scs iinds ws inds indsnum =
      Flt.nan := by
    unfold get_split_error
    rcases h with h | h
    · obtain ⟨e1, e2, _⟩ := split_sums_all_ones (sample_bit pool tcode rs cs srs scs iinds)
        tvals ws inds indsnum 0 zero_sums (fun k _ h2 => h k (by omega))
      exact split_score_nan_left _ (by rw [e1]; rfl) (by rw [e2]; rfl)
    · obtain ⟨e1, e2, _⟩ := split_sums_all_zeros (sample_bit pool tcode rs cs srs scs iinds)
        tvals ws inds indsnum 0 zero_sums (fun k _ h2 => h k (by omega))
      exact split_score_nan_right _ (by rw [e1]; rfl) (by rw [e2]; rfl)
  refine ⟨hnan, ?_⟩
  intro v hv
  rw [hnan] at hv
  cases hv

/-- Witness for C22: two samples at the window `(0, 0, 1)` of the example image with
targets `1, -1` and weights `1/2, 1/2`, scored under the zero code, which routes both to
side `1`.  Side `1` has `wmse = 1` and the total weight is `1`, so the score described by
the claim would be `1`; the code returns NaN. -/
theorem get_split_error_one_sided_nan_witness :
    ((∀ k, k < 2 → sample_bit example_pool 0 (fun _ => 0) (fun _ => 0) (fun _ => 1)
        (fun _ => 1) (fun _ => 0) ((fun i => i) k) ≠ 0) ∨
      (∀ k, k < 2 → sample_bit example_pool 0 (fun _ => 0) (fun _ => 0) (fun _ => 1)
        (fun _ => 1) (fun _ => 0) ((fun i => i) k) = 0)) ∧
    get_split_error example_pool 0 (one_positive_tvals : Nat → ℚ) (fun _ => 0) (fun _ => 0)
      (fun _ => 1) (fun _ => 1) (fun _ => 0) (fun _ => 1 / 2) (fun i => i) 2 = Flt.nan ∧
    (∀ v : ℚ, get_split_error example_pool 0 (one_positive_tvals : Nat → ℚ) (fun _ => 0)
      (fun _ => 0) (fun _ => 1) (fun _ => 1) (fun _ => 0) (fun _ => 1 / 2) (fun i => i) 2 ≠
      Flt.fin v) :=
  have hone : ∀ k, k < 2 → sample_bit example_pool 0 (fun _ => 0) (fun _ => 0) (fun _ => 1)
      (fun _ => 1) (fun _ => 0) ((fun i => i) k) ≠ 0 := by
    intro k _
    unfold sample_bit
    rw [bintest_zero_code]
    decide
  ⟨Or.inl hone,
   get_split_error_one_sided_nan example_pool 0 (one_positive_tvals : Nat → ℚ) (fun _ => 0)
     (fun _ => 0) (fun _ => 1) (fun _ => 1) (fun _ => 0) (fun _ => 1 / 2) (fun i => i) 2
     (Or.inl hone)⟩

/-- What the score of the witness of C22 would be if the empty side counted as `0`: the
`wmse` of side `1` over the total weight, which is `1`. -/
theorem one_sided_expected_score :
    (split_sums (sample_bit example_pool 0 (fun _ => 0) (fun _ => 0) (fun _ => 1)
      (fun _ => 1) (fun _ => 0)) (one_positive_tvals : Nat → ℚ) (fun _ => 1 / 2)
      (fun i => i) 2 0 zero_sums).wtvalsumsqr1 -
    SQR (split_sums (sample_bit example_pool 0 (fun _ => 0) (fun _ => 0) (fun _ => 1)
      (fun _ => 1) (fun _ => 0)) (one_positive_tvals : Nat → ℚ) (fun _ => 1 / 2)
      (fun i => i) 2 0 zero_sums).wtvalsum1 /
    (split_sums (sample_bit example_pool 0 (fun _ => 0) (fun _ => 0) (fun _ => 1)
      (fun _ => 1) (fun _ => 0)) (one_positive_tvals : Nat → ℚ) (fun _ => 1 / 2)
      (fun i => i) 2 0 zero_sums).wsum1 = 1 ∧
    (split_sums (sample_bit example_pool 0 (fun _ => 0) (fun _ => 0) (fun _ => 1)
      (fun _ => 1) (fun _ => 0)) (one_positive_tvals : Nat → ℚ) (fun _ => 1 / 2)
      (fun i => i) 2 0 zero_sums).wsum = 1 := by
  simp only [split_sums, sample_bit, bintest_zero_code, zero_sums, one_positive_tvals, SQR]
  norm_num

/-- A consequence for the candidate search: when the first candidate has the score NaN
(for instance because it routes every sample to one side), no later candidate replaces
it, whatever its score. -/
theorem select_code_keeps_nan_first {K : Type} [LinearOrderedField K] (pool : Pool)
    (tvals ws : Nat → K) (rs cs srs scs iinds : Nat → Int) (prng : Nat) (inds : Nat → Nat)
    (ninds : Nat)
    (h0 : candidate_scores pool tvals ws rs cs srs scs iinds prng inds ninds 0 = Flt.nan) :
    (select_code pool tvals ws rs cs srs scs iinds prng inds ninds).1 =
      candidate_codes prng 0 := by
  have hsel : (select_code pool tvals ws rs cs srs scs iinds prng inds ninds).1 =
      (best_loop (candidate_codes prng)
        (candidate_scores pool tvals ws rs cs srs scs iinds prng inds ninds) (NRANDS - 1) 1
        (candidate_scores pool tvals ws rs cs srs scs iinds prng inds ninds 0,
          candidate_codes prng 0)).2 := rfl
  rw [hsel, h0, best_loop_nan]

/-! ## The zero test code -/

theorem sbyte_zero (k : Nat) : sbyte 0 k = 0 := by
  simp [sbyte]

/-- With a code whose test is `1` on every sample, `split_training_data` returns
`n0 = 0`: the prefix is empty and every sample stays in the suffix. -/
theorem split_all_ones (bit : Nat → Int) (hbit : ∀ v, bit v ≠ 0) (inds : Nat → Nat)
    (ninds fuel : Nat) (hn : 1 ≤ ninds) (hf : ninds + 1 ≤ fuel) :
    ∃ inds1, split_training_data bit inds ninds fuel = some (inds1, 0) := by
  obtain ⟨inds1, n0, _, hrun, _, _, _, hlo, _⟩ :=
    split_training_data_spec bit inds ninds hn fuel hf
  have hn0 : n0 = 0 := by
    by_contra hne
    exact hbit (inds1 0) (hlo 0 (by omega))
  rw [hn0] at hrun
  exact ⟨inds1, hrun⟩

/-- Amended C23. For every image, window position and scale, the zero test code that
`grow_subtree` leaves at a node with at most one sample has four zero offsets, so it
compares a pixel with itself, a tie, and `bintest` answers `1`.  A node holding it always
routes to its second child: `get_tree_output` moves from the 0-based position `n` to
`2n + 2` (bit `1`), and `split_training_data` would return `n0 = 0`, leaving every sample
in the suffix `[n0, ninds)`. -/
theorem zero_code_routes_second {K : Type} [LinearOrderedField K] (pool : Pool) :
    (∀ k, sbyte 0 k = 0) ∧
    (∀ H W r c sr sc : Int,
      sample_location H W r c sr sc (sbyte 0 0) (sbyte 0 1) =
        sample_location H W r c sr sc (sbyte 0 2) (sbyte 0 3)) ∧
    (∀ r c sr sc iind : Int, bintest pool 0 r c sr sc iind = 1) ∧
    (∀ (casc : Cascade K) (i : Nat) (r c sr sc iind : Int) (j : Nat),
      casc.tcodes i
        (walk_idx (fun k => bintest pool (casc.tcodes i k) r c sr sc iind) j - 1) = 0 →
      walk_idx (fun k => bintest pool (casc.tcodes i k) r c sr sc iind) (j + 1) - 1 =
        2 * (walk_idx (fun k => bintest pool (casc.tcodes i k) r c sr sc iind) j - 1) + 2) ∧
    (∀ (rs cs srs scs iinds : Nat → Int) (inds : Nat → Nat) (ninds fuel : Nat),
      1 ≤ ninds → ninds + 1 ≤ fuel →
      ∃ inds1, split_training_data (sample_bit pool 0 rs cs srs scs iinds) inds ninds fuel =
        some (inds1, 0)) ∧
    (∀ (select : Selector) (tvals ws : Nat → K) (rs cs srs scs iinds : Nat → Int)
      (maxd fuel h x off ninds : Nat) (st : TreeState K),
      ninds ≤ 1 → ninds + 1 ≤ fuel →
      ∃ st1, grow_subtree pool select tvals ws rs cs srs scs iinds maxd fuel (h + 1) (x : Int)
          off ninds st = some st1 ∧
        st1.tcodes (x : Int) = 0) := by
  refine ⟨sbyte_zero, ?_, bintest_zero_code pool, ?_, ?_, ?_⟩
  · intro H W r c sr sc
    simp only [sbyte_zero]
  · intro casc i r c sr sc iind j hz
    rw [walk_idx, hz, bintest_zero_code]
    ring
  · intro rs cs srs scs iinds inds ninds fuel hn hf
    apply split_all_ones _ _ inds ninds fuel hn hf
    intro v
    unfold sample_bit
    rw [bintest_zero_code]
    decide
  · intro select tvals ws rs cs srs scs iinds maxd fuel h x off ninds st hsmall hf
    obtain ⟨st1, hrun, hcode⟩ := grow_subtree_node_code pool select tvals ws rs cs srs scs
      iinds maxd fuel h x off ninds st hf
    rw [if_pos hsmall] at hcode
    exact ⟨st1, hrun, hcode⟩

/-- Witness for amended C23: the window `(0, 0, 1)` of the example image. -/
theorem zero_code_routes_second_witness :
    bintest example_pool 0 0 0 1 1 0 = 1 ∧
    walk_idx (fun k => bintest example_pool ((single_tree_cascade : Cascade ℚ).tcodes 0 k)
      0 0 1 1 0) (0 + 1) - 1 =
      2 * (walk_idx (fun k => bintest example_pool
        ((single_tree_cascade : Cascade ℚ).tcodes 0 k) 0 0 1 1 0) 0 - 1) + 2 :=
  have h := @zero_code_routes_second ℚ _ example_pool
  ⟨h.2.2.1 0 0 1 1 0, h.2.2.2.1 single_tree_cascade 0 0 0 1 1 0 0 rfl⟩

/-- Counterexample to C23 as stated: at the window `(0, 0, 1)` of the example image the
zero code gives the test outcome `1`, not `0`; from the root (position `0`) of a tree that
holds it `get_tree_output` moves to position `2`, not to the first child `1`; and
`split_training_data` on one sample returns `n0 = 0`, so the sample is not in the prefix
`[0, n0)`. -/
theorem zero_code_not_first_child :
    bintest example_pool 0 0 0 1 1 0 ≠ 0 ∧
    walk_idx (fun k => bintest example_pool ((single_tree_cascade : Cascade ℚ).tcodes 0 k)
      0 0 1 1 0) 1 - 1 = 2 ∧
    walk_idx (fun k => bintest example_pool ((single_tree_cascade : Cascade ℚ).tcodes 0 k)
      0 0 1 1 0) 1 - 1 ≠ 2 * 0 + 1 ∧
    (split_training_data (sample_bit example_pool 0 (fun _ => 0) (fun _ => 0) (fun _ => 1)
      (fun _ => 1) (fun _ => 0)) (fun i => i) 1 2).map Prod.snd = some 0 := by
  decide

/-- The code that the third loop of the candidate search leaves is the last code it
stored, or the code held before the loop when it stored none. -/
theorem best_loop_last_store {K : Type} [LinearOrderedField K] (tmptcodes : Nat → Int)
    (es : Nat → Flt K) (rem : Nat) :
    ∀ (i : Nat) (e : Flt K) (c : Int),
      (best_loop tmptcodes es rem i (e, c)).2 = (best_stores tmptcodes es rem i e).getLastD c := by
  induction rem with
  | zero =>
    intro i e c
    rfl
  | succ rem ih =>
    intro i e c
    simp only [best_loop, best_stores]
    by_cases h : Flt.gt e (es i) = true
    · rw [if_pos h, if_pos h, ih, List.getLastD_cons]
    · rw [if_neg h, if_neg h, ih]

/-- The code that the candidate search leaves in `tcodes[nodeidx]` is the last of its
stores. -/
theorem select_code_last_store {K : Type} [LinearOrderedField K] (pool : Pool)
    (tvals ws : Nat → K) (rs cs srs scs iinds : Nat → Int) (prng : Nat) (inds : Nat → Nat)
    (ninds : Nat) :
    (search_stores pool tvals ws rs cs srs scs iinds prng inds ninds).getLast? =
      some (select_code pool tvals ws rs cs srs scs iinds prng inds ninds).1 := by
  have hsel : (select_code pool tvals ws rs cs srs scs iinds prng inds ninds).1 =
      (best_loop (candidate_codes prng)
        (candidate_scores pool tvals ws rs cs srs scs iinds prng inds ninds) (NRANDS - 1) 1
        (candidate_scores pool tvals ws rs cs srs scs iinds prng inds ninds 0,
          candidate_codes prng 0)).2 := rfl
  rw [hsel, best_loop_last_store]
  unfold search_stores
  rw [List.getLast?_cons, List.getLastD_eq_getLast?]

/-- The third loop stores at least once when some candidate scores below the score held
on entry. -/
theorem best_stores_ne_nil {K : Type} [LinearOrderedField K] (tmptcodes : Nat → Int)
    (es : Nat → Flt K) (rem : Nat) :
    ∀ (i : Nat) (e : Flt K), (∃ t, t < rem ∧ Flt.gt e (es (i + t)) = true) →
      best_stores tmptcodes es rem i e ≠ [] := by
  induction rem with
  | zero =>
    intro i e h
    obtain ⟨t, ht, _⟩ := h
    omega
  | succ rem ih =>
    intro i e h
    simp only [best_stores]
    by_cases hg : Flt.gt e (es i) = true
    · rw [if_pos hg]
      exact List.cons_ne_nil _ _
    · rw [if_neg hg]
      obtain ⟨t, ht, hgt⟩ := h
      cases t with
      | zero => exact absurd hgt hg
      | succ t =>
        apply ih
        refine ⟨t, by omega, ?_⟩
        rw [show i + 1 + t = i + (t + 1) by omega]
        exact hgt

/-- The stores of the example tree: the root and node `2` get the selected code, node
`1` (one sample) the code `0`; the leaves get the subsets `[1]`, `[1]`, `[]`, `[0, 2]`. -/
theorem example_tree_logs :
    (example_tree : Option (TreeState ℚ)).map (fun st => (st.code_log, st.leaf_log)) =
      some ([(0, 32512), (1, 0), (2, 32512)], [(0, [1]), (1, [1]), (2, []), (3, [0, 2])]) := by
  decide

/-- C20 (amended). For every depth `D >= 0` and every sample set (`n` samples, including
`n = 0` and `n = 1`), `grow_rtree` terminates (every bound of at least `n + 1` rounds on
the loops of `split_training_data` is enough); exactly one call of `grow_subtree` assigns
each internal-node slot `0 .. 2^D - 2` of the code array and exactly one call each leaf
slot `0 .. 2^D - 1` of the leaf array (a call that searches a code stores to its slot at
line 368 and again at line 374 for every better candidate; every other call stores once);
after the run each of these slots holds what its call left there: the code, which at
the root is `0` for `n <= 1` and the selected code otherwise, or the leaf value of the
training subset of the leaf; no slot outside these ranges is assigned or changed: the tree
has `2^D - 1` internal nodes and `2^D` leaves. -/
theorem grow_rtree_slots {K : Type} [LinearOrderedField K] (pool : Pool) (select : Selector)
    (prng : Nat) (tcodes : Int → Int) (lut : Int → K) (D : Nat) (tvals : Nat → K)
    (rs cs srs scs iinds : Nat → Int) (ws : Nat → K) (n : Nat) :
    ∀ fuel, n + 1 ≤ fuel →
      ∃ st1, grow_rtree pool select prng tcodes lut D tvals rs cs srs scs iinds ws n fuel =
          some st1 ∧
        (∀ y : Int, (st1.code_log.map Prod.fst).count y =
          if 0 ≤ y ∧ y ≤ 2 ^ D - 2 then 1 else 0) ∧
        (∀ y : Int, (st1.leaf_log.map Prod.fst).count y =
          if 0 ≤ y ∧ y ≤ 2 ^ D - 1 then 1 else 0) ∧
        st1.code_log.length = 2 ^ D - 1 ∧ st1.leaf_log.length = 2 ^ D ∧
        (∀ e, e ∈ st1.code_log → st1.tcodes e.1 = e.2) ∧
        (∀ e, e ∈ st1.leaf_log → st1.lut e.1 = leaf_value tvals ws e.2) ∧
        (0 < D → st1.tcodes 0 = if n ≤ 1 then 0 else (select prng (fun i => i) n).1) ∧
        (∀ y : Int, ¬ (0 ≤ y ∧ y ≤ 2 ^ D - 2) → st1.tcodes y = tcodes y) ∧
        (∀ y : Int, ¬ (0 ≤ y ∧ y ≤ 2 ^ D - 1) → st1.lut y = lut y) := by
  intro fuel hf
  obtain ⟨st1, hrun, newc, newl, ⟨a1, a2, a3⟩, ⟨b1, b2, b3⟩, _, _⟩ :=
    grow_rtree_spec pool select prng tcodes lut D tvals rs cs srs scs iinds ws n fuel hf
  simp only [List.nil_append] at a1 a3 b1 b3
  have hfst : (newl.map (fun (e : Int × List Nat) => (e.1, leaf_value tvals ws e.2))).map
      Prod.fst = newl.map Prod.fst := by
    rw [List.map_map]
    rfl
  refine ⟨st1, hrun, ?_, ?_, ?_, ?_, ?_, ?_, ?_, ?_, ?_⟩
  · intro y
    rw [a1, a2]
    exact count_of_nodup _ (code_slots_nodup D) _ (mem_code_slots D) y
  · intro y
    rw [b1, b2]
    exact count_of_nodup _ (leaf_slots_nodup D) _ (mem_leaf_slots D) y
  · have := congrArg List.length a2
    rw [List.length_map, List.length_map, subtree_slots_length] at this
    rw [a1, this]
  · have := congrArg List.length b2
    rw [List.length_map, List.length_map, leaf_nodes, List.length_range'] at this
    rw [b1, this]
  · intro e he
    rw [a1] at he
    rw [a3]
    exact apply_writes_mem newc tcodes (by rw [a2]; exact code_slots_nodup D) e he
  · intro e he
    rw [b1] at he
    rw [b3]
    exact apply_writes_mem _ lut (by rw [hfst, b2]; exact leaf_slots_nodup D)
      (_, leaf_value tvals ws e.2) (List.mem_map.mpr ⟨_, he, rfl⟩)
  · intro hD
    obtain ⟨h, rfl⟩ : ∃ h, D = h + 1 := ⟨D - 1, by omega⟩
    obtain ⟨st2, hrun2, hcode⟩ := grow_subtree_node_code pool select tvals ws rs cs srs scs
      iinds (h + 1) fuel h 0 0 n
      { tcodes := tcodes, lut := lut, inds := fun i => i, prng := prng,
        code_log := [], leaf_log := [] } hf
    have hsame : grow_rtree pool select prng tcodes lut (h + 1) tvals rs cs srs scs iinds ws n
        fuel = some st2 := by
      unfold grow_rtree
      rw [← hrun2]
      rfl
    rw [hrun] at hsame
    have e := Option.some.inj hsame
    rw [e]
    have hid : (fun k => (fun (i : Nat) => i) (0 + k)) = fun (i : Nat) => i := by
      funext k
      simp
    simp only [hid] at hcode
    simpa using hcode
  · intro y hy
    rw [a3]
    apply apply_writes_not_mem
    rw [a2, mem_code_slots]
    exact hy
  · intro y hy
    rw [b3]
    apply apply_writes_not_mem
    rw [hfst, b2, mem_leaf_slots]
    exact hy

/-- Witness for C20 (amended): the example tree of depth `2` on three samples. -/
theorem grow_rtree_slots_witness :
    3 + 1 ≤ 4 ∧
    (∃ st1, grow_rtree example_pool example_select 0 (fun _ => 0) (fun _ => (0 : ℚ)) 2
        one_positive_tvals (fun _ => 0) split_example_cs (fun _ => 3) (fun _ => 3)
        (fun _ => 0) (fun _ => 1 / 2) 3 4 = some st1 ∧
      (∀ y : Int, (st1.code_log.map Prod.fst).count y =
        if 0 ≤ y ∧ y ≤ 2 ^ 2 - 2 then 1 else 0) ∧
      (∀ y : Int, (st1.leaf_log.map Prod.fst).count y =
        if 0 ≤ y ∧ y ≤ 2 ^ 2 - 1 then 1 else 0) ∧
      st1.code_log.length = 2 ^ 2 - 1 ∧ st1.leaf_log.length = 2 ^ 2 ∧
      (∀ e, e ∈ st1.code_log → st1.tcodes e.1 = e.2) ∧
      (∀ e, e ∈ st1.leaf_log →
        st1.lut e.1 = leaf_value one_positive_tvals (fun _ => (1 / 2 : ℚ)) e.2) ∧
      (0 < 2 → st1.tcodes 0 = if 3 ≤ 1 then 0 else (example_select 0 (fun i => i) 3).1) ∧
      (∀ y : Int, ¬ (0 ≤ y ∧ y ≤ 2 ^ 2 - 2) → st1.tcodes y = (fun _ => 0) y) ∧
      (∀ y : Int, ¬ (0 ≤ y ∧ y ≤ 2 ^ 2 - 1) → st1.lut y = (fun _ => (0 : ℚ)) y)) ∧
    (example_tree : Option (TreeState ℚ)).map (fun st => (st.code_log, st.leaf_log)) =
      some ([(0, 32512), (1, 0), (2, 32512)], [(0, [1]), (1, [1]), (2, []), (3, [0, 2])]) :=
  ⟨by decide,
   grow_rtree_slots example_pool example_select 0 (fun _ => 0) (fun _ => (0 : ℚ)) 2
     one_positive_tvals (fun _ => 0) split_example_cs (fun _ => 3) (fun _ => 3)
     (fun _ => 0) (fun _ => 1 / 2) 3 4 (by decide),
   example_tree_logs⟩

set_option maxRecDepth 100000 in
/-- The first two codes drawn from the initial generator state. -/
theorem example_first_codes :
    candidate_codes 0x12345678000fffff 0 = -2023364684 ∧
    candidate_codes 0x12345678000fffff 1 = -81676289 := by
  constructor <;> decide

/-- The outcomes of the first two codes on the four example samples: `1, 0, 0, 1` and
`1, 0, 1, 0`. -/
theorem example_first_bits :
    (List.range 4).map (gradient_bit (-2023364684)) = [1, 0, 0, 1] ∧
    (List.range 4).map (gradient_bit (-81676289)) = [1, 0, 1, 0] := by
  constructor <;> decide

/-- The scores of the first two codes under the alternating targets: `1` and `0`. -/
theorem example_first_scores :
    candidate_scores gradient_pool alternating_tvals (fun _ => 1 / 4) (fun _ => 128)
      (fun _ => 128) (fun _ => 256) (fun _ => 256) (fun v => (v : Int)) 0x12345678000fffff
      (fun i => i) 4 0 = Flt.fin 1 ∧
    candidate_scores gradient_pool alternating_tvals (fun _ => 1 / 4) (fun _ => 128)
      (fun _ => 128) (fun _ => 256) (fun _ => 256) (fun v => (v : Int)) 0x12345678000fffff
      (fun i => i) 4 1 = Flt.fin 0 := by
  obtain ⟨c0, c1⟩ := example_first_codes
  obtain ⟨b0, b1⟩ := example_first_bits
  simp only [List.range_succ, List.range_zero, List.nil_append, List.cons_append, List.map_cons,
    List.map_nil, List.cons.injEq, and_true, gradient_bit] at b0 b1
  obtain ⟨b00, b01, b02, b03⟩ := b0
  obtain ⟨b10, b11, b12, b13⟩ := b1
  constructor
  · simp only [candidate_scores, c0, get_split_error, split_sums, b00, b01, b02, b03]
    norm_num [split_score, zero_sums, alternating_tvals, SQR, Flt.div, Flt.sub, Flt.add,
      Flt.neg]
  · simp only [candidate_scores, c1, get_split_error, split_sums, b10, b11, b12, b13]
    norm_num [split_score, zero_sums, alternating_tvals, SQR, Flt.div, Flt.sub, Flt.add,
      Flt.neg]

/-- Counterexample to C20 as stated (every slot assigned exactly once): a tree of depth
`1` grown on the four example samples with alternating targets and equal weights from
the initial generator state.  The one internal-node slot `0` is assigned by one call, and
that call stores to `tcodes[0]` at least twice: `tmptcodes[0] = -2023364684` at line 368
(score `1`) and `tmptcodes[1] = -81676289` at line 374 (score `0`, below the best so far);
the slot ends with the last of the stores. -/
theorem grow_rtree_stores_root_twice :
    (search_stores gradient_pool alternating_tvals (fun _ => 1 / 4) (fun _ => 128)
      (fun _ => 128) (fun _ => 256) (fun _ => 256) (fun v => (v : Int)) 0x12345678000fffff
      (fun i => i) 4).take 2 = [-2023364684, -81676289] ∧
    ∃ st1 : TreeState ℚ,
      grow_rtree gradient_pool
        (select_code gradient_pool alternating_tvals (fun _ => 1 / 4) (fun _ => 128)
          (fun _ => 128) (fun _ => 256) (fun _ => 256) (fun v => (v : Int)))
        0x12345678000fffff (fun _ => 0) (fun _ => 0) 1 alternating_tvals (fun _ => 128)
        (fun _ => 128) (fun _ => 256) (fun _ => 256) (fun v => (v : Int)) (fun _ => 1 / 4) 4 5
        = some st1 ∧
      st1.code_log.map Prod.fst = [0] ∧
      (search_stores gradient_pool alternating_tvals (fun _ => 1 / 4) (fun _ => 128)
        (fun _ => 128) (fun _ => 256) (fun _ => 256) (fun v => (v : Int)) 0x12345678000fffff
        (fun i => i) 4).getLast? = some (st1.tcodes 0) := by
  obtain ⟨c0, c1⟩ := example_first_codes
  obtain ⟨e0, e1⟩ := example_first_scores
  constructor
  · unfold search_stores
    have hn : NRANDS - 1 = 1022 + 1 := rfl
    rw [hn, best_stores, e0, e1, c0, c1, if_pos (by simp [Flt.gt])]
    rfl
  · obtain ⟨st1, hrun, newc, newl, ⟨a1, a2, a3⟩, _, _, _⟩ :=
      grow_rtree_spec gradient_pool
        (select_code gradient_pool alternating_tvals (fun _ => 1 / 4) (fun _ => 128)
          (fun _ => 128) (fun _ => 256) (fun _ => 256) (fun v => (v : Int)))
        0x12345678000fffff (fun _ => 0) (fun _ => (0 : ℚ)) 1 alternating_tvals (fun _ => 128)
        (fun _ => 128) (fun _ => 256) (fun _ => 256) (fun v => (v : Int)) (fun _ => 1 / 4) 4 5
        (by decide)
    obtain ⟨st2, hrun2, hcode⟩ := grow_subtree_node_code gradient_pool
      (select_code gradient_pool alternating_tvals (fun _ => 1 / 4) (fun _ => 128)
        (fun _ => 128) (fun _ => 256) (fun _ => 256) (fun v => (v : Int)))
      alternating_tvals (fun _ => 1 / 4) (fun _ => 128) (fun _ => 128) (fun _ => 256)
      (fun _ => 256) (fun v => (v : Int)) 1 5 0 0 0 4
      { tcodes := fun _ => 0, lut := fun _ => (0 : ℚ), inds := fun i => i,
        prng := 0x12345678000fffff, code_log := [], leaf_log := [] } (by decide)
    have hsame : grow_rtree gradient_pool
        (select_code gradient_pool alternating_tvals (fun _ => 1 / 4) (fun _ => 128)
          (fun _ => 128) (fun _ => 256) (fun _ => 256) (fun v => (v : Int)))
        0x12345678000fffff (fun _ => 0) (fun _ => (0 : ℚ)) 1 alternating_tvals (fun _ => 128)
        (fun _ => 128) (fun _ => 256) (fun _ => 256) (fun v => (v : Int)) (fun _ => 1 / 4) 4 5
        = some st2 := by
      unfold grow_rtree
      rw [← hrun2]
      rfl
    rw [hrun] at hsame
    have e := Option.some.inj hsame
    refine ⟨st1, hrun, ?_, ?_⟩
    · simp only [List.nil_append] at a1
      rw [a1, a2]
      rfl
    · rw [select_code_last_store, e]
      have hid : (fun k => (fun (i : Nat) => i) (0 + k)) = fun (i : Nat) => i := by
        funext k
        simp
      simp only [hid] at hcode
      rw [if_neg (by decide)] at hcode
      simpa using hcode.symm

end Pico
